import Mathlib

/-!
CoreSwitch/netutil: the `Prefix` value type.

A shallow embedding of `src/prefix.go`.

* A Go byte is a `Nat` (the value of a `byte` is below 256; every byte the code
  writes is below 256 by construction).
* A Go `int` is an `Int`.  No operation of `prefix.go` can overflow; the 64-bit
  range only matters inside `strconv.Atoi`, where it is checked explicitly.
* A Go `net.IP` is the list of its bytes; the `nil` slice is the empty list.
* A Go `string` is the list of its characters.  Every character the code and
  the library functions it calls look at is ASCII, so characters and bytes
  agree wherever a decision is taken.
* A run-time panic (index out of range) is `none`.
-/

namespace Netutil

/-! ## Data model -/

/-- Go `var MaskBits = []byte{0x00, 0x80, 0xc0, 0xe0, 0xf0, 0xf8, 0xfc, 0xfe, 0xff}`. -/
def MaskBits : List Nat := [0x00, 0x80, 0xc0, 0xe0, 0xf0, 0xf8, 0xfc, 0xfe, 0xff]

/-- Go `AFI_IP = iota`. -/
def AFI_IP : Int := 0

/-- Go `AFI_IP6`. -/
def AFI_IP6 : Int := 1

/-- Go `AFI_MAX`. -/
def AFI_MAX : Int := 2

/-- Go `net.IPv4len`. -/
def IPv4len : Nat := 4

/-- Go `net.IPv6len`. -/
def IPv6len : Nat := 16

/-- Go `type Prefix struct { net.IP; Length int }`. -/
structure Prefix where
  IP : List Nat
  Length : Int
deriving DecidableEq

/-- Go slice read `xs[i]` with an `int` index: `none` is the index-out-of-range panic. -/
def index (xs : List Nat) (i : Int) : Option Nat :=
  if 0 ≤ i then xs[i.toNat]? else none

/-- Go slice write `xs[i] = v` with an `int` index: `none` is the index-out-of-range panic. -/
def store (xs : List Nat) (i : Int) (v : Nat) : Option (List Nat) :=
  if 0 ≤ i ∧ i < xs.length then some (xs.set i.toNat v) else none

/-! ## ApplyMask -/

/-- The loop `for i < len(p.IP) { p.IP[i] = 0; i++ }` of `ApplyMask`; the first
argument bounds the number of iterations. -/
def zeroLoop : Nat → List Nat → Nat → List Nat
  | 0, ip, _ => ip
  | fuel + 1, ip, i => if i < ip.length then zeroLoop fuel (ip.set i 0) (i + 1) else ip

/-- Go `func (p *Prefix) ApplyMask()`: the prefix after the call, or `none` when
the call panics.  Go's `/` and `%` on `int` truncate toward zero. -/
def Prefix.ApplyMask (p : Prefix) : Option Prefix :=
  let i := p.Length.tdiv 8
  if i ≥ p.IP.length then some p
  else
    let offset := p.Length.tmod 8
    match index MaskBits offset, index p.IP i with
    | some m, some b =>
      match store p.IP i (b &&& m) with
      | some ip => some { IP := zeroLoop ip.length ip (i.toNat + 1), Length := p.Length }
      | none => none
    | _, _ => none

/-- Bit `k` of an address, counting from the most significant bit of byte 0;
`false` beyond the buffer. -/
def bitAt (ip : List Nat) (k : Nat) : Bool :=
  (ip.getD (k / 8) 0).testBit (7 - k % 8)

/-- Closed form of the address `ApplyMask` leaves for a length of `n` bits with
`n / 8` inside the buffer. -/
def maskedIP (ip : List Nat) (n : Nat) : List Nat :=
  ip.take (n / 8) ++ ((ip.getD (n / 8) 0) &&& (MaskBits.getD (n % 8) 0))
    :: List.replicate (ip.length - (n / 8 + 1)) 0

/-! ## Model of the Go standard library functions the code calls

`net.IP.To4`, `net.IP.Equal`, `net.IP.String`, `net.ParseIP`, `strconv.Itoa`
and `strconv.Atoi` are not part of the repository.  They are modelled after
the Go standard library (`net/ip.go`, `net/parse.go`, `strconv/atoi.go`,
`strconv/itoa.go`), loop by loop; each loop takes its iteration bound as first
argument, and the bound is never reached before the loop condition fails.

`net.ParseIP` is the parser of `net/ip.go` (`parseIPv4`, `parseIPv6`, `dtoi`,
`xtoi`), with the rejection of leading zeros in dotted decimal fields that Go
1.17 added.  `int` has 64 bits. -/

/-- Go `net.IP`: a slice of bytes. -/
abbrev IP := List Nat

/-- Go `v4InV6Prefix`. -/
def v4InV6Prefix : List Nat := [0, 0, 0, 0, 0, 0, 0, 0, 0, 0, 0xff, 0xff]

/-- Go `net.IPv4(a, b, c, d)`: the 16-byte form of an IPv4 address. -/
def IPv4 (a b c d : Nat) : IP := v4InV6Prefix ++ [a, b, c, d]

/-- Go `isZeros`. -/
def isZeros (p : List Nat) : Bool := p.all (fun b => b == 0)

/-- Go `func (ip IP) To4() IP`; `none` is the nil result. -/
def IP.To4 (ip : IP) : Option IP :=
  if ip.length = IPv4len then some ip
  else if ip.length = IPv6len ∧ isZeros (ip.take 10) = true ∧ ip.getD 10 0 = 0xff
      ∧ ip.getD 11 0 = 0xff then
    some (ip.drop 12)
  else none

/-- Go `func (ip IP) Equal(x IP) bool`. -/
def IP.Equal (ip x : IP) : Bool :=
  if ip.length = x.length then ip == x
  else if ip.length = IPv4len ∧ x.length = IPv6len then
    x.take 12 == v4InV6Prefix && ip == x.drop 12
  else if ip.length = IPv6len ∧ x.length = IPv4len then
    ip.take 12 == v4InV6Prefix && ip.drop 12 == x
  else false

/-- Go `const big = 0xFFFFFF`. -/
def big : Nat := 0xFFFFFF

/-- The character of a decimal digit, Go `byte('0' + d)`. -/
def digitChar (d : Nat) : Char := Char.ofNat (48 + d)

/-- The test `'0' <= c && c <= '9'`. -/
def isDec (c : Char) : Bool := decide (48 ≤ c.toNat) && decide (c.toNat ≤ 57)

/-- The loop of Go `uitoa`, which fills a 20-byte buffer from its end. -/
def uitoaLoop : Nat → Nat → List Char → List Char
  | 0, _, acc => acc
  | fuel + 1, val, acc =>
    if val ≥ 10 then uitoaLoop fuel (val / 10) (digitChar (val % 10) :: acc)
    else digitChar val :: acc

/-- Go `uitoa`: the decimal text of an unsigned integer. -/
def uitoa (val : Nat) : List Char :=
  if val = 0 then ['0'] else uitoaLoop 20 val []

/-- Go `strconv.Itoa`. -/
def Itoa (i : Int) : List Char :=
  if i < 0 then '-' :: uitoa (-i).toNat else uitoa i.toNat

/-- Go `strconv.ErrSyntax` and `strconv.ErrRange`. -/
inductive NumErrKind where
  | ErrSyntax
  | ErrRange
deriving DecidableEq

/-- The error values `ParsePrefix` can return: `*net.ParseError` and
`*strconv.NumError`. -/
inductive GoError where
  | ParseError (Type_ : String) (Text : List Char)
  | NumError (Func : String) (Num : List Char) (Err : NumErrKind)
deriving DecidableEq

deriving instance DecidableEq for Except

/-- The digit loop of Go `strconv.ParseUint(s, 10, 64)`. -/
def parseUintLoop : List Char → Nat → Except NumErrKind Nat
  | [], n => .ok n
  | c :: cs, n =>
    if !isDec c then .error .ErrSyntax
    else if n ≥ (2 ^ 64 - 1) / 10 + 1 then .error .ErrRange
    else
      let n1 := n * 10 + (c.toNat - 48)
      if n1 > 2 ^ 64 - 1 then .error .ErrRange
      else parseUintLoop cs n1

/-- Go `strconv.Atoi` on a 64-bit platform: optional sign, decimal digits, and
the result must fit an `int`. -/
def Atoi (s : List Char) : Except GoError Int :=
  if s.length = 0 then .error (.NumError "Atoi" s .ErrSyntax)
  else
    let neg := decide (s.head? = some '-')
    let body := if s.head? = some '+' ∨ s.head? = some '-' then s.tail else s
    if body.length = 0 then .error (.NumError "Atoi" s .ErrSyntax)
    else
      match parseUintLoop body 0 with
      | .error .ErrSyntax => .error (.NumError "Atoi" s .ErrSyntax)
      | .error .ErrRange => .error (.NumError "Atoi" s .ErrRange)
      | .ok un =>
        if !neg && decide (un ≥ 2 ^ 63) then .error (.NumError "Atoi" s .ErrRange)
        else if neg && decide (un > 2 ^ 63) then .error (.NumError "Atoi" s .ErrRange)
        else .ok (if neg then -(un : Int) else (un : Int))

/-- The loop of Go `dtoi`; the result is `(n, i, ok)`. -/
def dtoiLoop : List Char → Nat → Nat → Nat × Nat × Bool
  | [], n, i => if i = 0 then (0, 0, false) else (n, i, true)
  | c :: cs, n, i =>
    if isDec c then
      let n1 := n * 10 + (c.toNat - 48)
      if n1 ≥ big then (big, i, false) else dtoiLoop cs n1 (i + 1)
    else if i = 0 then (0, 0, false) else (n, i, true)

/-- Go `dtoi`: decimal to integer; returns number, characters consumed, success. -/
def dtoi (s : List Char) : Nat × Nat × Bool := dtoiLoop s 0 0

/-- The value of a hexadecimal digit, `none` for any other character. -/
def hexVal (c : Char) : Option Nat :=
  if 48 ≤ c.toNat ∧ c.toNat ≤ 57 then some (c.toNat - 48)
  else if 97 ≤ c.toNat ∧ c.toNat ≤ 102 then some (c.toNat - 97 + 10)
  else if 65 ≤ c.toNat ∧ c.toNat ≤ 70 then some (c.toNat - 65 + 10)
  else none

/-- The loop of Go `xtoi`; the result is `(n, i, ok)`. -/
def xtoiLoop : List Char → Nat → Nat → Nat × Nat × Bool
  | [], n, i => if i = 0 then (0, i, false) else (n, i, true)
  | c :: cs, n, i =>
    match hexVal c with
    | some d =>
      let n1 := n * 16 + d
      if n1 ≥ big then (0, i, false) else xtoiLoop cs n1 (i + 1)
    | none => if i = 0 then (0, i, false) else (n, i, true)

/-- Go `xtoi`: hexadecimal to integer; returns number, characters consumed, success. -/
def xtoi (s : List Char) : Nat × Nat × Bool := xtoiLoop s 0 0

/-- The loop `for i := 0; i < IPv4len; i++` of Go `parseIPv4`; the first
argument is `IPv4len - i`.  `none` is `return nil`. -/
def parseIPv4Loop : Nat → Nat → List Char → List Nat → Option (List Char × List Nat)
  | 0, _, s, p => some (s, p)
  | k + 1, i, s, p =>
    if s.length = 0 then none
    else if i > 0 ∧ s.head? ≠ some '.' then none
    else
      let s1 := if i > 0 then s.tail else s
      let r := dtoi s1
      if r.2.2 = false ∨ r.1 > 0xFF then none
      else if r.2.1 > 1 ∧ s1.head? = some '0' then none
      else parseIPv4Loop k (i + 1) (s1.drop r.2.1) (p.set i (r.1 % 256))

/-- Go `parseIPv4`: dotted decimal to the 16-byte form; `none` is nil. -/
def parseIPv4 (s : List Char) : Option IP :=
  match parseIPv4Loop IPv4len 0 s [0, 0, 0, 0] with
  | none => none
  | some (rest, p) =>
    if rest.length ≠ 0 then none
    else some (IPv4 (p.getD 0 0) (p.getD 1 0) (p.getD 2 0) (p.getD 3 0))

/-- The main loop `for i < IPv6len` of Go `parseIPv6`.  The state is the rest of
the text, the address, the index `i` and the position of the ellipsis (`none`
for `-1`); `none` is `return nil`, `some` is the state when the loop is left. -/
def parseIPv6Loop : Nat → List Char → List Nat → Nat → Option Nat →
    Option (List Char × List Nat × Nat × Option Nat)
  | 0, s, ip, i, e => some (s, ip, i, e)
  | fuel + 1, s, ip, i, e =>
    if ¬ i < IPv6len then some (s, ip, i, e)
    else
      let r := xtoi s
      if r.2.2 = false ∨ r.1 > 0xFFFF then none
      else if r.2.1 < s.length ∧ s[r.2.1]? = some '.' then
        if e = none ∧ i ≠ IPv6len - IPv4len then none
        else if i + IPv4len > IPv6len then none
        else
          match parseIPv4 s with
          | none => none
          | some ip4 =>
            some ([], (((ip.set i (ip4.getD 12 0)).set (i + 1) (ip4.getD 13 0)).set (i + 2)
              (ip4.getD 14 0)).set (i + 3) (ip4.getD 15 0), i + IPv4len, e)
      else
        let ip1 := (ip.set i ((r.1 >>> 8) % 256)).set (i + 1) (r.1 % 256)
        let s1 := s.drop r.2.1
        if s1.length = 0 then some (s1, ip1, i + 2, e)
        else if s1.head? ≠ some ':' ∨ s1.length = 1 then none
        else
          let s2 := s1.tail
          if s2.head? = some ':' then
            if e ≠ none then none
            else if s2.tail.length = 0 then some (s2.tail, ip1, i + 2, some (i + 2))
            else parseIPv6Loop fuel s2.tail ip1 (i + 2) (some (i + 2))
          else parseIPv6Loop fuel s2 ip1 (i + 2) e

/-- The loop `for j := i - 1; j >= ellipsis; j-- { ip[j+n] = ip[j] }` of Go
`parseIPv6`; the counter is `j - ellipsis + 1`. -/
def expandShift (ellipsis n : Nat) : Nat → List Nat → List Nat
  | 0, ip => ip
  | m + 1, ip =>
    expandShift ellipsis n m (ip.set (ellipsis + m + n) (ip.getD (ellipsis + m) 0))

/-- The loop `for j := ellipsis + n - 1; j >= ellipsis; j-- { ip[j] = 0 }` of Go
`parseIPv6`; the counter is `j - ellipsis + 1`. -/
def expandZero (ellipsis : Nat) : Nat → List Nat → List Nat
  | 0, ip => ip
  | m + 1, ip => expandZero ellipsis m (ip.set (ellipsis + m) 0)

/-- The end of Go `parseIPv6`, after the main loop: the whole text must be
used, and an ellipsis is expanded when fewer than 16 bytes were parsed. -/
def parseIPv6Finish : Option (List Char × List Nat × Nat × Option Nat) → Option IP
  | none => none
  | some (rest, ip, i, e) =>
    if rest.length ≠ 0 then none
    else if i < IPv6len then
      match e with
      | none => none
      | some ellipsis =>
        some (expandZero ellipsis (IPv6len - i)
          (expandShift ellipsis (IPv6len - i) (i - ellipsis) ip))
    else if e ≠ none then none
    else some ip

/-- Go `parseIPv6`: an IPv6 literal to 16 bytes; `none` is nil. -/
def parseIPv6 (s : List Char) : Option IP :=
  let lead : Bool := decide (s.length ≥ 2) && decide (s[0]? = some ':')
    && decide (s[1]? = some ':')
  let s0 := if lead then s.drop 2 else s
  if lead = true ∧ s0.length = 0 then some (List.replicate IPv6len 0)
  else
    parseIPv6Finish
      (parseIPv6Loop IPv6len s0 (List.replicate IPv6len 0) 0 (if lead then some 0 else none))

/-- The scan of Go `ParseIP` for the first `'.'` or `':'`. -/
def ParseIPScan : List Char → List Char → Option IP
  | [], _ => none
  | c :: cs, s =>
    if c = '.' then parseIPv4 s
    else if c = ':' then parseIPv6 s
    else ParseIPScan cs s

/-- Go `net.ParseIP`; `none` is nil. -/
def ParseIP (s : List Char) : Option IP := ParseIPScan s s

/-- Go `const hexDigit = "0123456789abcdef"`. -/
def hexDigit : List Char := "0123456789abcdef".data

/-- The loop `for j := 7; j >= 0; j--` of Go `appendHex`; the counter is `j + 1`. -/
def appendHexLoop : Nat → Nat → List Char
  | 0, _ => []
  | j + 1, i =>
    (if i >>> (j * 4) > 0 then [hexDigit.getD ((i >>> (j * 4)) &&& 0xf) '0'] else [])
      ++ appendHexLoop j i

/-- Go `appendHex`: the characters appended for a 32-bit value. -/
def appendHex (i : Nat) : List Char :=
  if i = 0 then ['0'] else appendHexLoop 8 i

/-- Go `hexString`. -/
def hexString : List Nat → List Char
  | [] => []
  | tn :: b => hexDigit.getD (tn >>> 4) '0' :: hexDigit.getD (tn &&& 0xf) '0' :: hexString b

/-- The inner loop `for j < IPv6len && p[j] == 0 && p[j+1] == 0 { j += 2 }` of
Go `IP.String`. -/
def zeroRunEnd : Nat → List Nat → Nat → Nat
  | 0, _, j => j
  | fuel + 1, p, j =>
    if j < IPv6len ∧ p.getD j 0 = 0 ∧ p.getD (j + 1) 0 = 0 then zeroRunEnd fuel p (j + 2)
    else j

/-- The loop of Go `IP.String` that finds the longest run of zeros; `none`
stands for `e0 = e1 = -1`. -/
def findZeroRun : Nat → List Nat → Nat → Option (Nat × Nat) → Option (Nat × Nat)
  | 0, _, _, e => e
  | fuel + 1, p, i, e =>
    if ¬ i < IPv6len then e
    else
      let j := zeroRunEnd IPv6len p i
      let cur := match e with
        | none => 0
        | some (e0, e1) => e1 - e0
      if j > i ∧ j - i > cur then findZeroRun fuel p (j + 2) (some (i, j))
      else findZeroRun fuel p (i + 2) e

/-- The 16-bit group `(uint32(p[i])<<8)|uint32(p[i+1])`. -/
def group (p : List Nat) (i : Nat) : Nat := (p.getD i 0 <<< 8) ||| p.getD (i + 1) 0

/-- The printing loop of Go `IP.String`: the characters appended from index `i` on. -/
def printLoop : Nat → List Nat → Option (Nat × Nat) → Nat → List Char
  | 0, _, _, _ => []
  | fuel + 1, p, e, i =>
    if ¬ i < IPv6len then []
    else
      match e with
      | some (e0, e1) =>
        if i = e0 then
          if e1 ≥ IPv6len then [':', ':']
          else [':', ':'] ++ appendHex (group p e1) ++ printLoop fuel p e (e1 + 2)
        else
          (if i > 0 then [':'] else []) ++ appendHex (group p i) ++ printLoop fuel p e (i + 2)
      | none =>
        (if i > 0 then [':'] else []) ++ appendHex (group p i) ++ printLoop fuel p e (i + 2)

/-- Go `func (ip IP) String() string`. -/
def IP.String (ip : IP) : List Char :=
  if ip.length = 0 then "<nil>".data
  else
    let p4 := (IP.To4 ip).getD []
    if p4.length = IPv4len then
      uitoa (p4.getD 0 0) ++ '.' :: (uitoa (p4.getD 1 0) ++ '.' :: (uitoa (p4.getD 2 0)
        ++ '.' :: uitoa (p4.getD 3 0)))
    else if ip.length ≠ IPv6len then '?' :: hexString ip
    else
      let e := findZeroRun IPv6len ip 0 none
      let e := match e with
        | none => none
        | some (e0, e1) => if e1 - e0 ≤ 2 then none else some (e0, e1)
      printLoop IPv6len ip e 0

/-- Go `strings.IndexByte`: the index of the first `c` in `s`, or `-1`. -/
def IndexByte : List Char → Char → Int
  | [], _ => -1
  | x :: xs, c => if x = c then 0 else if IndexByte xs c < 0 then -1 else IndexByte xs c + 1

/-! ## The remaining functions of `prefix.go` -/

/-- Go builtin `copy(dst, src)`: the destination after the call; the first
`min(len(dst), len(src))` bytes are overwritten. -/
def copy (dst src : List Nat) : List Nat :=
  src.take dst.length ++ dst.drop src.length

/-- Go `func dupIP(ip net.IP) net.IP`: `make` gives `len(ip)` zero bytes and
`copy` overwrites them with the bytes of `ip`. -/
def dupIP (ip : IP) : IP :=
  let dup := List.replicate ip.length 0
  copy dup ip

/-- Go `func (p *Prefix) AFI() int`. -/
def Prefix.AFI (p : Prefix) : Int :=
  if p.IP.length = IPv4len then AFI_IP
  else if p.IP.length = IPv6len then AFI_IP6
  else AFI_MAX

/-- Go `func ParsePrefix(s string) (*Prefix, error)`: `.error e` is the result
`(nil, e)` and `.ok p` the result `(p, nil)`. -/
def ParsePrefix (s : List Char) : Except GoError Prefix :=
  let i := IndexByte s '/'
  if i < 0 then .error (.ParseError "Prefix address" s)
  else
    let addr := s.take i.toNat
    let mask := s.drop (i.toNat + 1)
    match ParseIP addr with
    | none => .error (.ParseError "Prefix address" s)
    | some ip =>
      let ip := match IP.To4 ip with
        | some ip4 => ip4
        | none => ip
      match Atoi mask with
      | .error err => .error err
      | .ok length => .ok ⟨ip, length⟩

/-- Go `func (p *Prefix) String() string`. -/
def Prefix.String (p : Prefix) : List Char :=
  IP.String p.IP ++ '/' :: Itoa p.Length

/-- Go `func (p *Prefix) Copy() *Prefix`. -/
def Prefix.Copy (p : Prefix) : Prefix :=
  { IP := dupIP p.IP, Length := p.Length }

/-- Go `func (p *Prefix) Equal(x *Prefix) bool`. -/
def Prefix.Equal (p x : Prefix) : Bool :=
  if IP.Equal p.IP x.IP = true ∧ p.Length = x.Length then true else false

/-! ## Storage model

Go slices are views of backing arrays, and `ApplyMask` writes through the slice
of its receiver.  To speak about aliasing, a heap of backing arrays is made
explicit: a slice is a window of one array, `make` allocates a new array, and
a write through a slice updates the array it points into. -/

/-- The backing arrays, indexed by allocation number. -/
abbrev Heap := List (List Nat)

/-- A Go slice header: backing array, offset of the first element, length. -/
structure Slice where
  arr : Nat
  off : Nat
  len : Nat
deriving DecidableEq

/-- A `Prefix` whose address is a slice into the heap. -/
structure PrefixRef where
  IP : Slice
  Length : Int
deriving DecidableEq

/-- The content of backing array `a`. -/
def Heap.array (h : Heap) (a : Nat) : List Nat := h.getD a []

/-- A slice is valid in a heap when it is empty (as the nil slice is) or lies
inside an allocated array. -/
def Heap.validSlice (h : Heap) (s : Slice) : Prop :=
  s.len = 0 ∨ (s.arr < h.length ∧ s.off + s.len ≤ (h.array s.arr).length)

instance (h : Heap) (s : Slice) : Decidable (h.validSlice s) := by
  unfold Heap.validSlice
  infer_instance

/-- The bytes seen through a slice. -/
def Heap.load (h : Heap) (s : Slice) : List Nat :=
  ((h.array s.arr).drop s.off).take s.len

/-- Go `s[i] = v`: `none` is the index-out-of-range panic. -/
def Heap.storeByte (h : Heap) (s : Slice) (i : Nat) (v : Nat) : Option Heap :=
  if i < s.len then some (h.set s.arr ((h.array s.arr).set (s.off + i) v)) else none

/-- Overwrite all the bytes seen through a slice. -/
def Heap.storeAll (h : Heap) (s : Slice) (bytes : List Nat) : Heap :=
  h.set s.arr ((h.array s.arr).take s.off ++ bytes.take s.len
    ++ (h.array s.arr).drop (s.off + s.len))

/-- Go `make(net.IP, n)`: a new array of `n` zero bytes and the slice of all of it. -/
def makeIP (h : Heap) (n : Nat) : Slice × Heap :=
  (⟨h.length, 0, n⟩, h ++ [List.replicate n 0])

/-- Go `dupIP` on the heap: `make`, then `copy(dup, ip)`. -/
def dupIPRef (h : Heap) (ip : Slice) : Slice × Heap :=
  let m := makeIP h ip.len
  (m.1, m.2.storeAll m.1 (copy (m.2.load m.1) (m.2.load ip)))

/-- Go `Copy` on the heap. -/
def PrefixRef.Copy (p : PrefixRef) (h : Heap) : PrefixRef × Heap :=
  let d := dupIPRef h p.IP
  ({ IP := d.1, Length := p.Length }, d.2)

/-- Go `ApplyMask` on the heap: the bytes seen through `p.IP` are replaced by
those `Prefix.ApplyMask` computes; `none` is a panic.  `p.Length` is not
written. -/
def PrefixRef.ApplyMask (p : PrefixRef) (h : Heap) : Option Heap :=
  match Prefix.ApplyMask ⟨h.load p.IP, p.Length⟩ with
  | none => none
  | some q => some (h.storeAll p.IP q.IP)

/-- Go `Equal` on the heap: both addresses are read through their slices. -/
def PrefixRef.Equal (p q : PrefixRef) (h : Heap) : Bool :=
  Prefix.Equal ⟨h.load p.IP, p.Length⟩ ⟨h.load q.IP, q.Length⟩

/-- Two slices share no byte of storage: different backing arrays, or windows
of one array that do not meet. -/
def Slice.disjoint (s t : Slice) : Prop :=
  s.arr ≠ t.arr ∨ s.off + s.len ≤ t.off ∨ t.off + t.len ≤ s.off

instance (s t : Slice) : Decidable (Slice.disjoint s t) := by
  unfold Slice.disjoint
  infer_instance

/-! ## Vocabulary of the specification -/

/-- The 16-byte IPv4-mapped form of a 4-byte address: 10 zero bytes, `0xff`,
`0xff`, then the 4 bytes. -/
def mappedForm (a : List Nat) : List Nat :=
  List.replicate 10 0 ++ [0xff, 0xff] ++ a

/-- Address equality as the specification words it: the same bytes, or a 4-byte
address against its 16-byte IPv4-mapped form. -/
def sameAddress (a b : List Nat) : Prop :=
  a = b ∨ (a.length = 4 ∧ b = mappedForm a) ∨ (b.length = 4 ∧ a = mappedForm b)

/-- A base-10 integer literal: an optional sign followed by one or more
decimal digits. -/
def isBase10Integer (s : List Char) : Bool :=
  match s with
  | [] => false
  | c :: t =>
    if c = '+' ∨ c = '-' then !t.isEmpty && t.all isDec
    else s.all isDec

/-! ## Auxiliary definitions for the proofs -/

/-- The number a run of decimal digits denotes, continuing from `n`. -/
def decVal (cs : List Char) (n : Nat) : Nat :=
  cs.foldl (fun m c => m * 10 + (c.toNat - 48)) n

/-- The characters a textual address is made of: hexadecimal digits, `'.'` and `':'`. -/
def okChar (c : Char) : Bool :=
  (hexVal c).isSome || c = '.' || c = ':'

/-- The text of 16-bit groups, each preceded by `':'`. -/
def tailHex : List Nat → List Char
  | [] => []
  | g :: gs => ':' :: (appendHex g ++ tailHex gs)

/-- The text of 16-bit groups separated by `':'`. -/
def joinHex : List Nat → List Char
  | [] => []
  | g :: gs => appendHex g ++ tailHex gs

/-- The `n` 16-bit groups of an address from byte index `i` on. -/
def groupsOf (p : List Nat) : Nat → Nat → List Nat
  | _, 0 => []
  | i, n + 1 => group p i :: groupsOf p (i + 2) n

/-- An address after 16-bit groups are stored from byte index `i` on, high byte first. -/
def writeGroups : List Nat → Nat → List Nat → List Nat
  | ip, _, [] => ip
  | ip, i, g :: gs =>
    writeGroups ((ip.set i ((g >>> 8) % 256)).set (i + 1) (g % 256)) (i + 2) gs

/-- A run of zeros as `IP.String` records it: even bounds inside the address,
not empty, and only zero bytes between them. -/
def goodRun (p : List Nat) : Option (Nat × Nat) → Prop
  | none => True
  | some (e0, e1) =>
    e0 % 2 = 0 ∧ e1 % 2 = 0 ∧ e0 < e1 ∧ e1 ≤ 16 ∧ ∀ j, e0 ≤ j → j < e1 → p.getD j 0 = 0

/-! ## The constructors of `prefix.go` and the library functions they call -/

/-- Go `func NewPrefixAFI(afi int) *Prefix`; `none` is the nil result.
`make(net.IP, n)` gives `n` zero bytes. -/
def NewPrefixAFI (afi : Int) : Option Prefix :=
  if afi = AFI_IP then some { IP := List.replicate IPv4len 0, Length := 0 }
  else if afi = AFI_IP6 then some { IP := List.replicate IPv6len 0, Length := 0 }
  else none

/-- Go `net.IPNet`: `type IPNet struct { IP IP; Mask IPMask }`. -/
structure IPNet where
  IP : IP
  Mask : List Nat
deriving DecidableEq

/-- The loop `for v&0x80 != 0 { n++; v <<= 1 }` of Go `simpleMaskLength`, on a
byte `v`; the result is `(v, n)` when the loop is left. -/
def onesLoop : Nat → Nat → Nat → Nat × Nat
  | 0, v, n => (v, n)
  | fuel + 1, v, n =>
    if v &&& 0x80 ≠ 0 then onesLoop fuel ((v <<< 1) % 256) (n + 1) else (v, n)

/-- The loop `for i++; i < len(mask); i++ { if mask[i] != 0 { return -1 } }` of
Go `simpleMaskLength`: `true` when it returns `-1`. -/
def restNonZero : List Nat → Bool
  | [] => false
  | b :: bs => if b ≠ 0 then true else restNonZero bs

/-- The loop `for i, v := range mask` of Go `simpleMaskLength`, with the count
`n` so far. -/
def simpleMaskLengthLoop : List Nat → Nat → Int
  | [], n => (n : Int)
  | v :: rest, n =>
    if v = 0xff then simpleMaskLengthLoop rest (n + 8)
    else
      let r := onesLoop 8 v n
      if r.1 ≠ 0 then -1
      else if restNonZero rest = true then -1
      else (r.2 : Int)

/-- Go `simpleMaskLength`: the number of leading ones of a mask that is ones
followed by zeros, `-1` otherwise. -/
def simpleMaskLength (mask : List Nat) : Int := simpleMaskLengthLoop mask 0

/-- Go `func (m IPMask) Size() (ones, bits int)`. -/
def IPMask.Size (m : List Nat) : Int × Int :=
  let ones := simpleMaskLength m
  let bits : Int := (m.length : Int) * 8
  if ones = -1 then (0, 0) else (ones, bits)

/-- Go `func PrefixFromIPNet(net net.IPNet) *Prefix`. -/
def PrefixFromIPNet (net : IPNet) : Prefix :=
  let ip := match IP.To4 net.IP with
    | some ip4 => ip4
    | none => net.IP
  { IP := dupIP ip, Length := (IPMask.Size net.Mask).1 }

/-- Go `func PrefixFromIPPrefixlen(ip net.IP, len int) *Prefix`. -/
def PrefixFromIPPrefixlen (ip : IP) (len : Int) : Prefix :=
  { IP := dupIP ip, Length := len }

/-- Go `func ParseIPv4(s string) net.IP`; `none` is the nil result.  `To4` on a
nil address sees a slice of length 0. -/
def ParseIPv4 (s : List Char) : Option IP :=
  let ip := ParseIP s
  match IP.To4 (ip.getD []) with
  | some ip4 => some ip4
  | none => ip

/-- A canonical mask with `k` leading one bits: `k` one bits followed only by
zero bits, over all the bytes of the mask. -/
def canonicalMask (mask : List Nat) (k : Nat) : Prop :=
  k ≤ 8 * mask.length ∧ (∀ b ∈ mask, b < 256) ∧
    ∀ j, j < 8 * mask.length → bitAt mask j = decide (j < k)

instance (mask : List Nat) (k : Nat) : Decidable (canonicalMask mask k) := by
  unfold canonicalMask
  infer_instance

/-! ## Lemmas on ApplyMask -/

theorem zeroLoop_length (fuel : Nat) (ip : List Nat) (i : Nat) :
    (zeroLoop fuel ip i).length = ip.length := by
  induction fuel generalizing ip i with
  | zero => rfl
  | succ f ih =>
    simp only [zeroLoop]
    split
    · rw [ih]; simp
    · rfl

theorem zeroLoop_eq (fuel : Nat) (ip : List Nat) (i : Nat)
    (hi : i ≤ ip.length) (hf : ip.length - i ≤ fuel) :
    zeroLoop fuel ip i = ip.take i ++ List.replicate (ip.length - i) 0 := by
  induction fuel generalizing ip i with
  | zero =>
    have : i = ip.length := by omega
    subst this
    simp [zeroLoop]
  | succ f ih =>
    simp only [zeroLoop]
    by_cases hlt : i < ip.length
    · rw [if_pos hlt, ih _ _ (by simp; omega) (by simp; omega)]
      apply List.ext_getElem?
      intro k
      simp only [List.length_set, List.getElem?_append, List.length_take, List.getElem?_take,
        List.getElem?_set, List.getElem?_replicate]
      have h1 : min (i + 1) ip.length = i + 1 := by omega
      have h2 : min i ip.length = i := by omega
      rw [h1, h2]
      by_cases hk : k < i
      · have : k < i + 1 := by omega
        have hne : ¬ i = k := by omega
        simp [hk, this, hne]
      · by_cases hk2 : k = i
        · subst hk2
          simp [hlt]
        · have : ¬ k < i + 1 := by omega
          simp [hk, this]
          by_cases h3 : k - (i + 1) < ip.length - (i + 1)
          · have : k - i < ip.length - i := by omega
            simp [h3, this]
          · have : ¬ k - i < ip.length - i := by omega
            simp [h3, this]
    · have : i = ip.length := by omega
      subst this
      simp

theorem tdiv_natCast (n : Nat) : Int.tdiv (n : Int) 8 = ((n / 8 : Nat) : Int) := by
  simp [Int.tdiv_eq_ediv]

theorem tmod_natCast (n : Nat) : Int.tmod (n : Int) 8 = ((n % 8 : Nat) : Int) := by
  simp [Int.tmod_eq_emod]

theorem MaskBits_getElem? (o : Nat) (h : o < 8) :
    MaskBits[o]? = some (MaskBits.getD o 0) := by
  have : o < MaskBits.length := by simp [MaskBits]; omega
  simp [List.getD_eq_getElem?_getD, List.getElem?_eq_getElem this]

/-- For a non-negative length `n` the call does not panic; it returns the
prefix unchanged when `n / 8` is outside the buffer and `maskedIP` otherwise. -/
theorem ApplyMask_natCast (ip : List Nat) (n : Nat) :
    Prefix.ApplyMask ⟨ip, (n : Int)⟩ =
      some ⟨if ip.length ≤ n / 8 then ip else maskedIP ip n, (n : Int)⟩ := by
  unfold Prefix.ApplyMask
  simp only [tdiv_natCast, tmod_natCast, ge_iff_le, Nat.cast_le]
  by_cases h : ip.length ≤ n / 8
  · simp [h]
  · have hlt : n / 8 < ip.length := by omega
    have hm : n % 8 < 8 := Nat.mod_lt _ (by decide)
    simp only [h, if_false, index, Int.natCast_nonneg, if_true, Int.toNat_ofNat,
      MaskBits_getElem? _ hm, List.getElem?_eq_getElem hlt, store, Nat.cast_lt, hlt, and_self]
    simp only [Option.some.injEq, Prefix.mk.injEq, and_true]
    rw [zeroLoop_eq _ _ _ (by simp; omega) (by simp)]
    simp only [List.length_set, maskedIP, List.getD_eq_getElem?_getD,
      List.getElem?_eq_getElem hlt, Option.getD_some]
    rw [List.set_eq_take_cons_drop _ hlt]
    rw [List.take_append_eq_append_take]
    simp [List.take_take, hlt, Nat.le_of_lt hlt]


/-- Whenever `ApplyMask` returns, the buffer has kept its size and Length its value. -/
theorem ApplyMask_some (p q : Prefix) (h : p.ApplyMask = some q) :
    q.IP.length = p.IP.length ∧ q.Length = p.Length := by
  unfold Prefix.ApplyMask at h
  simp only at h
  by_cases hi : p.Length.tdiv 8 ≥ (p.IP.length : Int)
  · rw [if_pos hi] at h
    injection h with h
    subst h
    exact ⟨rfl, rfl⟩
  · rw [if_neg hi] at h
    cases hm : index MaskBits (p.Length.tmod 8) with
    | none => rw [hm] at h; exact absurd h (by simp)
    | some m =>
      cases hb : index p.IP (p.Length.tdiv 8) with
      | none => rw [hm, hb] at h; exact absurd h (by simp)
      | some b =>
        rw [hm, hb] at h
        simp only at h
        cases hs : store p.IP (p.Length.tdiv 8) (b &&& m) with
        | none => rw [hs] at h; exact absurd h (by simp)
        | some ip =>
          rw [hs] at h
          injection h with h
          subst h
          unfold store at hs
          split at hs
          · injection hs with hs
            subst hs
            simp [zeroLoop_length]
          · exact absurd hs (by simp)

theorem maskedIP_length (ip : List Nat) (n : Nat) (h : n / 8 < ip.length) :
    (maskedIP ip n).length = ip.length := by
  simp [maskedIP]
  omega

theorem ext_getD (l1 l2 : List Nat) (hl : l1.length = l2.length)
    (h : ∀ m, l1.getD m 0 = l2.getD m 0) : l1 = l2 := by
  apply List.ext_getElem hl
  intro m h1 h2
  have := h m
  simpa [List.getD_eq_getElem?_getD, List.getElem?_eq_getElem h1,
    List.getElem?_eq_getElem h2] using this

theorem maskedIP_getD (ip : List Nat) (n m : Nat) (h : n / 8 < ip.length) :
    (maskedIP ip n).getD m 0 =
      if m < n / 8 then ip.getD m 0
      else if m = n / 8 then ip.getD m 0 &&& MaskBits.getD (n % 8) 0
      else 0 := by
  have hmin : min (n / 8) ip.length = n / 8 := by omega
  simp only [maskedIP, List.getD_eq_getElem?_getD, List.getElem?_append, List.length_take, hmin]
  by_cases h1 : m < n / 8
  · simp [h1, List.getElem?_take]
  · by_cases h2 : m = n / 8
    · subst h2
      simp
    · have h3 : m - n / 8 = (m - n / 8 - 1) + 1 := by omega
      simp only [h1, h2, if_false]
      rw [h3, List.getElem?_cons_succ, List.getElem?_replicate]
      split <;> rfl

theorem maskedIP_idem (ip : List Nat) (n : Nat) (h : n / 8 < ip.length) :
    maskedIP (maskedIP ip n) n = maskedIP ip n := by
  have hl := maskedIP_length ip n h
  apply ext_getD
  · rw [maskedIP_length _ n (by rw [hl]; exact h)]
  · intro m
    rw [maskedIP_getD (maskedIP ip n) n m (by rw [hl]; exact h), maskedIP_getD ip n m h]
    by_cases h1 : m < n / 8
    · simp [h1]
    · by_cases h2 : m = n / 8
      · simp only [h1, h2, if_false, if_true, lt_irrefl]
        rw [Nat.land_assoc, Nat.and_self]
      · simp [h1, h2]

theorem MaskBits_testBit (o j : Nat) (ho : o < 8) (hj : j < 8) :
    (MaskBits.getD o 0).testBit (7 - j) = decide (j < o) := by
  interval_cases o <;> interval_cases j <;> decide

/-- Bits of the address `ApplyMask` leaves, for a length of `n` bits with `n / 8`
inside the buffer: the first `n` bits are kept and the others are cleared. -/
theorem bitAt_maskedIP (ip : List Nat) (n k : Nat) (h : n / 8 < ip.length) :
    bitAt (maskedIP ip n) k = (decide (k < n) && bitAt ip k) := by
  unfold bitAt
  rw [maskedIP_getD ip n (k / 8) h]
  have hk8 : k % 8 < 8 := Nat.mod_lt _ (by decide)
  have hn8 : n % 8 < 8 := Nat.mod_lt _ (by decide)
  by_cases h1 : k / 8 < n / 8
  · have : k < n := by omega
    simp [h1, this]
  · by_cases h2 : k / 8 = n / 8
    · have hiff : (k % 8 < n % 8) ↔ k < n := by omega
      simp only [h2, lt_irrefl, if_false, if_true, Nat.testBit_land,
        MaskBits_testBit _ _ hn8 hk8, hiff]
      exact Bool.and_comm _ _
    · have : ¬ k < n := by omega
      simp [h1, h2, this]

/-! ## The claims -/

/-- C1: for every Prefix with a non-negative Length, `ApplyMask` returns and
afterwards every bit of the address at bit index `>= Length` (counted from the
most significant bit of byte 0) is zero; 192.168.1.1 with Length 24 becomes
192.168.1.0, and any address with Length 0 becomes all zero bytes. -/
theorem applyMask_clears_bits_from_length (p : Prefix) (h : 0 ≤ p.Length) :
    (∃ q, p.ApplyMask = some q ∧ q.IP.length = p.IP.length ∧ q.Length = p.Length ∧
      ∀ k : Nat, p.Length ≤ (k : Int) → bitAt q.IP k = false) ∧
    Prefix.ApplyMask ⟨[192, 168, 1, 1], 24⟩ = some ⟨[192, 168, 1, 0], 24⟩ ∧
    (∀ ip : List Nat, Prefix.ApplyMask ⟨ip, 0⟩ = some ⟨List.replicate ip.length 0, 0⟩) := by
  refine ⟨?_, by decide, ?_⟩
  · obtain ⟨ip, len⟩ := p
    obtain ⟨n, rfl⟩ := Int.eq_ofNat_of_zero_le h
    refine ⟨_, ApplyMask_natCast ip n, ?_, rfl, ?_⟩
    · by_cases hle : ip.length ≤ n / 8
      · simp [hle]
      · simp [hle, maskedIP_length ip n (by omega)]
    · intro k hk
      have hnk : n ≤ k := by simpa using hk
      by_cases hle : ip.length ≤ n / 8
      · simp only [hle, if_true, bitAt]
        have : ip.length ≤ k / 8 := by omega
        simp [List.getD_eq_getElem?_getD, List.getElem?_eq_none this]
      · simp only [hle, if_false]
        rw [bitAt_maskedIP ip n k (by omega)]
        have : ¬ k < n := by omega
        simp [this]
  · intro ip
    have h0 := ApplyMask_natCast ip 0
    simp only [Nat.cast_zero] at h0
    rw [h0]
    cases ip with
    | nil => simp
    | cons b bs => simp [maskedIP, MaskBits, List.replicate_succ]

/-- Witness of C1 at 10.255.255.255/8. -/
theorem applyMask_clears_bits_from_length_witness :
    (∃ q, Prefix.ApplyMask ⟨[10, 255, 255, 255], 8⟩ = some q ∧
      q.IP.length = 4 ∧ q.Length = 8 ∧
      ∀ k : Nat, (8 : Int) ≤ (k : Int) → bitAt q.IP k = false) :=
  (applyMask_clears_bits_from_length ⟨[10, 255, 255, 255], 8⟩ (by decide)).1

theorem IndexByte_of_not_mem (s : List Char) (c : Char) (h : c ∉ s) : IndexByte s c = -1 := by
  induction s with
  | nil => rfl
  | cons x xs ih =>
    have hx : x ≠ c := fun e => h (by simp [e])
    have hxs : c ∉ xs := fun e => h (by simp [e])
    simp [IndexByte, hx, ih hxs]

theorem IndexByte_append (pre post : List Char) (c : Char) (h : c ∉ pre) :
    IndexByte (pre ++ c :: post) c = (pre.length : Int) := by
  induction pre with
  | nil => simp [IndexByte]
  | cons x xs ih =>
    have hx : x ≠ c := fun e => h (by simp [e])
    have hxs : c ∉ xs := fun e => h (by simp [e])
    have := ih hxs
    have h0 : ¬ ((xs.length : Int) < 0) := by omega
    rw [List.cons_append, IndexByte, if_neg hx, this, if_neg h0]
    simp

/-- `ParsePrefix` on a text with a first `'/'`: the address part and the length
part are parsed separately, the address part first. -/
theorem ParsePrefix_split (addr mask : List Char) (h : '/' ∉ addr) :
    ParsePrefix (addr ++ '/' :: mask) =
      match ParseIP addr with
      | none => .error (.ParseError "Prefix address" (addr ++ '/' :: mask))
      | some ip =>
        match Atoi mask with
        | .error err => .error err
        | .ok length => .ok ⟨(IP.To4 ip).getD ip, length⟩ := by
  unfold ParsePrefix
  have h0 : ¬ ((addr.length : Int) < 0) := by omega
  simp only [IndexByte_append addr mask '/' h, h0, if_false, Int.toNat_ofNat,
    List.take_left, List.drop_left]
  have hd : List.drop (addr.length + 1) (addr ++ '/' :: mask) = mask := by
    rw [List.drop_append_eq_append_drop]
    simp
  rw [hd]
  cases ParseIP addr with
  | none => rfl
  | some ip =>
    cases hT : IP.To4 ip <;> simp [hT]

theorem parseUintLoop_not_all (s : List Char) (n : Nat) (h : s.all isDec = false) :
    parseUintLoop s n = .error .ErrSyntax ∨ parseUintLoop s n = .error .ErrRange := by
  induction s generalizing n with
  | nil => simp at h
  | cons c cs ih =>
    simp only [parseUintLoop]
    by_cases hc : isDec c = true
    · simp only [hc, Bool.not_true, Bool.false_eq_true, if_false]
      split
      · exact Or.inr rfl
      · split
        · exact Or.inr rfl
        · apply ih
          simpa [hc] using h
    · simp [hc]

/-- `Atoi` fails on every text that is not a base-10 integer literal. -/
theorem Atoi_not_integer (s : List Char) (h : isBase10Integer s = false) :
    Atoi s = .error (.NumError "Atoi" s .ErrSyntax) ∨
      Atoi s = .error (.NumError "Atoi" s .ErrRange) := by
  cases s with
  | nil => left; rfl
  | cons c t =>
    simp only [isBase10Integer] at h
    simp only [Atoi, List.length_cons, Nat.add_eq_zero, one_ne_zero, and_false, if_false,
      List.head?_cons, Option.some.injEq, List.tail_cons]
    by_cases hs : c = '+' ∨ c = '-'
    · simp only [hs, if_true] at h ⊢
      cases t with
      | nil => left; simp
      | cons d t' =>
        simp only [List.isEmpty_cons, Bool.not_false, Bool.true_and] at h
        rcases parseUintLoop_not_all (d :: t') 0 h with e | e
        · left; simp [e]
        · right; simp [e]
    · simp only [hs, if_false] at h ⊢
      rcases parseUintLoop_not_all (c :: t) 0 h with e | e
      · left; simp [e]
      · right; simp [e]

theorem IP_Equal_iff (a b : List Nat) : IP.Equal a b = true ↔ sameAddress a b := by
  unfold IP.Equal sameAddress mappedForm
  have hv : List.replicate 10 0 ++ [0xff, 0xff] = v4InV6Prefix := by decide
  simp only [hv, IPv4len, IPv6len]
  by_cases h1 : a.length = b.length
  · simp only [h1, if_true, beq_iff_eq]
    constructor
    · intro h; exact Or.inl h
    · rintro (h | ⟨h4, hb⟩ | ⟨h4, ha⟩)
      · exact h
      · exfalso; rw [hb] at h1; simp [v4InV6Prefix] at h1; omega
      · exfalso; rw [ha] at h1; simp [v4InV6Prefix] at h1; omega
  · simp only [h1, if_false]
    by_cases h2 : a.length = 4 ∧ b.length = 16
    · simp only [h2, and_self, if_true, Bool.and_eq_true, beq_iff_eq, true_and]
      constructor
      · rintro ⟨e1, e2⟩
        right; left
        rw [← e1, e2, List.take_append_drop]
      · rintro (h | hb | ⟨h4, ha⟩)
        · exact absurd (by rw [h]) h1
        · have hb' := hb
          constructor
          · rw [hb]; simp [v4InV6Prefix]
          · rw [hb]; simp [v4InV6Prefix]
        · omega
    · simp only [h2, if_false]
      by_cases h3 : a.length = 16 ∧ b.length = 4
      · simp only [h3, and_self, if_true, Bool.and_eq_true, beq_iff_eq, true_and]
        constructor
        · rintro ⟨e1, e2⟩
          right; right
          rw [← e1, ← e2, List.take_append_drop]
        · rintro (h | ⟨h4, hb⟩ | ha)
          · exact absurd (by rw [h]) h1
          · omega
          · constructor
            · rw [ha]; simp [v4InV6Prefix]
            · rw [ha]; simp [v4InV6Prefix]
      · simp only [h3, if_false, Bool.false_eq_true, false_iff]
        rintro (h | ⟨h4, hb⟩ | ⟨h4, ha⟩)
        · exact h1 (by rw [h])
        · apply h2; refine ⟨h4, ?_⟩; rw [hb]; simp [v4InV6Prefix, h4]
        · apply h3; refine ⟨?_, h4⟩; rw [ha]; simp [v4InV6Prefix, h4]

theorem dupIP_eq (ip : List Nat) : dupIP ip = ip := by
  simp [dupIP, copy]

theorem prefix_equal_iff_aux (a b : Prefix) :
    a.Equal b = true ↔ a.Length = b.Length ∧ sameAddress a.IP b.IP := by
  unfold Prefix.Equal
  rw [← IP_Equal_iff]
  constructor
  · intro h
    by_cases hc : IP.Equal a.IP b.IP = true ∧ a.Length = b.Length
    · exact ⟨hc.2, hc.1⟩
    · simp [hc] at h
  · rintro ⟨h1, h2⟩
    simp [h1, h2]

/-- C4: `ParsePrefix s` returns no Prefix and the `net.ParseError` of Type
"Prefix address" whose Text is the whole input `s`, whenever `s` has no `'/'` or
the text before its first `'/'` is not a valid textual address; so it does on
"10.0.0.0" and on "not-an-ip/24". -/
theorem parsePrefix_bad_address (s : List Char)
    (h : '/' ∉ s ∨
      ∃ addr mask, s = addr ++ '/' :: mask ∧ '/' ∉ addr ∧ ParseIP addr = none) :
    ParsePrefix s = .error (.ParseError "Prefix address" s) := by
  rcases h with h | ⟨addr, mask, rfl, hno, hbad⟩
  · unfold ParsePrefix
    simp [IndexByte_of_not_mem s '/' h]
  · rw [ParsePrefix_split addr mask hno, hbad]

/-- Witness of C4 at "10.0.0.0" (no slash) and "not-an-ip/24" (bad address). -/
theorem parsePrefix_bad_address_witness :
    ParsePrefix "10.0.0.0".data = .error (.ParseError "Prefix address" "10.0.0.0".data) ∧
    ParsePrefix "not-an-ip/24".data
      = .error (.ParseError "Prefix address" "not-an-ip/24".data) :=
  ⟨parsePrefix_bad_address "10.0.0.0".data (Or.inl (by decide)),
   parsePrefix_bad_address "not-an-ip/24".data
     (Or.inr ⟨"not-an-ip".data, "24".data, by decide, by decide, by decide⟩)⟩

/-- C5: `ParsePrefix` splits on the first `'/'` only: when the text before the
first `'/'` is a valid address and the whole text after it is not a base-10
integer, the result is no Prefix and the `strconv.NumError` that `Atoi` returns
for that text, never the "Prefix address" ParseError. -/
theorem parsePrefix_malformed_length (addr mask : List Char)
    (hfirst : '/' ∉ addr) (hvalid : ParseIP addr ≠ none)
    (hbad : isBase10Integer mask = false) :
    ∃ kind, Atoi mask = .error (.NumError "Atoi" mask kind) ∧
      ParsePrefix (addr ++ '/' :: mask) = .error (.NumError "Atoi" mask kind) ∧
      ParsePrefix (addr ++ '/' :: mask)
        ≠ .error (.ParseError "Prefix address" (addr ++ '/' :: mask)) := by
  rw [ParsePrefix_split addr mask hfirst]
  cases hip : ParseIP addr with
  | none => exact absurd hip hvalid
  | some ip =>
    rcases Atoi_not_integer mask hbad with e | e
    · exact ⟨.ErrSyntax, e, by simp [e], by simp [e]⟩
    · exact ⟨.ErrRange, e, by simp [e], by simp [e]⟩

/-- Witness of C5 at "10.0.0.0/abc", "10.0.0.0/" and "10.0.0.0/8/9". -/
theorem parsePrefix_malformed_length_witness :
    (∃ kind, Atoi "abc".data = .error (.NumError "Atoi" "abc".data kind) ∧
      ParsePrefix ("10.0.0.0".data ++ '/' :: "abc".data)
        = .error (.NumError "Atoi" "abc".data kind) ∧
      ParsePrefix ("10.0.0.0".data ++ '/' :: "abc".data)
        ≠ .error (.ParseError "Prefix address" ("10.0.0.0".data ++ '/' :: "abc".data))) ∧
    (∃ kind, Atoi "".data = .error (.NumError "Atoi" "".data kind) ∧
      ParsePrefix ("10.0.0.0".data ++ '/' :: "".data)
        = .error (.NumError "Atoi" "".data kind) ∧
      ParsePrefix ("10.0.0.0".data ++ '/' :: "".data)
        ≠ .error (.ParseError "Prefix address" ("10.0.0.0".data ++ '/' :: "".data))) ∧
    (∃ kind, Atoi "8/9".data = .error (.NumError "Atoi" "8/9".data kind) ∧
      ParsePrefix ("10.0.0.0".data ++ '/' :: "8/9".data)
        = .error (.NumError "Atoi" "8/9".data kind) ∧
      ParsePrefix ("10.0.0.0".data ++ '/' :: "8/9".data)
        ≠ .error (.ParseError "Prefix address" ("10.0.0.0".data ++ '/' :: "8/9".data))) :=
  ⟨parsePrefix_malformed_length "10.0.0.0".data "abc".data (by decide) (by decide) (by decide),
   parsePrefix_malformed_length "10.0.0.0".data "".data (by decide) (by decide) (by decide),
   parsePrefix_malformed_length "10.0.0.0".data "8/9".data (by decide) (by decide) (by decide)⟩

/-- C7: `p.Equal(x)` is true exactly when the Lengths are equal and the
addresses are the same address, that is the same bytes, or a 4-byte address on
one side and its 16-byte IPv4-mapped form on the other; in particular a 4-byte
prefix and its mapped counterpart with the same Length are Equal. -/
theorem prefix_equal_iff (p x : Prefix) :
    (p.Equal x = true ↔ p.Length = x.Length ∧ sameAddress p.IP x.IP) ∧
    (p.IP.length = 4 → p.Equal ⟨mappedForm p.IP, p.Length⟩ = true ∧
      Prefix.Equal ⟨mappedForm p.IP, p.Length⟩ p = true) := by
  have key := prefix_equal_iff_aux
  refine ⟨key p x, fun h4 => ⟨?_, ?_⟩⟩
  · rw [key]
    exact ⟨rfl, Or.inr (Or.inl ⟨h4, rfl⟩)⟩
  · rw [key]
    exact ⟨rfl, Or.inr (Or.inr ⟨h4, rfl⟩)⟩

/-- Witness of C7 at 10.0.0.1/8 against ::ffff:10.0.0.1/8. -/
theorem prefix_equal_iff_witness :
    Prefix.Equal ⟨[10, 0, 0, 1], 8⟩ ⟨mappedForm [10, 0, 0, 1], 8⟩ = true ∧
    Prefix.Equal ⟨mappedForm [10, 0, 0, 1], 8⟩ ⟨[10, 0, 0, 1], 8⟩ = true :=
  (prefix_equal_iff ⟨[10, 0, 0, 1], 8⟩ ⟨[10, 0, 0, 1], 8⟩).2 (by decide)

/-- C8: for every Prefix, whatever the size of its address buffer and its
Length, `Copy` returns an address with the same number of bytes and the same
byte values and the same Length, and `p.Copy().Equal(p)` is true. -/
theorem copy_equal (p : Prefix) :
    p.Copy.IP.length = p.IP.length ∧ p.Copy.IP = p.IP ∧ p.Copy.Length = p.Length ∧
      p.Copy.Equal p = true := by
  have hip : p.Copy.IP = p.IP := dupIP_eq p.IP
  refine ⟨by rw [hip], hip, rfl, ?_⟩
  rw [(prefix_equal_iff_aux p.Copy p)]
  exact ⟨rfl, Or.inl hip⟩

/-- C10: `AFI` depends on the length of the address buffer only: it is `AFI_IP`
(0) exactly for 4 bytes, `AFI_IP6` (1) exactly for 16 bytes, and `AFI_MAX` (2)
exactly for every other length, whatever the bytes and the Length are. -/
theorem afi_by_buffer_length (p : Prefix) :
    (p.AFI = AFI_IP ↔ p.IP.length = 4) ∧ (p.AFI = AFI_IP6 ↔ p.IP.length = 16) ∧
    (p.AFI = AFI_MAX ↔ (p.IP.length ≠ 4 ∧ p.IP.length ≠ 16)) ∧
    AFI_IP = 0 ∧ AFI_IP6 = 1 ∧ AFI_MAX = 2 ∧
    p.AFI = (if p.IP.length = 4 then 0 else if p.IP.length = 16 then 1 else 2) ∧
    Prefix.AFI ⟨[], p.Length⟩ = 2 ∧ Prefix.AFI ⟨[1, 2, 3, 4, 5], p.Length⟩ = 2 := by
  unfold Prefix.AFI AFI_IP AFI_IP6 AFI_MAX IPv4len IPv6len
  by_cases h4 : p.IP.length = 4
  · simp [h4]
  · by_cases h16 : p.IP.length = 16
    · simp [h16]
    · simp [h4, h16]


/-! ## Lemmas on the storage model -/

theorem Heap.array_set_same (h : Heap) (a : Nat) (x : List Nat) (ha : a < h.length) :
    Heap.array (h.set a x) a = x := by
  simp [Heap.array, List.getD_eq_getElem?_getD, List.getElem?_set, ha]

theorem Heap.array_set_other (h : Heap) (a b : Nat) (x : List Nat) (hne : b ≠ a) :
    Heap.array (h.set a x) b = Heap.array h b := by
  simp only [Heap.array, List.getD_eq_getElem?_getD, List.getElem?_set]
  rw [if_neg (fun e => hne e.symm)]

theorem Heap.array_append (h : Heap) (b : Nat) (x : List Nat) (hlt : b < h.length) :
    Heap.array (h ++ [x]) b = Heap.array h b := by
  simp [Heap.array, List.getD_eq_getElem?_getD, List.getElem?_append, hlt]

theorem Heap.array_append_new (h : Heap) (x : List Nat) :
    Heap.array (h ++ [x]) h.length = x := by
  simp [Heap.array, List.getD_eq_getElem?_getD, List.getElem?_append]

theorem Heap.load_set_other (h : Heap) (s : Slice) (a : Nat) (x : List Nat)
    (hne : s.len = 0 ∨ s.arr ≠ a) : Heap.load (h.set a x) s = Heap.load h s := by
  unfold Heap.load
  rcases hne with h0 | hne
  · simp [h0]
  · rw [Heap.array_set_other h a s.arr x hne]

theorem Heap.load_append (h : Heap) (s : Slice) (x : List Nat)
    (hv : s.len = 0 ∨ s.arr < h.length) : Heap.load (h ++ [x]) s = Heap.load h s := by
  unfold Heap.load
  rcases hv with h0 | hlt
  · simp [h0]
  · rw [Heap.array_append h s.arr x hlt]

theorem Heap.load_storeAll_self (h : Heap) (s : Slice) (bytes : List Nat)
    (ha : s.arr < h.length) (ho : s.off ≤ (h.array s.arr).length)
    (hb : bytes.length = s.len) : Heap.load (h.storeAll s bytes) s = bytes := by
  unfold Heap.load Heap.storeAll
  rw [Heap.array_set_same h s.arr _ ha]
  have h1 : (List.take s.off (h.array s.arr)).length = s.off := by
    rw [List.length_take]; omega
  have h2 : List.take s.len bytes = bytes := List.take_of_length_le (by omega)
  rw [h2, List.append_assoc, List.drop_append_eq_append_drop, h1]
  rw [List.drop_of_length_le (by rw [h1]), List.nil_append]
  simp only [Nat.sub_self, List.drop_zero]
  rw [List.take_append_eq_append_take, hb, h2]
  simp

theorem Heap.load_length (h : Heap) (s : Slice)
    (hv : s.off + s.len ≤ (h.array s.arr).length) : (Heap.load h s).length = s.len := by
  unfold Heap.load
  rw [List.length_take, List.length_drop]
  omega

theorem Heap.load_storeByte_self (h h2 : Heap) (s : Slice) (i v : Nat)
    (ha : s.arr < h.length) (hs : Heap.storeByte h s i v = some h2) :
    Heap.load h2 s = (Heap.load h s).set i v := by
  unfold Heap.storeByte at hs
  by_cases hi : i < s.len
  · rw [if_pos hi] at hs
    injection hs with hs
    subst hs
    unfold Heap.load
    rw [Heap.array_set_same h s.arr _ ha]
    generalize h.array s.arr = A
    apply List.ext_getElem?
    intro k
    simp only [List.getElem?_take, List.getElem?_drop, List.getElem?_set, List.length_take,
      List.length_drop]
    by_cases hk : k < s.len
    · by_cases hki : i = k
      · subst hki
        by_cases hA : s.off + i < A.length
        · have : i < A.length - s.off := by omega
          simp [hk, hA, this]
        · have : ¬ i < A.length - s.off := by omega
          simp [hk, hA, this]
      · have : ¬ s.off + i = s.off + k := by omega
        simp [hk, hki, this]
    · have : ¬ i = k := by omega
      simp [hk, this]
  · rw [if_neg hi] at hs
    exact absurd hs (by simp)

theorem Heap.storeAll_empty (h : Heap) (s : Slice) (bytes : List Nat) (h0 : s.len = 0) :
    Heap.storeAll h s bytes = h := by
  unfold Heap.storeAll
  rw [h0]
  simp only [List.take_zero, List.append_nil, Nat.add_zero, List.take_append_drop]
  apply List.ext_getElem?
  intro k
  rw [List.getElem?_set]
  by_cases hk : s.arr = k
  · subst hk
    by_cases hlt : s.arr < h.length
    · simp [hlt, Heap.array, List.getD_eq_getElem?_getD, List.getElem?_eq_getElem hlt]
    · simp [hlt, List.getElem?_eq_none (Nat.le_of_not_lt hlt)]
  · simp [hk]

theorem copy_zeros (src : List Nat) :
    copy (List.replicate src.length 0) src = src := by
  simp [copy]

/-- What `Copy` does on the heap: the heap grows by one array, the new slice is
all of that array, and the array holds the bytes seen through `p.IP`. -/
theorem PrefixRef.Copy_spec (p : PrefixRef) (h : Heap) (hv : h.validSlice p.IP) :
    (p.Copy h).1.IP = ⟨h.length, 0, p.IP.len⟩ ∧ (p.Copy h).1.Length = p.Length ∧
    (p.Copy h).2.length = h.length + 1 ∧
    Heap.load (p.Copy h).2 (p.Copy h).1.IP = Heap.load h p.IP ∧
    Heap.load (p.Copy h).2 p.IP = Heap.load h p.IP := by
  have hpl : (Heap.load h p.IP).length = p.IP.len := by
    rcases hv with h0 | ⟨_, hb⟩
    · simp [Heap.load, h0]
    · exact Heap.load_length h p.IP hb
  have hpA : Heap.load (h ++ [List.replicate p.IP.len 0]) p.IP = Heap.load h p.IP :=
    Heap.load_append h p.IP _ (hv.imp id (fun x => x.1))
  have hcA : Heap.load (h ++ [List.replicate p.IP.len 0]) ⟨h.length, 0, p.IP.len⟩
      = List.replicate p.IP.len 0 := by
    simp [Heap.load, Heap.array_append_new]
  have hbytes : copy (List.replicate p.IP.len 0) (Heap.load h p.IP) = Heap.load h p.IP := by
    have := copy_zeros (Heap.load h p.IP)
    rwa [hpl] at this
  simp only [PrefixRef.Copy, dupIPRef, makeIP, hpA, hcA, hbytes]
  refine ⟨trivial, trivial, ?_, ?_, ?_⟩
  · simp [Heap.storeAll]
  · apply Heap.load_storeAll_self
    · simp
    · simp
    · exact hpl
  · unfold Heap.storeAll
    rw [Heap.load_set_other _ _ _ _ ?_, hpA]
    rcases hv with h0 | ⟨ha, _⟩
    · exact Or.inl h0
    · right
      show p.IP.arr ≠ h.length
      omega

/-- C9: `Copy` gives independent storage.  After `c := p.Copy()`, `c` shows the
bytes and the Length of `p`; a write of any byte through `c.IP`, and
`c.ApplyMask()`, leave the bytes seen through `p.IP` as they were, and a write
through `p.IP`, and `p.ApplyMask()`, leave the bytes seen through `c.IP` as they
were.  The Length fields are separate struct fields that no write to address
bytes touches. -/
theorem copy_independent_storage (h : Heap) (p : PrefixRef) (hv : h.validSlice p.IP) :
    Heap.load (p.Copy h).2 (p.Copy h).1.IP = Heap.load h p.IP ∧
    (p.Copy h).1.Length = p.Length ∧
    Heap.load (p.Copy h).2 p.IP = Heap.load h p.IP ∧
    (∀ i v h2, Heap.storeByte (p.Copy h).2 (p.Copy h).1.IP i v = some h2 →
      Heap.load h2 p.IP = Heap.load h p.IP ∧
      Heap.load h2 (p.Copy h).1.IP = (Heap.load h p.IP).set i v) ∧
    (∀ h2, (p.Copy h).1.ApplyMask (p.Copy h).2 = some h2 →
      Heap.load h2 p.IP = Heap.load h p.IP ∧
      (Prefix.ApplyMask ⟨Heap.load h p.IP, p.Length⟩).map (fun q => q.IP)
        = some (Heap.load h2 (p.Copy h).1.IP)) ∧
    (∀ i v h2, Heap.storeByte (p.Copy h).2 p.IP i v = some h2 →
      Heap.load h2 (p.Copy h).1.IP = Heap.load h p.IP) ∧
    (∀ h2, p.ApplyMask (p.Copy h).2 = some h2 →
      Heap.load h2 (p.Copy h).1.IP = Heap.load h p.IP) := by
  obtain ⟨hc, hlen, hsz, hlc, hlp⟩ := PrefixRef.Copy_spec p h hv
  have hne : p.IP.len = 0 ∨ p.IP.arr ≠ (p.Copy h).1.IP.arr := by
    rcases hv with h0 | ⟨ha, _⟩
    · exact Or.inl h0
    · right; rw [hc]; show p.IP.arr ≠ h.length; omega
  have hca : (p.Copy h).1.IP.arr < (p.Copy h).2.length := by
    rw [hc, hsz]; show h.length < h.length + 1; omega
  refine ⟨hlc, hlen, hlp, ?_, ?_, ?_, ?_⟩
  · intro i v h2 hs
    refine ⟨?_, ?_⟩
    · have hs' := hs
      unfold Heap.storeByte at hs'
      split at hs'
      · injection hs' with hs'
        rw [← hs', Heap.load_set_other _ _ _ _ hne, hlp]
      · exact absurd hs' (by simp)
    · rw [Heap.load_storeByte_self _ _ _ _ _ hca hs, hlc]
  · intro h2 hs
    unfold PrefixRef.ApplyMask at hs
    rw [hlc, hlen] at hs
    cases hq : Prefix.ApplyMask ⟨Heap.load h p.IP, p.Length⟩ with
    | none => rw [hq] at hs; exact absurd hs (by simp)
    | some q =>
      rw [hq] at hs
      injection hs with hs
      subst hs
      refine ⟨?_, ?_⟩
      · unfold Heap.storeAll
        rw [Heap.load_set_other _ _ _ _ hne, hlp]
      · simp only [Option.map_some']
        congr 1
        symm
        apply Heap.load_storeAll_self _ _ _ hca
        · rw [hc]; exact Nat.zero_le _
        · rw [(ApplyMask_some _ q hq).1, hc]
          rcases hv with h0 | ⟨_, hb⟩
          · simp [Heap.load, h0]
          · exact Heap.load_length h p.IP hb
  · intro i v h2 hs
    unfold Heap.storeByte at hs
    split at hs
    · rename_i hi
      injection hs with hs
      rw [← hs, Heap.load_set_other _ _ _ _ ?_, hlc]
      right
      rcases hne with h0 | hne
      · omega
      · exact fun e => hne e.symm
    · exact absurd hs (by simp)
  · intro h2 hs
    unfold PrefixRef.ApplyMask at hs
    cases hq : Prefix.ApplyMask ⟨Heap.load (p.Copy h).2 p.IP, p.Length⟩ with
    | none => rw [hq] at hs; exact absurd hs (by simp)
    | some q =>
      rw [hq] at hs
      injection hs with hs
      subst hs
      rcases hne with h0 | hne
      · rw [Heap.storeAll_empty _ _ _ h0, hlc]
      · unfold Heap.storeAll
        rw [Heap.load_set_other _ _ _ _ (Or.inr (fun e => hne e.symm)), hlc]

/-- Witness of C9: 192.168.1.1/24 held in a 6-byte array; masking the copy
leaves the original at 192.168.1.1 while the copy becomes 192.168.1.0. -/
theorem copy_independent_storage_witness :
    Heap.validSlice [[192, 168, 1, 1, 7, 7]] ⟨0, 0, 4⟩ ∧
    ∀ h2, (PrefixRef.Copy ⟨⟨0, 0, 4⟩, 24⟩ [[192, 168, 1, 1, 7, 7]]).1.ApplyMask
        (PrefixRef.Copy ⟨⟨0, 0, 4⟩, 24⟩ [[192, 168, 1, 1, 7, 7]]).2 = some h2 →
      Heap.load h2 ⟨0, 0, 4⟩ = [192, 168, 1, 1] ∧
      some [192, 168, 1, 0]
        = some (Heap.load h2 (PrefixRef.Copy ⟨⟨0, 0, 4⟩, 24⟩ [[192, 168, 1, 1, 7, 7]]).1.IP) :=
  ⟨by decide,
   (copy_independent_storage [[192, 168, 1, 1, 7, 7]] ⟨⟨0, 0, 4⟩, 24⟩ (by decide)).2.2.2.2.1⟩

/-! ## Lemmas on decimal text -/

theorem digitChar_toNat (d : Nat) (h : d < 10) : (digitChar d).toNat = 48 + d := by
  interval_cases d <;> rfl

theorem isDec_digitChar (d : Nat) (h : d < 10) : isDec (digitChar d) = true := by
  interval_cases d <;> rfl

theorem isDec_iff (c : Char) : isDec c = true ↔ 48 ≤ c.toNat ∧ c.toNat ≤ 57 := by
  simp [isDec]

theorem decVal_append (a b : List Char) (n : Nat) :
    decVal (a ++ b) n = decVal b (decVal a n) := by
  simp [decVal, List.foldl_append]

theorem decVal_ge (cs : List Char) (n : Nat) : n ≤ decVal cs n := by
  induction cs generalizing n with
  | nil => simp [decVal]
  | cons c cs ih =>
    have := ih (n * 10 + (c.toNat - 48))
    simp only [decVal, List.foldl_cons] at this ⊢
    omega

/-- The digits `uitoaLoop` puts in front of its buffer: they denote `val`, there
is at least one, and the first is `'0'` only for `val = 0`. -/
theorem uitoaLoop_spec (fuel val : Nat) (acc : List Char) (hf : val < 10 ^ fuel)
    (hpos : 0 < fuel) :
    ∃ L, uitoaLoop fuel val acc = L ++ acc ∧ L.all isDec = true ∧ decVal L 0 = val ∧
      L ≠ [] ∧ (val ≠ 0 → L.head? ≠ some '0') := by
  induction fuel generalizing val acc with
  | zero => exact absurd hpos (by decide)
  | succ f ih =>
    simp only [uitoaLoop]
    by_cases h10 : val ≥ 10
    · rw [if_pos h10]
      have hq : val / 10 < 10 ^ f := by
        rw [pow_succ] at hf
        omega
      have hf0 : 0 < f := by
        rcases Nat.eq_zero_or_pos f with h0 | h0
        · subst h0; simp at hf; omega
        · exact h0
      obtain ⟨L, hL, hall, hval, hne, hhead⟩ :=
        ih (val / 10) (digitChar (val % 10) :: acc) hq hf0
      have hm : val % 10 < 10 := Nat.mod_lt _ (by decide)
      refine ⟨L ++ [digitChar (val % 10)], by rw [hL]; simp, ?_, ?_, by simp, ?_⟩
      · simp [List.all_append, hall, isDec_digitChar _ hm]
      · rw [decVal_append, hval]
        simp only [decVal, List.foldl_cons, List.foldl_nil, digitChar_toNat _ hm]
        omega
      · intro _
        have := hhead (by omega)
        cases L with
        | nil => exact absurd rfl hne
        | cons x xs => simpa using this
    · rw [if_neg h10]
      have hv : val < 10 := by omega
      refine ⟨[digitChar val], rfl, by simp [isDec_digitChar _ hv], ?_, by simp, ?_⟩
      · simp [decVal, digitChar_toNat _ hv]
      · intro h0
        simp only [List.head?_cons, ne_eq, Option.some.injEq]
        intro e
        have := congrArg Char.toNat e
        rw [digitChar_toNat _ hv] at this
        have h48 : ('0' : Char).toNat = 48 := rfl
        omega

/-- The text `uitoa` gives for a value below `10 ^ 20`. -/
theorem uitoa_spec (val : Nat) (hf : val < 10 ^ 20) :
    (uitoa val).all isDec = true ∧ decVal (uitoa val) 0 = val ∧ uitoa val ≠ [] ∧
      (val ≠ 0 → (uitoa val).head? ≠ some '0') ∧ (val = 0 → uitoa val = ['0']) := by
  unfold uitoa
  by_cases h0 : val = 0
  · subst h0
    simp [decVal]
    decide
  · rw [if_neg h0]
    obtain ⟨L, hL, hall, hval, hne, hhead⟩ := uitoaLoop_spec 20 val [] hf (by decide)
    rw [hL, List.append_nil]
    exact ⟨hall, hval, hne, hhead, fun h => absurd h h0⟩

/-- The loop of `dtoi` on a run of digits followed by no digit. -/
theorem dtoiLoop_digits (L rest : List Char) (n i : Nat) (hall : L.all isDec = true)
    (hbig : decVal L n < big) (hrest : ∀ c, rest.head? = some c → isDec c = false) :
    dtoiLoop (L ++ rest) n i =
      if i + L.length = 0 then (0, 0, false) else (decVal L n, i + L.length, true) := by
  induction L generalizing n i with
  | nil =>
    cases rest with
    | nil => simp [dtoiLoop, decVal]
    | cons c cs =>
      have := hrest c rfl
      simp [dtoiLoop, decVal, this]
  | cons c cs ih =>
    simp only [List.all_cons, Bool.and_eq_true] at hall
    have hstep : decVal (c :: cs) n = decVal cs (n * 10 + (c.toNat - 48)) := rfl
    rw [hstep] at hbig ⊢
    have hlt : ¬ n * 10 + (c.toNat - 48) ≥ big := by
      have := decVal_ge cs (n * 10 + (c.toNat - 48))
      omega
    rw [List.cons_append]
    simp only [dtoiLoop, hall.1, if_true, hlt, if_false]
    rw [ih _ _ hall.2 hbig]
    have e : i + 1 + cs.length = i + (c :: cs).length := by simp; omega
    rw [e]

/-- The digit loop of `ParseUint` on a run of digits that fits 64 bits. -/
theorem parseUintLoop_digits (L : List Char) (n : Nat) (hall : L.all isDec = true)
    (hfit : decVal L n ≤ 2 ^ 64 - 1) : parseUintLoop L n = .ok (decVal L n) := by
  induction L generalizing n with
  | nil => simp [parseUintLoop, decVal]
  | cons c cs ih =>
    simp only [List.all_cons, Bool.and_eq_true] at hall
    have hstep : decVal (c :: cs) n = decVal cs (n * 10 + (c.toNat - 48)) := rfl
    rw [hstep] at hfit ⊢
    have hge := decVal_ge cs (n * 10 + (c.toNat - 48))
    have h1 : ¬ n ≥ (2 ^ 64 - 1) / 10 + 1 := by
      norm_num at hfit ⊢
      omega
    have h2 : ¬ n * 10 + (c.toNat - 48) > 2 ^ 64 - 1 := by omega
    simp only [parseUintLoop, hall.1, Bool.not_true, Bool.false_eq_true, if_false, h1, h2]
    exact ih _ hall.2 hfit

/-- `Atoi` reads back what `Itoa` writes, for every 64-bit `int`. -/
theorem Atoi_Itoa (n : Int) (hlo : -(2 ^ 63) ≤ n) (hhi : n < 2 ^ 63) :
    Atoi (Itoa n) = .ok n := by
  unfold Itoa
  by_cases hneg : n < 0
  · rw [if_pos hneg]
    have hm : (-n).toNat < 10 ^ 20 := by
      have : (-n).toNat ≤ 2 ^ 63 := by omega
      have : (2 : Nat) ^ 63 < 10 ^ 20 := by norm_num
      omega
    obtain ⟨hall, hval, hne, -, -⟩ := uitoa_spec (-n).toNat hm
    have hlen : (uitoa (-n).toNat).length ≠ 0 := by
      intro h; exact hne (List.length_eq_zero.mp h)
    have hp := parseUintLoop_digits (uitoa (-n).toNat) 0 hall (by rw [hval]; omega)
    simp only [Atoi, List.length_cons, Nat.add_eq_zero, one_ne_zero, and_false, if_false,
      List.head?_cons, decide_True, or_true, if_true, List.tail_cons, hlen, hp, hval,
      Bool.not_true, Bool.false_and, Bool.false_eq_true, Bool.true_and, decide_eq_true_eq]
    have h3 : ¬ (-n).toNat > 2 ^ 63 := by omega
    simp only [h3, if_false]
    congr 1
    omega
  · rw [if_neg hneg]
    have hm : n.toNat < 10 ^ 20 := by
      have : n.toNat < 2 ^ 63 := by omega
      have : (2 : Nat) ^ 63 < 10 ^ 20 := by norm_num
      omega
    obtain ⟨hall, hval, hne, -, -⟩ := uitoa_spec n.toNat hm
    obtain ⟨c, cs, hcs⟩ := List.exists_cons_of_ne_nil hne
    have hc : isDec c = true := by
      have := hall
      rw [hcs] at this
      simp only [List.all_cons, Bool.and_eq_true] at this
      exact this.1
    have hplus : c ≠ '+' := by
      intro e; subst e; exact absurd hc (by decide)
    have hminus : c ≠ '-' := by
      intro e; subst e; exact absurd hc (by decide)
    have hp := parseUintLoop_digits (uitoa n.toNat) 0 hall (by rw [hval]; omega)
    rw [hcs] at hp
    rw [hcs]
    simp only [Atoi, List.length_cons, Nat.add_eq_zero, one_ne_zero, and_false, if_false,
      List.head?_cons, Option.some.injEq, hplus, hminus, or_self, decide_False, hp,
      Bool.not_false, Bool.true_and, Bool.false_and, Bool.false_eq_true, decide_eq_true_eq]
    rw [← hcs, hval]
    have h3 : ¬ n.toNat ≥ 2 ^ 63 := by omega
    simp only [h3, if_false]
    congr 1
    omega

/-! ## Every character of a valid textual address is a hexadecimal digit, `'.'` or `':'` -/

theorem okChar_of_isDec (c : Char) (h : isDec c = true) : okChar c = true := by
  rw [isDec_iff] at h
  simp [okChar, hexVal, h]

theorem okChar_of_hexVal (c : Char) (d : Nat) (h : hexVal c = some d) : okChar c = true := by
  simp [okChar, h]

theorem dtoiLoop_consumed (s : List Char) (n i : Nat) (h : (dtoiLoop s n i).2.2 = true) :
    i ≤ (dtoiLoop s n i).2.1 ∧
      ∀ x ∈ s.take ((dtoiLoop s n i).2.1 - i), okChar x = true := by
  induction s generalizing n i with
  | nil =>
    simp only [dtoiLoop] at h ⊢
    by_cases h0 : i = 0
    · simp [h0] at h
    · simp [h0]
  | cons c cs ih =>
    simp only [dtoiLoop] at h ⊢
    by_cases hc : isDec c = true
    · simp only [hc, if_true] at h ⊢
      by_cases hb : n * 10 + (c.toNat - 48) ≥ big
      · simp [hb] at h
      · simp only [hb, if_false] at h ⊢
        obtain ⟨h1, h2⟩ := ih _ _ h
        refine ⟨by omega, ?_⟩
        have e : (dtoiLoop cs (n * 10 + (c.toNat - 48)) (i + 1)).2.1 - i
            = ((dtoiLoop cs (n * 10 + (c.toNat - 48)) (i + 1)).2.1 - (i + 1)) + 1 := by omega
        rw [e, List.take_succ_cons]
        intro x hx
        rcases List.mem_cons.mp hx with hx | hx
        · rw [hx]; exact okChar_of_isDec c hc
        · exact h2 x hx
    · simp only [hc, Bool.false_eq_true, if_false] at h ⊢
      by_cases h0 : i = 0
      · simp [h0] at h
      · simp [h0]

theorem xtoiLoop_consumed (s : List Char) (n i : Nat) (h : (xtoiLoop s n i).2.2 = true) :
    i ≤ (xtoiLoop s n i).2.1 ∧
      ∀ x ∈ s.take ((xtoiLoop s n i).2.1 - i), okChar x = true := by
  induction s generalizing n i with
  | nil =>
    simp only [xtoiLoop] at h ⊢
    by_cases h0 : i = 0
    · simp [h0] at h
    · simp [h0]
  | cons c cs ih =>
    simp only [xtoiLoop] at h ⊢
    cases hv : hexVal c with
    | some d =>
      simp only [hv] at h ⊢
      by_cases hb : n * 16 + d ≥ big
      · simp [hb] at h
      · simp only [hb, if_false] at h ⊢
        obtain ⟨h1, h2⟩ := ih _ _ h
        refine ⟨by omega, ?_⟩
        have e : (xtoiLoop cs (n * 16 + d) (i + 1)).2.1 - i
            = ((xtoiLoop cs (n * 16 + d) (i + 1)).2.1 - (i + 1)) + 1 := by omega
        rw [e, List.take_succ_cons]
        intro x hx
        rcases List.mem_cons.mp hx with hx | hx
        · rw [hx]; exact okChar_of_hexVal c d hv
        · exact h2 x hx
    | none =>
      simp only [hv] at h ⊢
      by_cases h0 : i = 0
      · simp [h0] at h
      · simp [h0]

theorem parseIPv4Loop_consumed (k i : Nat) (s rest : List Char) (p p' : List Nat)
    (h : parseIPv4Loop k i s p = some (rest, p')) :
    ∃ pre, s = pre ++ rest ∧ ∀ x ∈ pre, okChar x = true := by
  induction k generalizing i s p with
  | zero =>
    simp only [parseIPv4Loop, Option.some.injEq, Prod.mk.injEq] at h
    exact ⟨[], by simp [h.1], by simp⟩
  | succ k ih =>
    rw [parseIPv4Loop] at h
    by_cases h0 : s.length = 0
    · rw [if_pos h0] at h; exact absurd h (by simp)
    rw [if_neg h0] at h
    by_cases hdot : i > 0 ∧ s.head? ≠ some '.'
    · rw [if_pos hdot] at h; exact absurd h (by simp)
    rw [if_neg hdot] at h
    have hs : ∃ pre0, s = pre0 ++ (if i > 0 then s.tail else s) ∧ ∀ x ∈ pre0, okChar x = true := by
      by_cases hi : i > 0
      · have hhead : s.head? = some '.' := by
          by_contra hc
          exact hdot ⟨hi, hc⟩
        cases s with
        | nil => simp at hhead
        | cons c cs =>
          simp only [List.head?_cons, Option.some.injEq] at hhead
          subst hhead
          refine ⟨['.'], by simp [hi], ?_⟩
          intro x hx
          rw [List.mem_singleton.mp hx]
          decide
      · exact ⟨[], by simp [hi], by simp⟩
    obtain ⟨pre0, hpre0, hok0⟩ := hs
    generalize (if i > 0 then s.tail else s) = s1 at h hpre0
    simp only at h
    by_cases hr : (dtoi s1).2.2 = false ∨ (dtoi s1).1 > 0xFF
    · rw [if_pos hr] at h; exact absurd h (by simp)
    rw [if_neg hr] at h
    by_cases hz : (dtoi s1).2.1 > 1 ∧ s1.head? = some '0'
    · rw [if_pos hz] at h; exact absurd h (by simp)
    rw [if_neg hz] at h
    obtain ⟨pre, hpre, hok⟩ := ih _ _ _ h
    have hr2 : (dtoi s1).2.2 = true := by
      by_contra hc
      exact hr (Or.inl (by simpa using hc))
    obtain ⟨-, hd⟩ := dtoiLoop_consumed s1 0 0 hr2
    simp only [Nat.sub_zero] at hd
    refine ⟨pre0 ++ (s1.take (dtoi s1).2.1 ++ pre), ?_, ?_⟩
    · rw [List.append_assoc, List.append_assoc, ← hpre, List.take_append_drop]
      exact hpre0
    · intro x hx
      rcases List.mem_append.mp hx with hx | hx
      · exact hok0 x hx
      · rcases List.mem_append.mp hx with hx | hx
        · exact hd x hx
        · exact hok x hx

theorem parseIPv4_chars (s : List Char) (ip : List Nat) (h : parseIPv4 s = some ip) :
    ∀ x ∈ s, okChar x = true := by
  unfold parseIPv4 at h
  split at h
  · exact absurd h (by simp)
  · rename_i rest p hl
    split at h
    · exact absurd h (by simp)
    · rename_i hrest
      obtain ⟨pre, hpre, hok⟩ := parseIPv4Loop_consumed _ _ _ _ _ _ hl
      have : rest = [] := by
        cases rest with
        | nil => rfl
        | cons a b => simp at hrest
      rw [hpre, this, List.append_nil]
      exact hok

theorem parseIPv6Loop_consumed (fuel : Nat) (s rest : List Char) (ip ip' : List Nat)
    (i i' : Nat) (e e' : Option Nat)
    (h : parseIPv6Loop fuel s ip i e = some (rest, ip', i', e')) :
    ∃ pre, s = pre ++ rest ∧ ∀ x ∈ pre, okChar x = true := by
  induction fuel generalizing s ip i e with
  | zero =>
    simp only [parseIPv6Loop, Option.some.injEq, Prod.mk.injEq] at h
    exact ⟨[], by simp [h.1], by simp⟩
  | succ fuel ih =>
    rw [parseIPv6Loop] at h
    by_cases hi : ¬ i < IPv6len
    · rw [if_pos hi] at h
      simp only [Option.some.injEq, Prod.mk.injEq] at h
      exact ⟨[], by simp [h.1], by simp⟩
    rw [if_neg hi] at h
    simp only at h
    by_cases hr : (xtoi s).2.2 = false ∨ (xtoi s).1 > 0xFFFF
    · rw [if_pos hr] at h; exact absurd h (by simp)
    rw [if_neg hr] at h
    have hr2 : (xtoi s).2.2 = true := by
      by_contra hc
      exact hr (Or.inl (by simpa using hc))
    obtain ⟨-, hx⟩ := xtoiLoop_consumed s 0 0 hr2
    simp only [Nat.sub_zero] at hx
    by_cases hdot : (xtoi s).2.1 < s.length ∧ s[(xtoi s).2.1]? = some '.'
    · rw [if_pos hdot] at h
      by_cases h1 : e = none ∧ i ≠ IPv6len - IPv4len
      · rw [if_pos h1] at h; exact absurd h (by simp)
      rw [if_neg h1] at h
      by_cases h2 : i + IPv4len > IPv6len
      · rw [if_pos h2] at h; exact absurd h (by simp)
      rw [if_neg h2] at h
      cases h4 : parseIPv4 s with
      | none => rw [h4] at h; exact absurd h (by simp)
      | some ip4 =>
        rw [h4] at h
        simp only [Option.some.injEq, Prod.mk.injEq] at h
        refine ⟨s, by rw [← h.1]; simp, parseIPv4_chars s ip4 h4⟩
    rw [if_neg hdot] at h
    by_cases hl : (List.drop (xtoi s).2.1 s).length = 0
    · rw [if_pos hl] at h
      simp only [Option.some.injEq, Prod.mk.injEq] at h
      refine ⟨s.take (xtoi s).2.1, ?_, hx⟩
      rw [← h.1, List.take_append_drop]
    rw [if_neg hl] at h
    by_cases hc : (List.drop (xtoi s).2.1 s).head? ≠ some ':' ∨
        (List.drop (xtoi s).2.1 s).length = 1
    · rw [if_pos hc] at h; exact absurd h (by simp)
    rw [if_neg hc] at h
    have hhead : (List.drop (xtoi s).2.1 s).head? = some ':' := by
      by_contra hcc
      exact hc (Or.inl hcc)
    obtain ⟨t, ht⟩ : ∃ t, List.drop (xtoi s).2.1 s = ':' :: t := by
      cases hd : List.drop (xtoi s).2.1 s with
      | nil => rw [hd] at hhead; simp at hhead
      | cons a b =>
        rw [hd] at hhead
        simp only [List.head?_cons, Option.some.injEq] at hhead
        exact ⟨b, by rw [hhead]⟩
    have hs : s = s.take (xtoi s).2.1 ++ ':' :: t := by
      rw [← ht, List.take_append_drop]
    rw [ht] at h
    simp only [List.tail_cons] at h
    by_cases hcolon : t.head? = some ':'
    · rw [if_pos hcolon] at h
      by_cases he : e ≠ none
      · rw [if_pos he] at h; exact absurd h (by simp)
      rw [if_neg he] at h
      obtain ⟨u, hu⟩ : ∃ u, t = ':' :: u := by
        cases t with
        | nil => simp at hcolon
        | cons a b =>
          simp only [List.head?_cons, Option.some.injEq] at hcolon
          exact ⟨b, by rw [hcolon]⟩
      subst hu
      simp only [List.tail_cons] at h
      have hpre : ∀ x ∈ s.take (xtoi s).2.1 ++ [':', ':'], okChar x = true := by
        intro x hxm
        rcases List.mem_append.mp hxm with hxm | hxm
        · exact hx x hxm
        · simp only [List.mem_cons, List.mem_singleton, List.not_mem_nil, or_false,
            or_self] at hxm
          rw [hxm]; decide
      by_cases hu0 : u.length = 0
      · rw [if_pos hu0] at h
        simp only [Option.some.injEq, Prod.mk.injEq] at h
        refine ⟨s.take (xtoi s).2.1 ++ [':', ':'], ?_, hpre⟩
        rw [← h.1]
        simpa using hs
      · rw [if_neg hu0] at h
        obtain ⟨pre, hp, hok⟩ := ih _ _ _ _ h
        refine ⟨(s.take (xtoi s).2.1 ++ [':', ':']) ++ pre, ?_, ?_⟩
        · rw [List.append_assoc, List.append_assoc, ← hp]
          simpa using hs
        · intro x hxm
          rcases List.mem_append.mp hxm with hxm | hxm
          · exact hpre x hxm
          · exact hok x hxm
    · rw [if_neg hcolon] at h
      obtain ⟨pre, hp, hok⟩ := ih _ _ _ _ h
      refine ⟨(s.take (xtoi s).2.1 ++ [':']) ++ pre, ?_, ?_⟩
      · rw [List.append_assoc, List.append_assoc, ← hp]
        simpa using hs
      · intro x hxm
        rcases List.mem_append.mp hxm with hxm | hxm
        · rcases List.mem_append.mp hxm with hxm | hxm
          · exact hx x hxm
          · rw [List.mem_singleton.mp hxm]; decide
        · exact hok x hxm

theorem parseIPv6_chars (s : List Char) (ip : List Nat) (h : parseIPv6 s = some ip) :
    ∀ x ∈ s, okChar x = true := by
  unfold parseIPv6 at h
  simp only at h
  generalize hlead : (decide (s.length ≥ 2) && decide (s[0]? = some ':')
    && decide (s[1]? = some ':')) = lead at h
  have hs : ∃ pre0, s = pre0 ++ (if lead = true then s.drop 2 else s) ∧
      ∀ x ∈ pre0, okChar x = true := by
    cases lead with
    | false => exact ⟨[], by simp, by simp⟩
    | true =>
      simp only [Bool.and_eq_true, decide_eq_true_eq] at hlead
      match s, hlead with
      | a :: b :: t, hlead =>
        simp only [List.getElem?_cons_zero, Option.some.injEq, List.getElem?_cons_succ] at hlead
        refine ⟨[a, b], by simp, ?_⟩
        intro x hxm
        simp only [List.mem_cons, List.mem_singleton, List.not_mem_nil, or_false] at hxm
        rcases hxm with hxm | hxm
        · rw [hxm, hlead.1.2]; decide
        · rw [hxm, hlead.2]; decide
      | [a], hlead => simp at hlead
      | [], hlead => simp at hlead
  obtain ⟨pre0, hpre0, hok0⟩ := hs
  generalize (if lead = true then s.drop 2 else s) = s0 at h hpre0
  by_cases h0 : lead = true ∧ s0.length = 0
  · have : s0 = [] := List.length_eq_zero.mp h0.2
    rw [hpre0, this, List.append_nil]
    exact hok0
  rw [if_neg h0] at h
  cases hloop : parseIPv6Loop IPv6len s0 (List.replicate IPv6len 0) 0
      (if lead = true then some 0 else none) with
  | none => rw [hloop] at h; exact absurd h (by simp [parseIPv6Finish])
  | some st =>
    obtain ⟨rest, ip1, i1, e1⟩ := st
    obtain ⟨pre, hp, hok⟩ := parseIPv6Loop_consumed _ _ _ _ _ _ _ _ _ hloop
    rw [hloop] at h
    simp only [parseIPv6Finish] at h
    by_cases hrest : rest.length ≠ 0
    · rw [if_pos hrest] at h; exact absurd h (by simp)
    have hnil : rest = [] := by
      apply List.length_eq_zero.mp
      by_contra hc
      exact hrest hc
    rw [hpre0, hp, hnil, List.append_nil]
    intro x hxm
    rcases List.mem_append.mp hxm with hxm | hxm
    · exact hok0 x hxm
    · exact hok x hxm

theorem ParseIPScan_chars (t s : List Char) (ip : List Nat) (h : ParseIPScan t s = some ip) :
    ∀ x ∈ s, okChar x = true := by
  induction t with
  | nil => simp [ParseIPScan] at h
  | cons c cs ih =>
    simp only [ParseIPScan] at h
    split at h
    · exact parseIPv4_chars s ip h
    · split at h
      · exact parseIPv6_chars s ip h
      · exact ih h

/-- A text `net.ParseIP` accepts holds no `'/'`. -/
theorem ParseIP_no_slash (s : List Char) (h : ParseIP s ≠ none) : '/' ∉ s := by
  cases hp : ParseIP s with
  | none => exact absurd hp h
  | some ip =>
    intro hmem
    have := ParseIPScan_chars s s ip hp '/' hmem
    exact absurd this (by decide)

/-! ## Lemmas on To4 -/

theorem isZeros_eq_replicate (l : List Nat) (h : isZeros l = true) :
    l = List.replicate l.length 0 := by
  induction l with
  | nil => rfl
  | cons a t ih =>
    simp only [isZeros, List.all_cons, Bool.and_eq_true, beq_iff_eq] at h
    have := ih (by simpa [isZeros] using h.2)
    rw [h.1, List.length_cons, List.replicate_succ, ← this]

/-- What `To4` returns: the address itself when it has 4 bytes, the last 4 bytes
of a 16-byte IPv4-mapped address, and nil otherwise. -/
theorem To4_cases (ip : List Nat) :
    (ip.length = 4 ∧ IP.To4 ip = some ip) ∨
    (ip.length = 16 ∧ ip = mappedForm (ip.drop 12) ∧ IP.To4 ip = some (ip.drop 12)) ∨
    (ip.length ≠ 4 ∧ IP.To4 ip = none) := by
  unfold IP.To4
  simp only [IPv4len, IPv6len]
  by_cases h4 : ip.length = 4
  · left; simp [h4]
  · right
    simp only [h4, if_false]
    by_cases hm : ip.length = 16 ∧ isZeros (ip.take 10) = true ∧ ip.getD 10 0 = 0xff
        ∧ ip.getD 11 0 = 0xff
    · left
      rw [if_pos hm]
      refine ⟨hm.1, ?_, rfl⟩
      obtain ⟨h16, hz, h10, h11⟩ := hm
      have ht := isZeros_eq_replicate _ hz
      have htl : (ip.take 10).length = 10 := by rw [List.length_take]; omega
      rw [htl] at ht
      have hsplit : ip = ip.take 10 ++ ip.drop 10 := (List.take_append_drop 10 ip).symm
      have hdl : (ip.drop 10).length = 6 := by rw [List.length_drop]; omega
      have e10 : ip.getD 10 0 = (ip.drop 10).getD 0 0 := by
        simp [List.getD_eq_getElem?_getD, List.getElem?_drop]
      have e11 : ip.getD 11 0 = (ip.drop 10).getD 1 0 := by
        simp [List.getD_eq_getElem?_getD, List.getElem?_drop]
      have e12 : ip.drop 12 = (ip.drop 10).drop 2 := by simp [List.drop_drop]
      rw [e10] at h10
      rw [e11] at h11
      rw [e12]
      rcases hd : ip.drop 10 with _ | ⟨b0, _ | ⟨b1, t⟩⟩
      · rw [hd] at hdl; simp at hdl
      · rw [hd] at hdl; simp at hdl
      · rw [hd] at h10 h11
        simp only [List.getD_cons_zero, List.getD_cons_succ] at h10 h11
        rw [hsplit, hd, ht, h10, h11]
        simp [mappedForm]
    · right
      rw [if_neg hm]
      exact ⟨h4, rfl⟩

/-- The 4-byte form `ParsePrefix` stores is the same address as the parsed one. -/
theorem To4_getD_Equal (ip : List Nat) : IP.Equal ((IP.To4 ip).getD ip) ip = true := by
  rw [IP_Equal_iff]
  rcases To4_cases ip with ⟨_, h⟩ | ⟨h16, hm, h⟩ | ⟨_, h⟩
  · rw [h]; exact Or.inl rfl
  · rw [h]
    right; left
    refine ⟨?_, hm⟩
    simp [List.length_drop, h16]
  · rw [h]; exact Or.inl rfl

/-- C6: `ParsePrefix` performs no range check.  For every valid textual address
`a` and every 64-bit integer `n`, negative or larger than the bit width
included, `ParsePrefix(a + "/" + decimal(n))` returns no error and a Prefix
whose Length is `n` and whose address is the parsed address of `a` (in its
4-byte form when it has one, so an address Equal to `net.ParseIP(a)`);
"10.0.0.0/8" gives bytes 10,0,0,0 and Length 8. -/
theorem parsePrefix_no_range_check (a : List Char) (n : Int)
    (hvalid : ParseIP a ≠ none) (hlo : -(2 ^ 63) ≤ n) (hhi : n < 2 ^ 63) :
    (∃ ip, ParseIP a = some ip ∧
      ParsePrefix (a ++ '/' :: Itoa n) = .ok ⟨(IP.To4 ip).getD ip, n⟩ ∧
      IP.Equal ((IP.To4 ip).getD ip) ip = true) ∧
    ParsePrefix "10.0.0.0/8".data = .ok ⟨[10, 0, 0, 0], 8⟩ := by
  refine ⟨?_, by decide⟩
  cases hp : ParseIP a with
  | none => exact absurd hp hvalid
  | some ip =>
    refine ⟨ip, rfl, ?_, To4_getD_Equal ip⟩
    rw [ParsePrefix_split a (Itoa n) (ParseIP_no_slash a hvalid), hp]
    simp only [Atoi_Itoa n hlo hhi]

/-- Witness of C6 at "2001:db8::1" with lengths -5 and 4096. -/
theorem parsePrefix_no_range_check_witness :
    ParsePrefix ("2001:db8::1".data ++ '/' :: Itoa (-5))
      = .ok ⟨[0x20, 0x01, 0x0d, 0xb8, 0, 0, 0, 0, 0, 0, 0, 0, 0, 0, 0, 1], -5⟩ ∧
    ParsePrefix ("10.0.0.0".data ++ '/' :: Itoa 4096) = .ok ⟨[10, 0, 0, 0], 4096⟩ := by
  obtain ⟨⟨ip, h1, h2, -⟩, -⟩ :=
    parsePrefix_no_range_check "2001:db8::1".data (-5) (by decide) (by decide) (by decide)
  obtain ⟨⟨ip', h1', h2', -⟩, -⟩ :=
    parsePrefix_no_range_check "10.0.0.0".data 4096 (by decide) (by decide) (by decide)
  have e : ip = [0x20, 0x01, 0x0d, 0xb8, 0, 0, 0, 0, 0, 0, 0, 0, 0, 0, 0, 1] :=
    Option.some.inj (h1.symm.trans (by decide))
  have e' : ip' = [0, 0, 0, 0, 0, 0, 0, 0, 0, 0, 0xff, 0xff, 10, 0, 0, 0] :=
    Option.some.inj (h1'.symm.trans (by decide))
  subst e
  subst e'
  exact ⟨h2, h2'⟩

/-! ## Round trip of the dotted decimal form -/

theorem not_sep_of_isDec (c : Char) (h : isDec c = true) : c ≠ '.' ∧ c ≠ ':' := by
  rw [isDec_iff] at h
  constructor
  · intro e; subst e; exact absurd h (by decide)
  · intro e; subst e; exact absurd h (by decide)

theorem ParseIPScan_dot (L r s : List Char) (h : ∀ c ∈ L, c ≠ '.' ∧ c ≠ ':') :
    ParseIPScan (L ++ '.' :: r) s = parseIPv4 s := by
  induction L with
  | nil => simp [ParseIPScan]
  | cons c cs ih =>
    have hc := h c (by simp)
    rw [List.cons_append]
    simp only [ParseIPScan, hc.1, hc.2, if_false]
    exact ih (fun x hx => h x (by simp [hx]))

theorem ParseIPScan_colon (L r s : List Char) (h : ∀ c ∈ L, c ≠ '.' ∧ c ≠ ':') :
    ParseIPScan (L ++ ':' :: r) s = parseIPv6 s := by
  induction L with
  | nil => simp [ParseIPScan]
  | cons c cs ih =>
    have hc := h c (by simp)
    rw [List.cons_append]
    simp only [ParseIPScan, hc.1, hc.2, if_false]
    exact ih (fun x hx => h x (by simp [hx]))

/-- What `dtoi` reads at the front of `uitoa a ++ rest` for a byte `a`. -/
theorem dtoi_uitoa (a : Nat) (rest : List Char) (ha : a < 256)
    (hrest : ∀ c, rest.head? = some c → isDec c = false) :
    dtoi (uitoa a ++ rest) = (a, (uitoa a).length, true) := by
  obtain ⟨hall, hval, hne, -, -⟩ := uitoa_spec a (by omega)
  unfold dtoi
  rw [dtoiLoop_digits _ _ _ _ hall (by rw [hval]; simp [big]; omega) hrest, hval]
  have : (uitoa a).length ≠ 0 := fun h => hne (List.length_eq_zero.mp h)
  simp [this]

/-- One iteration of the loop of `parseIPv4` on the text `uitoa` wrote. -/
theorem parseIPv4Loop_step (k i a : Nat) (rest : List Char) (p : List Nat) (ha : a < 256)
    (hrest : ∀ c, rest.head? = some c → isDec c = false) :
    parseIPv4Loop (k + 1) i ((if i > 0 then ['.'] else []) ++ (uitoa a ++ rest)) p
      = parseIPv4Loop k (i + 1) rest (p.set i a) := by
  obtain ⟨hall, hval, hne, hhead, hzero⟩ := uitoa_spec a (by omega)
  obtain ⟨c, cs, hcs⟩ := List.exists_cons_of_ne_nil hne
  have hd := dtoi_uitoa a rest ha hrest
  rw [parseIPv4Loop]
  have hlen : ¬ ((if i > 0 then ['.'] else []) ++ (uitoa a ++ rest)).length = 0 := by
    rw [hcs]; simp
  rw [if_neg hlen]
  have hdot : ¬ (i > 0 ∧ ((if i > 0 then ['.'] else []) ++ (uitoa a ++ rest)).head? ≠ some '.') := by
    rintro ⟨hi, hh⟩
    simp [hi] at hh
  rw [if_neg hdot]
  have hs1 : (if i > 0 then ((if i > 0 then ['.'] else []) ++ (uitoa a ++ rest)).tail
      else ((if i > 0 then ['.'] else []) ++ (uitoa a ++ rest))) = uitoa a ++ rest := by
    by_cases hi : i > 0 <;> simp [hi]
  simp only [hs1, hd]
  have h1 : ¬ (true = false ∨ a > 0xFF) := by
    rintro (h | h)
    · exact absurd h (by decide)
    · omega
  rw [if_neg h1]
  have h2 : ¬ ((uitoa a).length > 1 ∧ (uitoa a ++ rest).head? = some '0') := by
    rintro ⟨hl, hh⟩
    by_cases h0 : a = 0
    · rw [hzero h0] at hl
      simp at hl
    · apply hhead h0
      rw [hcs] at hh ⊢
      simpa using hh
  rw [if_neg h2]
  have ha' : a % 256 = a := Nat.mod_eq_of_lt ha
  rw [ha', List.drop_left]

/-- `net.ParseIP` reads the dotted decimal text of four bytes back. -/
theorem ParseIP_dotted (a b c d : Nat) (ha : a < 256) (hb : b < 256) (hc : c < 256)
    (hd : d < 256) :
    ParseIP (uitoa a ++ '.' :: (uitoa b ++ '.' :: (uitoa c ++ '.' :: uitoa d)))
      = some (IPv4 a b c d) := by
  have hsep : ∀ x : Nat, x < 256 → ∀ ch ∈ uitoa x, ch ≠ '.' ∧ ch ≠ ':' := by
    intro x hx ch hch
    obtain ⟨hall, -⟩ := uitoa_spec x (by omega)
    exact not_sep_of_isDec ch (List.all_eq_true.mp hall ch hch)
  unfold ParseIP
  rw [ParseIPScan_dot _ _ _ (hsep a ha)]
  unfold parseIPv4
  have hdotrest : ∀ t : List Char, ∀ ch, ('.' :: t).head? = some ch → isDec ch = false := by
    intro t ch h
    simp only [List.head?_cons, Option.some.injEq] at h
    rw [← h]; decide
  have s0 := parseIPv4Loop_step 3 0 a ('.' :: (uitoa b ++ '.' :: (uitoa c ++ '.' :: uitoa d)))
    [0, 0, 0, 0] ha (hdotrest _)
  have s1 := parseIPv4Loop_step 2 1 b ('.' :: (uitoa c ++ '.' :: uitoa d))
    ([0, 0, 0, 0].set 0 a) hb (hdotrest _)
  have s2 := parseIPv4Loop_step 1 2 c ('.' :: uitoa d)
    (([0, 0, 0, 0].set 0 a).set 1 b) hc (hdotrest _)
  have s3 := parseIPv4Loop_step 0 3 d []
    ((([0, 0, 0, 0].set 0 a).set 1 b).set 2 c) hd (by simp)
  simp only [lt_irrefl, if_false, List.nil_append, Nat.lt_one_iff, Nat.zero_lt_succ, if_true,
    List.singleton_append, gt_iff_lt, Nat.zero_add, Nat.reduceAdd, List.append_nil,
    Nat.ofNat_pos] at s0 s1 s2 s3
  simp only [IPv4len]
  rw [s0, s1, s2, s3]
  simp [parseIPv4Loop, IPv4]

theorem To4_IPv4 (a b c d : Nat) : IP.To4 (IPv4 a b c d) = some [a, b, c, d] := by
  simp [IP.To4, IPv4, v4InV6Prefix, IPv4len, IPv6len, isZeros]

theorem uitoa_no_slash (a : Nat) (ha : a < 256) : '/' ∉ uitoa a := by
  intro h
  obtain ⟨hall, -⟩ := uitoa_spec a (by omega)
  exact absurd (List.all_eq_true.mp hall _ h) (by decide)

/-! ## Lemmas on hexadecimal text -/

theorem hexVal_hexDigit (d : Nat) (h : d < 16) : hexVal (hexDigit.getD d '0') = some d := by
  interval_cases d <;> rfl

theorem hexVal_isSome_not_sep (c : Char) (h : (hexVal c).isSome = true) :
    c ≠ '.' ∧ c ≠ ':' ∧ c ≠ '/' := by
  refine ⟨?_, ?_, ?_⟩ <;> (intro e; subst e; exact absurd h (by decide))

theorem appendHexLoop_hex (k g : Nat) : ∀ c ∈ appendHexLoop k g, (hexVal c).isSome = true := by
  induction k with
  | zero => simp [appendHexLoop]
  | succ j ih =>
    intro c hc
    simp only [appendHexLoop] at hc
    rcases List.mem_append.mp hc with hc | hc
    · split at hc
      · rw [List.mem_singleton.mp hc]
        have : g >>> (j * 4) &&& 0xf < 16 := by
          have := Nat.and_pow_two_sub_one_eq_mod (g >>> (j * 4)) 4
          simp only [Nat.reducePow, Nat.add_one_sub_one] at this
          rw [this]
          exact Nat.mod_lt _ (by decide)
        rw [hexVal_hexDigit _ this]
        rfl
      · simp at hc
    · exact ih c hc

theorem appendHex_hex (g : Nat) : ∀ c ∈ appendHex g, (hexVal c).isSome = true := by
  unfold appendHex
  split
  · intro c hc
    rw [List.mem_singleton.mp hc]
    rfl
  · exact appendHexLoop_hex 8 g

theorem appendHexLoop_ne_nil (k g : Nat) (hg : g ≠ 0) (hk : g >>> (k * 4) = 0) :
    appendHexLoop k g ≠ [] := by
  induction k with
  | zero => simp at hk; exact absurd hk hg
  | succ j ih =>
    simp only [appendHexLoop]
    by_cases hv : g >>> (j * 4) > 0
    · simp [hv]
    · have := ih (Nat.eq_zero_of_not_pos hv)
      simp [hv, this]

theorem appendHex_ne_nil (g : Nat) (hg : g < 65536) : appendHex g ≠ [] := by
  unfold appendHex
  split
  · simp
  · rename_i h0
    apply appendHexLoop_ne_nil 8 g h0
    rw [Nat.shiftRight_eq_div_pow]
    apply Nat.div_eq_of_lt
    norm_num
    omega

/-- The loop of `xtoi` on the digits `appendHex` wrote, entered with the value of
the digits above them. -/
theorem xtoiLoop_appendHexLoop (k g i : Nat) (rest : List Char) (hg : g < big) :
    xtoiLoop (appendHexLoop k g ++ rest) (g >>> (k * 4)) i
      = xtoiLoop rest g (i + (appendHexLoop k g).length) := by
  induction k generalizing i with
  | zero => simp [appendHexLoop]
  | succ j ih =>
    have hshift : g >>> ((j + 1) * 4) = (g >>> (j * 4)) / 16 := by
      rw [Nat.add_mul, Nat.shiftRight_add]
      simp [Nat.shiftRight_eq_div_pow]
    have hand : g >>> (j * 4) &&& 0xf = (g >>> (j * 4)) % 16 :=
      Nat.and_pow_two_sub_one_eq_mod (g >>> (j * 4)) 4
    have hle : g >>> (j * 4) ≤ g := by
      rw [Nat.shiftRight_eq_div_pow]; exact Nat.div_le_self _ _
    have ih' := ih
    simp only [appendHexLoop]
    rw [hshift, hand]
    generalize g >>> (j * 4) = v at hle ih' ⊢
    by_cases hv : v > 0
    · rw [if_pos hv]
      have hm : v % 16 < 16 := Nat.mod_lt _ (by decide)
      rw [List.append_assoc, List.singleton_append]
      rw [xtoiLoop, hexVal_hexDigit _ hm]
      simp only
      have hval : v / 16 * 16 + v % 16 = v := by omega
      have hnb : ¬ v ≥ big := by omega
      rw [hval, if_neg hnb, ih']
      simp only [List.length_append, List.length_singleton]
      congr 1
      omega
    · rw [if_neg hv]
      have h0 : v = 0 := by omega
      subst h0
      simpa using ih' i

/-- What `xtoi` reads at the front of `appendHex g ++ rest` for a 16-bit `g`. -/
theorem xtoi_appendHex (g : Nat) (rest : List Char) (hg : g < 65536)
    (hrest : ∀ c, rest.head? = some c → hexVal c = none) :
    xtoi (appendHex g ++ rest) = (g, (appendHex g).length, true) := by
  have hexit : ∀ i, i ≠ 0 → xtoiLoop rest g i = (g, i, true) := by
    intro i hi
    cases rest with
    | nil => simp [xtoiLoop, hi]
    | cons c cs => simp [xtoiLoop, hrest c rfl, hi]
  have hne := appendHex_ne_nil g hg
  have hlen : (appendHex g).length ≠ 0 := fun h => hne (List.length_eq_zero.mp h)
  unfold xtoi
  by_cases h0 : g = 0
  · subst h0
    have : appendHex 0 = ['0'] := rfl
    rw [this, List.singleton_append, xtoiLoop]
    have hz : hexVal '0' = some 0 := rfl
    simp only [hz, big]
    simp only [Nat.zero_mul, Nat.add_zero, ge_iff_le, Nat.le_zero_eq, OfNat.ofNat_ne_zero,
      if_false]
    rw [hexit 1 (by decide)]
    simp
  · have h32 : g >>> (8 * 4) = 0 := by
      rw [Nat.shiftRight_eq_div_pow]
      apply Nat.div_eq_of_lt
      norm_num
      omega
    have := xtoiLoop_appendHexLoop 8 g 0 rest (by simp [big]; omega)
    rw [h32] at this
    have ha : appendHex g = appendHexLoop 8 g := by simp [appendHex, h0]
    rw [ha] at hlen ⊢
    rw [this, hexit _ (by omega)]
    simp

/-! ## The loop of `parseIPv6` on the text of 16-bit groups -/

theorem appendHex_cons (g : Nat) (hg : g < 65536) :
    ∃ c cs, appendHex g = c :: cs ∧ (hexVal c).isSome = true := by
  obtain ⟨c, cs, h⟩ := List.exists_cons_of_ne_nil (appendHex_ne_nil g hg)
  exact ⟨c, cs, h, appendHex_hex g c (by rw [h]; simp)⟩

/-- One iteration of the loop of `parseIPv6` on a group `appendHex` wrote,
followed by the end of the text or by `':'`. -/
theorem parseIPv6Loop_group (fuel i g : Nat) (X : List Char) (ip : List Nat)
    (e : Option Nat) (hi : i < 16) (hg : g < 65536)
    (hX : ∀ c, X.head? = some c → c = ':') :
    parseIPv6Loop (fuel + 1) (appendHex g ++ X) ip i e =
      if X.length = 0 then
        some (X, (ip.set i ((g >>> 8) % 256)).set (i + 1) (g % 256), i + 2, e)
      else if X.head? ≠ some ':' ∨ X.length = 1 then none
      else if X.tail.head? = some ':' then
        if e ≠ none then none
        else if X.tail.tail.length = 0 then
          some (X.tail.tail, (ip.set i ((g >>> 8) % 256)).set (i + 1) (g % 256), i + 2,
            some (i + 2))
        else parseIPv6Loop fuel X.tail.tail
          ((ip.set i ((g >>> 8) % 256)).set (i + 1) (g % 256)) (i + 2) (some (i + 2))
      else parseIPv6Loop fuel X.tail
        ((ip.set i ((g >>> 8) % 256)).set (i + 1) (g % 256)) (i + 2) e := by
  have hx : xtoi (appendHex g ++ X) = (g, (appendHex g).length, true) := by
    apply xtoi_appendHex g X hg
    intro c hc
    rw [hX c hc]; rfl
  rw [parseIPv6Loop]
  have h1 : ¬ ¬ i < IPv6len := by simp [IPv6len]; exact hi
  rw [if_neg h1]
  simp only [hx]
  have h2 : ¬ (true = false ∨ g > 0xFFFF) := by
    rintro (h | h)
    · exact absurd h (by decide)
    · omega
  rw [if_neg h2]
  have h3 : ¬ ((appendHex g).length < (appendHex g ++ X).length ∧
      (appendHex g ++ X)[(appendHex g).length]? = some '.') := by
    rintro ⟨-, h⟩
    rw [List.getElem?_append_right (Nat.le_refl _), Nat.sub_self] at h
    have := hX '.' (by rw [← h]; cases X <;> simp)
    exact absurd this (by decide)
  rw [if_neg h3, List.drop_left]

/-- The loop of `parseIPv6` on groups separated by `':'` up to the end of the
text: every group is stored, and the loop is left with the text used up. -/
theorem parseIPv6Loop_run_end (gs : List Nat) (k g i : Nat) (ip : List Nat) (e : Option Nat)
    (hg : ∀ x ∈ g :: gs, x < 65536) (hi : i + 2 * (gs.length + 1) ≤ 16) :
    parseIPv6Loop (k + gs.length + 1) (appendHex g ++ tailHex gs) ip i e
      = some ([], writeGroups ip i (g :: gs), i + 2 * (gs.length + 1), e) := by
  induction gs generalizing g i ip with
  | nil =>
    have := parseIPv6Loop_group k i g [] ip e (by omega) (hg g (by simp)) (by simp)
    simpa [tailHex, writeGroups] using this
  | cons g' gs' ih =>
    obtain ⟨c, cs, hc, hhex⟩ := appendHex_cons g' (hg g' (by simp))
    have hne : c ≠ ':' := (hexVal_isSome_not_sep c hhex).2.1
    have hstep := parseIPv6Loop_group (k + gs'.length + 1) i g
      (':' :: (appendHex g' ++ tailHex gs')) ip e (by simp at hi; omega) (hg g (by simp))
      (by intro x hx; simp at hx; exact hx.symm)
    simp only [tailHex, List.length_cons]
    rw [show k + (gs'.length + 1) + 1 = (k + gs'.length + 1) + 1 by omega, hstep]
    simp only [List.length_cons, Nat.add_eq_zero, one_ne_zero, and_false, if_false,
      List.head?_cons, ne_eq, not_true_eq_false, false_or, List.tail_cons]
    have hl : ¬ (appendHex g' ++ tailHex gs').length + 1 = 1 := by
      rw [hc]; simp
    have hh : ¬ (appendHex g' ++ tailHex gs').head? = some ':' := by
      rw [hc]; simpa using hne
    rw [if_neg hl, if_neg hh]
    rw [ih g' (i + 2) _ (fun x hx => hg x (by simp at hx ⊢; tauto)) (by simp at hi; omega)]
    simp only [writeGroups, List.length_cons]
    have e1 : i + 2 + 2 * (gs'.length + 1) = i + 2 * (gs'.length + 1 + 1) := by omega
    rw [e1]

/-- The loop of `parseIPv6` on groups separated by `':'` and followed by `"::"`:
every group is stored and the position of the ellipsis is recorded. -/
theorem parseIPv6Loop_run_ellipsis (gs : List Nat) (k g i : Nat) (ip : List Nat)
    (r : List Char) (hg : ∀ x ∈ g :: gs, x < 65536) (hi : i + 2 * (gs.length + 1) ≤ 16) :
    parseIPv6Loop (k + gs.length + 1) (appendHex g ++ (tailHex gs ++ ':' :: ':' :: r)) ip i none
      = if r.length = 0 then
          some ([], writeGroups ip i (g :: gs), i + 2 * (gs.length + 1),
            some (i + 2 * (gs.length + 1)))
        else parseIPv6Loop k r (writeGroups ip i (g :: gs)) (i + 2 * (gs.length + 1))
          (some (i + 2 * (gs.length + 1))) := by
  induction gs generalizing g i ip with
  | nil =>
    have := parseIPv6Loop_group k i g (':' :: ':' :: r) ip none (by omega) (hg g (by simp))
      (by intro x hx; simp at hx; exact hx.symm)
    simp only [tailHex, List.nil_append, List.length_nil, Nat.add_zero, writeGroups]
    rw [this]
    simp only [List.length_cons, Nat.add_eq_zero, one_ne_zero, and_false, if_false,
      List.head?_cons, ne_eq, not_true_eq_false, false_or, List.tail_cons, if_true,
      Nat.add_left_eq_self, Nat.mul_one]
    by_cases hr : r.length = 0
    · have : r = [] := List.length_eq_zero.mp hr
      subst this
      simp
    · simp [hr]
  | cons g' gs' ih =>
    obtain ⟨c, cs, hc, hhex⟩ := appendHex_cons g' (hg g' (by simp))
    have hne : c ≠ ':' := (hexVal_isSome_not_sep c hhex).2.1
    have hstep := parseIPv6Loop_group (k + gs'.length + 1) i g
      (':' :: (appendHex g' ++ (tailHex gs' ++ ':' :: ':' :: r))) ip none
      (by simp at hi; omega) (hg g (by simp))
      (by intro x hx; simp at hx; exact hx.symm)
    simp only [tailHex, List.length_cons, List.cons_append, List.append_assoc]
    rw [show k + (gs'.length + 1) + 1 = (k + gs'.length + 1) + 1 by omega, hstep]
    simp only [List.length_cons, Nat.add_eq_zero, one_ne_zero, and_false, if_false,
      List.head?_cons, ne_eq, not_true_eq_false, false_or, List.tail_cons]
    have hl : ¬ (appendHex g' ++ (tailHex gs' ++ ':' :: ':' :: r)).length + 1 = 1 := by
      rw [hc]; simp
    have hh : ¬ (appendHex g' ++ (tailHex gs' ++ ':' :: ':' :: r)).head? = some ':' := by
      rw [hc]; simpa using hne
    rw [if_neg hl, if_neg hh]
    rw [ih g' (i + 2) _ (fun x hx => hg x (by simp at hx ⊢; tauto)) (by simp at hi; omega)]
    simp only [writeGroups, List.length_cons]
    have e1 : i + 2 + 2 * (gs'.length + 1) = i + 2 * (gs'.length + 1 + 1) := by omega
    rw [e1]

/-! ## Groups of an address -/

theorem getD_lt_256 (p : List Nat) (hb : ∀ b ∈ p, b < 256) (m : Nat) : p.getD m 0 < 256 := by
  rw [List.getD_eq_getElem?_getD]
  by_cases h : m < p.length
  · rw [List.getElem?_eq_getElem h]
    exact hb _ (List.getElem_mem h)
  · rw [List.getElem?_eq_none (by omega)]
    decide

theorem group_eq (p : List Nat) (hb : ∀ b ∈ p, b < 256) (i : Nat) :
    group p i = p.getD i 0 * 256 + p.getD (i + 1) 0 := by
  unfold group
  have h := Nat.mul_add_lt_is_or (i := 8) (b := p.getD (i + 1) 0)
    (by simpa using getD_lt_256 p hb (i + 1)) (p.getD i 0)
  rw [Nat.shiftLeft_eq, Nat.mul_comm, ← h, Nat.mul_comm]

theorem group_lt (p : List Nat) (hb : ∀ b ∈ p, b < 256) (i : Nat) : group p i < 65536 := by
  rw [group_eq p hb]
  have := getD_lt_256 p hb i
  have := getD_lt_256 p hb (i + 1)
  omega

theorem group_bytes (p : List Nat) (hb : ∀ b ∈ p, b < 256) (i : Nat) :
    (group p i >>> 8) % 256 = p.getD i 0 ∧ group p i % 256 = p.getD (i + 1) 0 := by
  rw [group_eq p hb, Nat.shiftRight_eq_div_pow]
  have h1 := getD_lt_256 p hb i
  have h2 := getD_lt_256 p hb (i + 1)
  generalize p.getD i 0 = a at h1 ⊢
  generalize p.getD (i + 1) 0 = b at h2 ⊢
  have e : (2 : Nat) ^ 8 = 256 := by norm_num
  rw [e]
  omega

theorem groupsOf_length (p : List Nat) (i n : Nat) : (groupsOf p i n).length = n := by
  induction n generalizing i with
  | zero => rfl
  | succ n ih => simp [groupsOf, ih]

theorem groupsOf_lt (p : List Nat) (hb : ∀ b ∈ p, b < 256) (i n : Nat) :
    ∀ x ∈ groupsOf p i n, x < 65536 := by
  induction n generalizing i with
  | zero => simp [groupsOf]
  | succ n ih =>
    intro x hx
    simp only [groupsOf, List.mem_cons] at hx
    rcases hx with hx | hx
    · rw [hx]; exact group_lt p hb i
    · exact ih _ x hx

theorem writeGroups_length (ip : List Nat) (i : Nat) (gs : List Nat) :
    (writeGroups ip i gs).length = ip.length := by
  induction gs generalizing ip i with
  | nil => rfl
  | cons g gs ih => simp [writeGroups, ih]

theorem getD_set (l : List Nat) (i k v : Nat) (h : i < l.length) :
    (l.set i v).getD k 0 = if k = i then v else l.getD k 0 := by
  simp only [List.getD_eq_getElem?_getD, List.getElem?_set]
  by_cases hk : i = k
  · subst hk; simp [h]
  · have : ¬ k = i := fun e => hk e.symm
    simp [hk, this]

/-- The bytes of an address after the groups of `p` from byte `j` on are stored
from byte `i` on. -/
theorem writeGroups_getD (p : List Nat) (hb : ∀ b ∈ p, b < 256) (n : Nat) (ip : List Nat)
    (i j k : Nat) (hlen : i + 2 * n ≤ ip.length) :
    (writeGroups ip i (groupsOf p j n)).getD k 0 =
      if i ≤ k ∧ k < i + 2 * n then p.getD (k - i + j) 0 else ip.getD k 0 := by
  induction n generalizing ip i j with
  | zero =>
    have : ¬ (i ≤ k ∧ k < i + 2 * 0) := by omega
    rw [if_neg this]
    rfl
  | succ n ih =>
    simp only [groupsOf, writeGroups]
    rw [ih _ (i + 2) (j + 2) (by simp; omega)]
    obtain ⟨hhi, hlo⟩ := group_bytes p hb j
    rw [hhi, hlo]
    by_cases h1 : i + 2 ≤ k ∧ k < i + 2 + 2 * n
    · have h2 : i ≤ k ∧ k < i + 2 * (n + 1) := by omega
      rw [if_pos h1, if_pos h2]
      congr 1
      omega
    · rw [if_neg h1, getD_set _ _ _ _ (by simp; omega), getD_set _ _ _ _ (by omega)]
      by_cases hk1 : k = i + 1
      · have h2 : i ≤ k ∧ k < i + 2 * (n + 1) := by omega
        rw [if_pos hk1, if_pos h2]
        congr 1
        omega
      · rw [if_neg hk1]
        by_cases hk0 : k = i
        · have h2 : i ≤ k ∧ k < i + 2 * (n + 1) := by omega
          rw [if_pos hk0, if_pos h2]
          congr 1
          omega
        · have h2 : ¬ (i ≤ k ∧ k < i + 2 * (n + 1)) := by omega
          rw [if_neg hk0, if_neg h2]

/-! ## The ellipsis of `parseIPv6` -/

theorem expandShift_length (ell n m : Nat) (ip : List Nat) :
    (expandShift ell n m ip).length = ip.length := by
  induction m generalizing ip with
  | zero => rfl
  | succ m ih => simp [expandShift, ih]

theorem expandZero_length (ell m : Nat) (ip : List Nat) :
    (expandZero ell m ip).length = ip.length := by
  induction m generalizing ip with
  | zero => rfl
  | succ m ih => simp [expandZero, ih]

theorem expandShift_getD (ell n m k : Nat) (ip : List Nat) (hlen : ell + m + n ≤ ip.length) :
    (expandShift ell n m ip).getD k 0 =
      if ell + n ≤ k ∧ k < ell + n + m then ip.getD (k - n) 0 else ip.getD k 0 := by
  induction m generalizing ip with
  | zero =>
    have : ¬ (ell + n ≤ k ∧ k < ell + n + 0) := by omega
    rw [if_neg this]
    rfl
  | succ m ih =>
    simp only [expandShift]
    rw [ih _ (by simp; omega)]
    by_cases h1 : ell + n ≤ k ∧ k < ell + n + m
    · have h2 : ell + n ≤ k ∧ k < ell + n + (m + 1) := by omega
      rw [if_pos h1, if_pos h2, getD_set _ _ _ _ (by omega)]
      have : ¬ k - n = ell + m + n := by omega
      rw [if_neg this]
    · rw [if_neg h1, getD_set _ _ _ _ (by omega)]
      by_cases hk : k = ell + m + n
      · have h2 : ell + n ≤ k ∧ k < ell + n + (m + 1) := by omega
        rw [if_pos hk, if_pos h2]
        congr 1
        omega
      · have h2 : ¬ (ell + n ≤ k ∧ k < ell + n + (m + 1)) := by omega
        rw [if_neg hk, if_neg h2]

theorem expandZero_getD (ell m k : Nat) (ip : List Nat) (hlen : ell + m ≤ ip.length) :
    (expandZero ell m ip).getD k 0 =
      if ell ≤ k ∧ k < ell + m then 0 else ip.getD k 0 := by
  induction m generalizing ip with
  | zero =>
    have : ¬ (ell ≤ k ∧ k < ell + 0) := by omega
    rw [if_neg this]
    rfl
  | succ m ih =>
    simp only [expandZero]
    rw [ih _ (by simp; omega)]
    by_cases h1 : ell ≤ k ∧ k < ell + m
    · have h2 : ell ≤ k ∧ k < ell + (m + 1) := by omega
      rw [if_pos h1, if_pos h2]
    · rw [if_neg h1, getD_set _ _ _ _ (by omega)]
      by_cases hk : k = ell + m
      · have h2 : ell ≤ k ∧ k < ell + (m + 1) := by omega
        rw [if_pos hk, if_pos h2]
      · have h2 : ¬ (ell ≤ k ∧ k < ell + (m + 1)) := by omega
        rw [if_neg hk, if_neg h2]

/-! ## The text `IP.String` writes for a 16-byte address -/

theorem zeroRunEnd_spec (fuel : Nat) (p : List Nat) (j : Nat) (hj : j % 2 = 0)
    (hle : j ≤ 16) :
    zeroRunEnd fuel p j % 2 = 0 ∧ j ≤ zeroRunEnd fuel p j ∧ zeroRunEnd fuel p j ≤ 16 ∧
      ∀ m, j ≤ m → m < zeroRunEnd fuel p j → p.getD m 0 = 0 := by
  induction fuel generalizing j with
  | zero => exact ⟨hj, Nat.le_refl _, hle, fun m h1 h2 => by simp [zeroRunEnd] at h2; omega⟩
  | succ f ih =>
    simp only [zeroRunEnd, IPv6len]
    by_cases hc : j < 16 ∧ p.getD j 0 = 0 ∧ p.getD (j + 1) 0 = 0
    · rw [if_pos hc]
      obtain ⟨h1, h2, h3, h4⟩ := ih (j + 2) (by omega) (by omega)
      refine ⟨h1, by omega, h3, ?_⟩
      intro m hm1 hm2
      by_cases hm : m = j
      · rw [hm]; exact hc.2.1
      · by_cases hm' : m = j + 1
        · rw [hm']; exact hc.2.2
        · exact h4 m (by omega) hm2
    · rw [if_neg hc]
      exact ⟨hj, Nat.le_refl _, hle, fun m h1 h2 => by omega⟩

theorem findZeroRun_spec (fuel : Nat) (p : List Nat) (i : Nat) (e : Option (Nat × Nat))
    (hi : i % 2 = 0) (he : goodRun p e) : goodRun p (findZeroRun fuel p i e) := by
  induction fuel generalizing i e with
  | zero => exact he
  | succ f ih =>
    simp only [findZeroRun, IPv6len]
    by_cases h16 : ¬ i < 16
    · rw [if_pos h16]; exact he
    · rw [if_neg h16]
      obtain ⟨h1, h2, h3, h4⟩ := zeroRunEnd_spec 16 p i hi (by omega)
      split
      · apply ih _ _ (by omega)
        rename_i hc
        exact ⟨hi, h1, hc.1, h3, h4⟩
      · exact ih _ _ (by omega) he

/-- The printing loop after the ellipsis, or without one: every group is
preceded by `':'`. -/
theorem printLoop_tail (fuel : Nat) (p : List Nat) (e : Option (Nat × Nat)) (i : Nat)
    (hpast : ∀ e0 e1, e = some (e0, e1) → e0 < i) (hi0 : 0 < i) (hi : i % 2 = 0)
    (hle : i ≤ 16) (hf : 16 - i ≤ 2 * fuel) :
    printLoop fuel p e i = tailHex (groupsOf p i ((16 - i) / 2)) := by
  induction fuel generalizing i with
  | zero =>
    have : i = 16 := by omega
    subst this
    rfl
  | succ f ih =>
    by_cases h16 : ¬ i < 16
    · have : i = 16 := by omega
      subst this
      rfl
    · have hn : (16 - i) / 2 = (16 - (i + 2)) / 2 + 1 := by omega
      have hrec := ih (i + 2) (fun e0 e1 h => by have := hpast e0 e1 h; omega)
        (by omega) (by omega) (by omega) (by omega)
      rw [hn]
      simp only [printLoop, IPv6len, groupsOf, tailHex]
      rw [if_neg h16]
      cases e with
      | none =>
        simp only [hi0, if_true, hrec]
        simp
      | some ee =>
        obtain ⟨e0, e1⟩ := ee
        have hne : ¬ i = e0 := by have := hpast e0 e1 rfl; omega
        simp only [hne, if_false, hi0, if_true, hrec]
        simp

/-- The printing loop at the start of the run of zeros. -/
theorem printLoop_at (fuel : Nat) (p : List Nat) (e0 e1 : Nat) (h0 : e0 < 16)
    (hlt : e0 < e1) (h1 : e1 % 2 = 0) (hle : e1 ≤ 16) (hf : 16 - e1 ≤ 2 * fuel) :
    printLoop (fuel + 1) p (some (e0, e1)) e0
      = ':' :: ':' :: joinHex (groupsOf p e1 ((16 - e1) / 2)) := by
  simp only [printLoop, IPv6len]
  have h16 : ¬ ¬ e0 < 16 := by omega
  rw [if_neg h16]
  simp only [if_true]
  by_cases hge : e1 ≥ 16
  · have : e1 = 16 := by omega
    subst this
    simp [groupsOf, joinHex]
  · rw [if_neg hge]
    have hn : (16 - e1) / 2 = (16 - (e1 + 2)) / 2 + 1 := by omega
    rw [hn]
    simp only [groupsOf, joinHex]
    rw [printLoop_tail fuel p (some (e0, e1)) (e1 + 2)
      (fun a b h => by simp at h; omega) (by omega) (by omega) (by omega) (by omega)]
    simp

/-- The printing loop before the run of zeros, after the first group. -/
theorem printLoop_before (fuel : Nat) (p : List Nat) (e0 e1 i : Nat) (hi0 : 0 < i)
    (hi : i % 2 = 0) (hie : i ≤ e0) (h0 : e0 % 2 = 0) (h016 : e0 < 16)
    (hlt : e0 < e1) (h1 : e1 % 2 = 0) (hle : e1 ≤ 16) (hf : 16 - i ≤ 2 * fuel) :
    printLoop fuel p (some (e0, e1)) i
      = tailHex (groupsOf p i ((e0 - i) / 2))
        ++ ':' :: ':' :: joinHex (groupsOf p e1 ((16 - e1) / 2)) := by
  induction fuel generalizing i with
  | zero => omega
  | succ f ih =>
    by_cases hie0 : i = e0
    · subst hie0
      rw [printLoop_at f p i e1 h016 hlt h1 hle (by omega)]
      simp [groupsOf, tailHex]
    · have hn : (e0 - i) / 2 = (e0 - (i + 2)) / 2 + 1 := by omega
      have hrec := ih (i + 2) (by omega) (by omega) (by omega) (by omega)
      rw [hn]
      simp only [printLoop, IPv6len, groupsOf, tailHex]
      have h16 : ¬ ¬ i < 16 := by omega
      rw [if_neg h16]
      simp only [hie0, if_false, hi0, if_true, hrec]
      simp

/-- The text the printing loop writes when no run of zeros is recorded. -/
theorem printLoop_zero_none (p : List Nat) :
    printLoop 16 p none 0 = joinHex (groupsOf p 0 8) := by
  have := printLoop_tail 15 p none 2 (by simp) (by omega) (by omega) (by omega) (by omega)
  show printLoop (15 + 1) p none 0 = _
  rw [printLoop, if_neg (by simp [IPv6len])]
  simp only [this]
  rfl

/-- The text the printing loop writes around a recorded run of zeros. -/
theorem printLoop_zero_some (p : List Nat) (e0 e1 : Nat) (he : goodRun p (some (e0, e1))) :
    printLoop 16 p (some (e0, e1)) 0 =
      joinHex (groupsOf p 0 (e0 / 2))
        ++ ':' :: ':' :: joinHex (groupsOf p e1 ((16 - e1) / 2)) := by
  obtain ⟨h0, h1, hlt, hle, -⟩ := he
  by_cases hz : e0 = 0
  · subst hz
    show printLoop (15 + 1) p (some (0, e1)) 0 = _
    rw [printLoop_at 15 p 0 e1 (by omega) hlt h1 hle (by omega)]
    simp [groupsOf, joinHex]
  · have hn : e0 / 2 = (e0 - 2) / 2 + 1 := by omega
    have := printLoop_before 15 p e0 e1 2 (by omega) (by omega) (by omega) h0 (by omega)
      hlt h1 hle (by omega)
    have hne : ¬ 0 = e0 := fun h => hz h.symm
    show printLoop (15 + 1) p (some (e0, e1)) 0 = _
    rw [printLoop, if_neg (by simp [IPv6len])]
    simp only [hne, if_false, this, hn, groupsOf, joinHex, Nat.lt_irrefl, List.nil_append,
      List.append_assoc]

/-! ## Round trip of the colon-hexadecimal form -/

theorem ext_getD_lt (l1 l2 : List Nat) (hl : l1.length = l2.length)
    (h : ∀ m, m < l1.length → l1.getD m 0 = l2.getD m 0) : l1 = l2 := by
  apply List.ext_getElem hl
  intro m h1 h2
  have := h m h1
  simpa [List.getD_eq_getElem?_getD, List.getElem?_eq_getElem h1,
    List.getElem?_eq_getElem h2] using this

theorem getD_replicate_zero (n k : Nat) : (List.replicate n 0).getD k 0 = 0 := by
  rw [List.getD_eq_getElem?_getD, List.getElem?_replicate]
  split <;> rfl

theorem parseIPv6_hex_head (c : Char) (cs : List Char) (hc : c ≠ ':') :
    parseIPv6 (c :: cs) =
      parseIPv6Finish (parseIPv6Loop IPv6len (c :: cs) (List.replicate IPv6len 0) 0 none) := by
  unfold parseIPv6
  simp [hc]

theorem parseIPv6_ellipsis_head (r : List Char) :
    parseIPv6 (':' :: ':' :: r) =
      if r.length = 0 then some (List.replicate IPv6len 0)
      else parseIPv6Finish (parseIPv6Loop IPv6len r (List.replicate IPv6len 0) 0 (some 0)) := by
  unfold parseIPv6
  simp

/-- The end of `parseIPv6` when the groups before and after a run of zeros of
`p` have been stored next to each other: the ellipsis is expanded to `p`. -/
theorem parseIPv6Finish_ellipsis (p ipf : List Nat) (e0 e1 : Nat) (hp : p.length = 16)
    (he : goodRun p (some (e0, e1))) (hl : ipf.length = 16)
    (hget : ∀ k, k < e0 + (16 - e1) →
      ipf.getD k 0 = if k < e0 then p.getD k 0 else p.getD (k - e0 + e1) 0) :
    parseIPv6Finish (some ([], ipf, e0 + (16 - e1), some e0)) = some p := by
  obtain ⟨h0, h1, hlt, hle, hz⟩ := he
  simp only [parseIPv6Finish, IPv6len, List.length_nil, ne_eq, not_true_eq_false, if_false]
  have hi : e0 + (16 - e1) < 16 := by omega
  rw [if_pos hi]
  simp only [Option.some.injEq]
  apply ext_getD_lt
  · rw [expandZero_length, expandShift_length, hl, hp]
  · intro k hk
    rw [expandZero_length, expandShift_length, hl] at hk
    rw [expandZero_getD _ _ _ _ (by rw [expandShift_length, hl]; omega),
      expandShift_getD _ _ _ _ _ (by rw [hl]; omega)]
    by_cases c1 : e0 ≤ k ∧ k < e0 + (16 - (e0 + (16 - e1)))
    · rw [if_pos c1]
      exact (hz k c1.1 (by omega)).symm
    · rw [if_neg c1]
      by_cases c2 : e0 + (16 - (e0 + (16 - e1))) ≤ k ∧
          k < e0 + (16 - (e0 + (16 - e1))) + (e0 + (16 - e1) - e0)
      · rw [if_pos c2, hget _ (by omega)]
        have : ¬ k - (16 - (e0 + (16 - e1))) < e0 := by omega
        rw [if_neg this]
        congr 1
        omega
      · rw [if_neg c2, hget _ (by omega)]
        have : k < e0 := by omega
        rw [if_pos this]

/-- The loop of `parseIPv6` on the text of the groups that follow the run of zeros. -/
theorem parseIPv6Loop_after (p : List Nat) (hb : ∀ b ∈ p, b < 256) (k e0 e1 n : Nat)
    (ip : List Nat) (hn : n ≤ k) (hi : e0 + 2 * n ≤ 16) :
    (if (joinHex (groupsOf p e1 n)).length = 0 then
        some ([], ip, e0, some e0)
      else parseIPv6Loop k (joinHex (groupsOf p e1 n)) ip e0 (some e0))
      = some ([], writeGroups ip e0 (groupsOf p e1 n), e0 + 2 * n, some e0) := by
  cases n with
  | zero => simp [groupsOf, joinHex, writeGroups]
  | succ m =>
    have hg := groupsOf_lt p hb e1 (m + 1)
    simp only [groupsOf, joinHex] at hg ⊢
    have hne := appendHex_ne_nil (group p e1) (hg _ (by simp))
    have hlen : ¬ (appendHex (group p e1) ++ tailHex (groupsOf p (e1 + 2) m)).length = 0 := by
      intro h
      have := List.length_eq_zero.mp h
      simp at this
      exact hne this.1
    rw [if_neg hlen]
    have := parseIPv6Loop_run_end (groupsOf p (e1 + 2) m) (k - (m + 1)) (group p e1) e0 ip
      (some e0) hg (by rw [groupsOf_length]; omega)
    rw [groupsOf_length] at this
    rw [show k - (m + 1) + m + 1 = k by omega] at this
    exact this

theorem writeGroups_two_getD (p : List Nat) (hb : ∀ b ∈ p, b < 256) (e0 e1 : Nat)
    (h0 : e0 % 2 = 0) (h1 : e1 % 2 = 0) (hlt : e0 < e1) (hle : e1 ≤ 16) (k : Nat)
    (hk : k < e0 + (16 - e1)) :
    (writeGroups (writeGroups (List.replicate 16 0) 0 (groupsOf p 0 (e0 / 2))) e0
        (groupsOf p e1 ((16 - e1) / 2))).getD k 0
      = if k < e0 then p.getD k 0 else p.getD (k - e0 + e1) 0 := by
  rw [writeGroups_getD p hb _ _ _ _ _ (by rw [writeGroups_length]; simp; omega)]
  by_cases c : k < e0
  · have : ¬ (e0 ≤ k ∧ k < e0 + 2 * ((16 - e1) / 2)) := by omega
    rw [if_neg this, if_pos c, writeGroups_getD p hb _ _ _ _ _ (by simp; omega)]
    have : 0 ≤ k ∧ k < 0 + 2 * (e0 / 2) := by omega
    rw [if_pos this]
    rfl
  · have : e0 ≤ k ∧ k < e0 + 2 * ((16 - e1) / 2) := by omega
    rw [if_pos this, if_neg c]

/-- `parseIPv6` reads back the text of the eight groups of a 16-byte address. -/
theorem parseIPv6_joinHex_all (p : List Nat) (hp : p.length = 16) (hb : ∀ b ∈ p, b < 256) :
    parseIPv6 (joinHex (groupsOf p 0 8)) = some p := by
  have hg := groupsOf_lt p hb 0 8
  simp only [groupsOf, joinHex] at hg ⊢
  obtain ⟨c, cs, hc, hhex⟩ := appendHex_cons (group p 0) (hg _ (by simp))
  have hrun := parseIPv6Loop_run_end (groupsOf p 2 7) 8 (group p 0) 0 (List.replicate 16 0)
    none (by simpa [groupsOf] using hg) (by rw [groupsOf_length])
  rw [groupsOf_length] at hrun
  simp only [groupsOf] at hrun
  rw [hc] at hrun ⊢
  rw [List.cons_append, parseIPv6_hex_head c _ (hexVal_isSome_not_sep c hhex).2.1]
  rw [List.cons_append] at hrun
  simp only [IPv6len]
  rw [hrun]
  simp only [parseIPv6Finish, IPv6len, List.length_nil, ne_eq, not_true_eq_false, if_false,
    Nat.reduceMul, Nat.zero_add, Nat.lt_irrefl, if_true, Option.some.injEq]
  apply ext_getD_lt
  · rw [writeGroups_length, List.length_replicate, hp]
  · intro k hk
    rw [writeGroups_length, List.length_replicate] at hk
    have := writeGroups_getD p hb 8 (List.replicate 16 0) 0 0 k (by simp)
    simp only [groupsOf] at this
    rw [this]
    have : 0 ≤ k ∧ k < 0 + 2 * 8 := by omega
    rw [if_pos this]
    rfl

/-- `parseIPv6` reads back the text of a 16-byte address whose run of zeros from
byte `e0` to byte `e1` is written as `"::"`. -/
theorem parseIPv6_joinHex_ellipsis (p : List Nat) (hp : p.length = 16)
    (hb : ∀ b ∈ p, b < 256) (e0 e1 : Nat) (he : goodRun p (some (e0, e1))) :
    parseIPv6 (joinHex (groupsOf p 0 (e0 / 2))
      ++ ':' :: ':' :: joinHex (groupsOf p e1 ((16 - e1) / 2))) = some p := by
  have he' := he
  obtain ⟨h0, h1, hlt, hle, hz⟩ := he
  have hfin : ∀ ip : List Nat, ip.length = 16 →
      (∀ k, k < e0 + (16 - e1) →
        (writeGroups ip e0 (groupsOf p e1 ((16 - e1) / 2))).getD k 0
          = if k < e0 then p.getD k 0 else p.getD (k - e0 + e1) 0) →
      parseIPv6Finish (some ([], writeGroups ip e0 (groupsOf p e1 ((16 - e1) / 2)),
        e0 + 2 * ((16 - e1) / 2), some e0)) = some p := by
    intro ip hip hget
    rw [show e0 + 2 * ((16 - e1) / 2) = e0 + (16 - e1) by omega]
    exact parseIPv6Finish_ellipsis p _ e0 e1 hp he' (by rw [writeGroups_length, hip]) hget
  by_cases hz0 : e0 = 0
  · subst hz0
    rw [show joinHex (groupsOf p 0 (0 / 2)) = [] from rfl, List.nil_append]
    rw [parseIPv6_ellipsis_head]
    by_cases h16 : e1 = 16
    · subst h16
      rw [show joinHex (groupsOf p 16 ((16 - 16) / 2)) = [] from rfl]
      simp only [List.length_nil, if_true, Option.some.injEq, IPv6len]
      apply ext_getD_lt
      · rw [List.length_replicate, hp]
      · intro k hk
        rw [List.length_replicate] at hk
        rw [getD_replicate_zero, hz k (Nat.zero_le _) hk]
    · have hafter := parseIPv6Loop_after p hb 16 0 e1 ((16 - e1) / 2) (List.replicate 16 0)
        (by omega) (by omega)
      by_cases hl : (joinHex (groupsOf p e1 ((16 - e1) / 2))).length = 0
      · rw [if_pos hl] at hafter
        simp only [Option.some.injEq, Prod.mk.injEq, true_and] at hafter
        omega
      · rw [if_neg hl] at hafter
        rw [if_neg hl]
        simp only [IPv6len]
        rw [hafter]
        apply hfin _ (by simp)
        intro k hk
        have := writeGroups_two_getD p hb 0 e1 h0 h1 hlt hle k hk
        simpa [groupsOf, writeGroups] using this
  · have hn : e0 / 2 = (e0 / 2 - 1) + 1 := by omega
    have hg := groupsOf_lt p hb 0 (e0 / 2)
    rw [hn] at hg
    simp only [groupsOf] at hg
    have hA : groupsOf p 0 (e0 / 2) = group p 0 :: groupsOf p 2 (e0 / 2 - 1) := by
      conv_lhs => rw [hn]
      rfl
    obtain ⟨c, cs, hc, hhex⟩ := appendHex_cons (group p 0) (hg _ (by simp))
    have hrun := parseIPv6Loop_run_ellipsis (groupsOf p 2 (e0 / 2 - 1)) (16 - e0 / 2)
      (group p 0) 0 (List.replicate 16 0) (joinHex (groupsOf p e1 ((16 - e1) / 2)))
      hg (by rw [groupsOf_length]; omega)
    rw [groupsOf_length] at hrun
    rw [show 16 - e0 / 2 + (e0 / 2 - 1) + 1 = 16 by omega,
      show 0 + 2 * (e0 / 2 - 1 + 1) = e0 by omega] at hrun
    have hafter := parseIPv6Loop_after p hb (16 - e0 / 2) e0 e1 ((16 - e1) / 2)
      (writeGroups (List.replicate 16 0) 0 (group p 0 :: groupsOf p 2 (e0 / 2 - 1)))
      (by omega) (by omega)
    rw [hafter] at hrun
    rw [hA, show joinHex (group p 0 :: groupsOf p 2 (e0 / 2 - 1))
      = appendHex (group p 0) ++ tailHex (groupsOf p 2 (e0 / 2 - 1)) from rfl,
      List.append_assoc]
    rw [hc] at hrun ⊢
    rw [List.cons_append, parseIPv6_hex_head c _ (hexVal_isSome_not_sep c hhex).2.1]
    rw [List.cons_append] at hrun
    simp only [IPv6len]
    rw [hrun]
    apply hfin _ (by rw [writeGroups_length]; simp)
    intro k hk
    have := writeGroups_two_getD p hb e0 e1 h0 h1 hlt hle k hk
    rw [hA] at this
    exact this

theorem tailHex_chars (gs : List Nat) :
    ∀ c ∈ tailHex gs, (hexVal c).isSome = true ∨ c = ':' := by
  induction gs with
  | nil => simp [tailHex]
  | cons g gs ih =>
    intro c hc
    simp only [tailHex, List.mem_cons, List.mem_append] at hc
    rcases hc with hc | hc | hc
    · exact Or.inr hc
    · exact Or.inl (appendHex_hex g c hc)
    · exact ih c hc

theorem joinHex_chars (gs : List Nat) :
    ∀ c ∈ joinHex gs, (hexVal c).isSome = true ∨ c = ':' := by
  cases gs with
  | nil => simp [joinHex]
  | cons g gs =>
    intro c hc
    simp only [joinHex, List.mem_append] at hc
    rcases hc with hc | hc
    · exact Or.inl (appendHex_hex g c hc)
    · exact tailHex_chars gs c hc

/-- The scan of `ParseIP` on a text of hexadecimal digits and `':'` with at
least one `':'` hands the text to `parseIPv6`. -/
theorem ParseIPScan_hex_colon (t s : List Char)
    (h : ∀ c ∈ t, (hexVal c).isSome = true ∨ c = ':') (hc : ':' ∈ t) :
    ParseIPScan t s = parseIPv6 s := by
  induction t with
  | nil => simp at hc
  | cons c cs ih =>
    simp only [ParseIPScan]
    rcases h c (by simp) with hx | hx
    · have hne := hexVal_isSome_not_sep c hx
      rw [if_neg hne.1, if_neg hne.2.1]
      apply ih (fun x hx => h x (by simp [hx]))
      rcases List.mem_cons.mp hc with e | e
      · exact absurd e.symm hne.2.1
      · exact e
    · subst hx
      simp

/-! ## Round trip of `String` and `ParseIP` -/

theorem list4_eq (t : List Nat) (h : t.length = 4) :
    t = [t.getD 0 0, t.getD 1 0, t.getD 2 0, t.getD 3 0] := by
  match t, h with
  | [a, b, c, d], _ => rfl

theorem mem_of_getD (t : List Nat) (k : Nat) (hk : k < t.length) : t.getD k 0 ∈ t := by
  rw [List.getD_eq_getElem?_getD, List.getElem?_eq_getElem hk]
  exact List.getElem_mem hk

/-- The text of an address that has a 4-byte form `t`, and what `ParseIP` reads
from it. -/
theorem ParseIP_String_v4 (ip t : List Nat) (hne : ip.length ≠ 0) (ht : IP.To4 ip = some t)
    (htl : t.length = 4) (hb : ∀ b ∈ t, b < 256) :
    ParseIP (IP.String ip) = some (IPv4 (t.getD 0 0) (t.getD 1 0) (t.getD 2 0) (t.getD 3 0)) ∧
      '/' ∉ IP.String ip := by
  have hs : IP.String ip = uitoa (t.getD 0 0) ++ '.' :: (uitoa (t.getD 1 0) ++ '.' ::
      (uitoa (t.getD 2 0) ++ '.' :: uitoa (t.getD 3 0))) := by
    unfold IP.String
    rw [if_neg hne, ht]
    simp only [Option.getD_some, htl, IPv4len, if_true]
  have b0 := hb _ (mem_of_getD t 0 (by omega))
  have b1 := hb _ (mem_of_getD t 1 (by omega))
  have b2 := hb _ (mem_of_getD t 2 (by omega))
  have b3 := hb _ (mem_of_getD t 3 (by omega))
  rw [hs]
  refine ⟨ParseIP_dotted _ _ _ _ b0 b1 b2 b3, ?_⟩
  intro hmem
  simp only [List.mem_append, List.mem_cons] at hmem
  have hd : ('/' : Char) ≠ '.' := by decide
  rcases hmem with h | h | h | h | h | h | h
  · exact uitoa_no_slash _ b0 h
  · exact hd h
  · exact uitoa_no_slash _ b1 h
  · exact hd h
  · exact uitoa_no_slash _ b2 h
  · exact hd h
  · exact uitoa_no_slash _ b3 h

/-- The text of a 16-byte address without a 4-byte form, and what `ParseIP`
reads from it. -/
theorem ParseIP_String_v6 (ip : List Nat) (hl : ip.length = 16) (hb : ∀ b ∈ ip, b < 256)
    (ht : IP.To4 ip = none) :
    ParseIP (IP.String ip) = some ip ∧ '/' ∉ IP.String ip := by
  have hgood : goodRun ip (findZeroRun IPv6len ip 0 none) :=
    findZeroRun_spec IPv6len ip 0 none (by decide) trivial
  have hscan : ∀ s : List Char, (∀ c ∈ s, (hexVal c).isSome = true ∨ c = ':') → ':' ∈ s →
      parseIPv6 s = some ip → ParseIP s = some ip ∧ '/' ∉ s := by
    intro s hch hcol hparse
    refine ⟨?_, ?_⟩
    · unfold ParseIP
      rw [ParseIPScan_hex_colon s s hch hcol, hparse]
    · intro hmem
      rcases hch _ hmem with h | h
      · exact absurd h (by decide)
      · exact absurd h (by decide)
  have hnone : ParseIP (joinHex (groupsOf ip 0 8)) = some ip ∧
      '/' ∉ joinHex (groupsOf ip 0 8) := by
    apply hscan _ (joinHex_chars _) _ (parseIPv6_joinHex_all ip hl hb)
    simp [groupsOf, joinHex, tailHex]
  have hsome : ∀ e0 e1, goodRun ip (some (e0, e1)) →
      ParseIP (printLoop IPv6len ip (some (e0, e1)) 0) = some ip ∧
        '/' ∉ printLoop IPv6len ip (some (e0, e1)) 0 := by
    intro e0 e1 he
    have := printLoop_zero_some ip e0 e1 he
    simp only [IPv6len]
    rw [this]
    apply hscan _ _ _ (parseIPv6_joinHex_ellipsis ip hl hb e0 e1 he)
    · intro c hc
      simp only [List.mem_append, List.mem_cons] at hc
      rcases hc with hc | hc | hc | hc
      · exact joinHex_chars _ c hc
      · exact Or.inr hc
      · exact Or.inr hc
      · exact joinHex_chars _ c hc
    · simp
  unfold IP.String
  have hne : ¬ ip.length = 0 := by omega
  rw [if_neg hne, ht]
  simp only [Option.getD_none, List.length_nil, IPv4len, IPv6len, hl, ne_eq, not_true_eq_false,
    if_false]
  have h04 : ¬ (0 : Nat) = 4 := by decide
  rw [if_neg h04]
  cases hf : findZeroRun 16 ip 0 none with
  | none =>
    simp only []
    rw [printLoop_zero_none]
    exact hnone
  | some ee =>
    obtain ⟨e0, e1⟩ := ee
    simp only []
    by_cases hle : e1 - e0 ≤ 2
    · rw [if_pos hle, printLoop_zero_none]
      exact hnone
    · rw [if_neg hle]
      have hg := hgood
      simp only [IPv6len] at hg
      rw [hf] at hg
      exact hsome e0 e1 hg

/-- `ParseIP` reads back the text `String` writes for every 4-byte and 16-byte
address, up to the 4-byte form, and that text holds no `'/'`. -/
theorem ParseIP_String (ip : List Nat) (hlen : ip.length = 4 ∨ ip.length = 16)
    (hb : ∀ b ∈ ip, b < 256) :
    ∃ r, ParseIP (IP.String ip) = some r ∧ (IP.To4 r).getD r = (IP.To4 ip).getD ip ∧
      '/' ∉ IP.String ip := by
  have hne : ip.length ≠ 0 := by omega
  rcases To4_cases ip with ⟨h4, ht⟩ | ⟨h16, hm, ht⟩ | ⟨hn4, ht⟩
  · obtain ⟨h1, h2⟩ := ParseIP_String_v4 ip ip hne ht h4 hb
    refine ⟨_, h1, ?_, h2⟩
    rw [To4_IPv4, ht]
    simp only [Option.getD_some]
    exact (list4_eq ip h4).symm
  · have htl : (ip.drop 12).length = 4 := by rw [List.length_drop]; omega
    obtain ⟨h1, h2⟩ := ParseIP_String_v4 ip (ip.drop 12) hne ht htl
      (fun b hbm => hb b (List.mem_of_mem_drop hbm))
    refine ⟨_, h1, ?_, h2⟩
    rw [To4_IPv4, ht]
    simp only [Option.getD_some]
    exact (list4_eq _ htl).symm
  · have h16 : ip.length = 16 := by omega
    obtain ⟨h1, h2⟩ := ParseIP_String_v6 ip h16 hb ht
    exact ⟨ip, h1, rfl, h2⟩

/-- C3: round trip.  For every Prefix `p` whose address has 4 or 16 bytes and
whose Length satisfies `0 <= Length <= 8*len(address)`, `ParsePrefix(p.String())`
succeeds and the parsed prefix is Equal to `p`; its address is the 4-byte form of
the address of `p` when there is one (a 16-byte IPv4-mapped address comes back
as 4 bytes).  Bytes are below 256, as every Go `byte` is. -/
theorem parsePrefix_string_roundtrip (p : Prefix)
    (hlen : p.IP.length = 4 ∨ p.IP.length = 16) (hbytes : ∀ b ∈ p.IP, b < 256)
    (h0 : 0 ≤ p.Length) (h1 : p.Length ≤ 8 * (p.IP.length : Int)) :
    ∃ q, ParsePrefix p.String = .ok q ∧ q.Equal p = true ∧
      q.IP = (IP.To4 p.IP).getD p.IP ∧ q.Length = p.Length ∧
      (IP.To4 p.IP ≠ none → q.IP.length = 4) := by
  obtain ⟨r, hr, hto, hns⟩ := ParseIP_String p.IP hlen hbytes
  have hlo : -(2 ^ 63) ≤ p.Length := by omega
  have hhi : p.Length < 2 ^ 63 := by
    have : (p.IP.length : Int) ≤ 16 := by omega
    omega
  have hparse : ParsePrefix p.String = .ok ⟨(IP.To4 p.IP).getD p.IP, p.Length⟩ := by
    unfold Prefix.String
    rw [ParsePrefix_split _ _ hns, hr]
    simp only [Atoi_Itoa p.Length hlo hhi, hto]
  refine ⟨_, hparse, ?_, rfl, rfl, ?_⟩
  · rw [prefix_equal_iff_aux]
    exact ⟨rfl, (IP_Equal_iff _ _).mp (To4_getD_Equal p.IP)⟩
  · intro hnn
    rcases To4_cases p.IP with ⟨h4, ht⟩ | ⟨h16, hm, ht⟩ | ⟨hn4, ht⟩
    · rw [ht]; exact h4
    · rw [ht]
      simp only [Option.getD_some, List.length_drop]
      omega
    · exact absurd ht hnn

/-- Witness of C3 at ::ffff:192.168.1.0/120, 192.168.1.0/24 and 2001:db8::/32. -/
theorem parsePrefix_string_roundtrip_witness :
    (∃ q, ParsePrefix (Prefix.String ⟨mappedForm [192, 168, 1, 0], 120⟩) = .ok q ∧
      q.Equal ⟨mappedForm [192, 168, 1, 0], 120⟩ = true ∧
      q.IP = (IP.To4 (mappedForm [192, 168, 1, 0])).getD (mappedForm [192, 168, 1, 0]) ∧
      q.Length = 120 ∧
      (IP.To4 (mappedForm [192, 168, 1, 0]) ≠ none → q.IP.length = 4)) ∧
    (∃ q, ParsePrefix (Prefix.String ⟨[192, 168, 1, 0], 24⟩) = .ok q ∧
      q.Equal ⟨[192, 168, 1, 0], 24⟩ = true ∧
      q.IP = (IP.To4 [192, 168, 1, 0]).getD [192, 168, 1, 0] ∧ q.Length = 24 ∧
      (IP.To4 [192, 168, 1, 0] ≠ none → q.IP.length = 4)) ∧
    (∃ q, ParsePrefix (Prefix.String
        ⟨[0x20, 0x01, 0x0d, 0xb8, 0, 0, 0, 0, 0, 0, 0, 0, 0, 0, 0, 0], 32⟩) = .ok q ∧
      q.Equal ⟨[0x20, 0x01, 0x0d, 0xb8, 0, 0, 0, 0, 0, 0, 0, 0, 0, 0, 0, 0], 32⟩ = true ∧
      q.IP = (IP.To4 [0x20, 0x01, 0x0d, 0xb8, 0, 0, 0, 0, 0, 0, 0, 0, 0, 0, 0, 0]).getD
        [0x20, 0x01, 0x0d, 0xb8, 0, 0, 0, 0, 0, 0, 0, 0, 0, 0, 0, 0] ∧ q.Length = 32 ∧
      (IP.To4 [0x20, 0x01, 0x0d, 0xb8, 0, 0, 0, 0, 0, 0, 0, 0, 0, 0, 0, 0] ≠ none →
        q.IP.length = 4)) :=
  ⟨parsePrefix_string_roundtrip ⟨mappedForm [192, 168, 1, 0], 120⟩ (by decide) (by decide)
     (by decide) (by decide),
   parsePrefix_string_roundtrip ⟨[192, 168, 1, 0], 24⟩ (by decide) (by decide)
     (by decide) (by decide),
   parsePrefix_string_roundtrip ⟨[0x20, 0x01, 0x0d, 0xb8, 0, 0, 0, 0, 0, 0, 0, 0, 0, 0, 0, 0], 32⟩
     (by decide) (by decide) (by decide) (by decide)⟩

/-! ## ApplyMask on lengths outside the address -/

/-- C11: `ApplyMask` is a no-op on full or over-long lengths.  For every Prefix
with `Length >= 8*len(address)` (so for Length 32 on 4 bytes, Length 128 on 16
bytes, and an empty address with any non-negative Length) the call returns and
leaves every address byte and Length unchanged. -/
theorem applyMask_noop_on_full_length (p : Prefix)
    (h : 8 * (p.IP.length : Int) ≤ p.Length) :
    p.ApplyMask = some p ∧
    Prefix.ApplyMask ⟨[192, 168, 1, 1], 32⟩ = some ⟨[192, 168, 1, 1], 32⟩ ∧
    (∀ n : Nat, Prefix.ApplyMask ⟨[], (n : Int)⟩ = some ⟨[], (n : Int)⟩) := by
  have h0 : 0 ≤ p.Length := by omega
  obtain ⟨ip, len⟩ := p
  obtain ⟨n, rfl⟩ := Int.eq_ofNat_of_zero_le h0
  have hn : 8 * ip.length ≤ n := by
    have : (8 : Int) * (ip.length : Int) ≤ (n : Int) := h
    omega
  refine ⟨?_, by decide, ?_⟩
  · rw [ApplyMask_natCast, if_pos (by omega)]
  · intro m
    rw [ApplyMask_natCast, if_pos (by simp)]

/-- Witness of C11 at 2001:db8::1 with Length 128 and at 10.0.0.1 with Length 40. -/
theorem applyMask_noop_on_full_length_witness :
    Prefix.ApplyMask ⟨[0x20, 0x01, 0x0d, 0xb8, 0, 0, 0, 0, 0, 0, 0, 0, 0, 0, 0, 1], 128⟩
      = some ⟨[0x20, 0x01, 0x0d, 0xb8, 0, 0, 0, 0, 0, 0, 0, 0, 0, 0, 0, 1], 128⟩ ∧
    Prefix.ApplyMask ⟨[10, 0, 0, 1], 40⟩ = some ⟨[10, 0, 0, 1], 40⟩ :=
  ⟨(applyMask_noop_on_full_length
      ⟨[0x20, 0x01, 0x0d, 0xb8, 0, 0, 0, 0, 0, 0, 0, 0, 0, 0, 0, 1], 128⟩ (by decide)).1,
   (applyMask_noop_on_full_length ⟨[10, 0, 0, 1], 40⟩ (by decide)).1⟩

theorem tdiv_tmod_neg (m : Nat) :
    Int.tdiv (-(m : Int)) 8 = -((m / 8 : Nat) : Int) ∧
      Int.tmod (-(m : Int)) 8 = -((m % 8 : Nat) : Int) := by
  have h1 : Int.tdiv (-(m : Int)) 8 = -((m / 8 : Nat) : Int) := by
    rw [Int.neg_tdiv, tdiv_natCast]
  refine ⟨h1, ?_⟩
  have h2 := Int.tdiv_add_tmod (-(m : Int)) 8
  rw [h1] at h2
  have h3 : (m : Int) = 8 * ((m / 8 : Nat) : Int) + ((m % 8 : Nat) : Int) := by
    have := Nat.div_add_mod m 8
    omega
  omega

/-- What `ApplyMask` does on a negative Length: it returns at once when the
buffer is empty and `Length > -8`, and panics on an index out of range
otherwise. -/
theorem ApplyMask_negative (p : Prefix) (h : p.Length < 0) :
    p.ApplyMask = if p.IP = [] ∧ -8 < p.Length then some p else none := by
  obtain ⟨ip, len⟩ := p
  simp only at h ⊢
  obtain ⟨m, hm⟩ : ∃ m : Nat, len = -(m : Int) := ⟨(-len).toNat, by omega⟩
  subst hm
  have hm0 : 0 < m := by omega
  obtain ⟨hd, hmod⟩ := tdiv_tmod_neg m
  unfold Prefix.ApplyMask
  simp only [hd, hmod]
  by_cases hc : ip = [] ∧ -8 < -(m : Int)
  · rw [if_pos hc]
    obtain ⟨hnil, hlt⟩ := hc
    subst hnil
    have : m / 8 = 0 := by omega
    simp [this]
  · rw [if_neg hc]
    have hge : ¬ (-((m / 8 : Nat) : Int) ≥ (ip.length : Int)) := by
      intro hge
      apply hc
      have h1 : ip.length = 0 := by omega
      have h2 : m / 8 = 0 := by omega
      exact ⟨List.length_eq_zero.mp h1, by omega⟩
    rw [if_neg hge]
    by_cases h8 : m % 8 = 0
    · have hi : index ip (-((m / 8 : Nat) : Int)) = none := by
        unfold index
        rw [if_neg (by omega)]
      rw [hi]
      cases index MaskBits (-((m % 8 : Nat) : Int)) <;> rfl
    · have hi : index MaskBits (-((m % 8 : Nat) : Int)) = none := by
        unfold index
        rw [if_neg (by omega)]
      rw [hi]

/-- C12, counterexample: on 10.0.0.0 with Length -1 the call does not complete;
`MaskBits` is indexed at `-1 % 8 = -1`, outside the table. -/
theorem applyMask_negative_length_panics :
    (-1 : Int) < 0 ∧ Int.tmod (-1) 8 = -1 ∧ index MaskBits (Int.tmod (-1) 8) = none ∧
    Prefix.ApplyMask ⟨[10, 0, 0, 0], -1⟩ = none ∧
    ¬ (Prefix.ApplyMask ⟨[10, 0, 0, 0], -1⟩ = some ⟨[10, 0, 0, 0], -1⟩) := by
  decide

/-- C12, amended: over-long lengths are handled gracefully.  For every Prefix
whose Length is greater than `8*len(address)` the guard `i >= len(p.IP)` holds,
so `ApplyMask` returns before any index into the address buffer or the mask
table is taken, and the address and Length are unchanged. -/
theorem applyMask_overlong_is_noop (p : Prefix)
    (h : 8 * (p.IP.length : Int) < p.Length) :
    (p.IP.length : Int) ≤ p.Length.tdiv 8 ∧ p.ApplyMask = some p := by
  have h0 : 0 ≤ p.Length := by omega
  obtain ⟨ip, len⟩ := p
  obtain ⟨n, rfl⟩ := Int.eq_ofNat_of_zero_le h0
  have hn : 8 * ip.length < n := by
    have : (8 : Int) * (ip.length : Int) < (n : Int) := h
    omega
  refine ⟨?_, ?_⟩
  · show (ip.length : Int) ≤ Int.tdiv (n : Int) 8
    rw [tdiv_natCast]
    have : ip.length ≤ n / 8 := by omega
    exact_mod_cast this
  · rw [ApplyMask_natCast, if_pos (by omega)]

/-- Witness of amended C12 at 10.0.0.1 with Length 33. -/
theorem applyMask_overlong_is_noop_witness :
    (8 : Int) * 4 < 33 ∧ (4 : Int) ≤ Int.tdiv 33 8 ∧
    Prefix.ApplyMask ⟨[10, 0, 0, 1], 33⟩ = some ⟨[10, 0, 0, 1], 33⟩ :=
  ⟨by decide, applyMask_overlong_is_noop ⟨[10, 0, 0, 1], 33⟩ (by decide)⟩

/-- C13: `NewPrefixAFI(AFI_IP)` is 4 zero bytes with Length 0,
`NewPrefixAFI(AFI_IP6)` is 16 zero bytes with Length 0, every other family tag
(`AFI_MAX` and negative values included) gives nil, and for the two families the
new Prefix reports the family it was made for. -/
theorem newPrefixAFI_by_family (afi : Int) :
    NewPrefixAFI AFI_IP = some ⟨[0, 0, 0, 0], 0⟩ ∧
    NewPrefixAFI AFI_IP6 = some ⟨List.replicate 16 0, 0⟩ ∧
    (afi ≠ AFI_IP → afi ≠ AFI_IP6 → NewPrefixAFI afi = none) ∧
    (NewPrefixAFI afi = none ↔ (afi ≠ AFI_IP ∧ afi ≠ AFI_IP6)) ∧
    NewPrefixAFI AFI_MAX = none ∧ NewPrefixAFI (-1) = none ∧
    (NewPrefixAFI AFI_IP).map Prefix.AFI = some AFI_IP ∧
    (NewPrefixAFI AFI_IP6).map Prefix.AFI = some AFI_IP6 := by
  refine ⟨by decide, by decide, ?_, ?_, by decide, by decide, by decide, by decide⟩
  · intro h1 h2
    simp [NewPrefixAFI, h1, h2]
  · unfold NewPrefixAFI
    by_cases h1 : afi = AFI_IP
    · simp [h1]
    · by_cases h2 : afi = AFI_IP6
      · subst h2
        simp [AFI_IP, AFI_IP6]
      · simp [h1, h2]

/-- Witness of C13 at the family tag 7. -/
theorem newPrefixAFI_by_family_witness :
    (7 : Int) ≠ AFI_IP ∧ (7 : Int) ≠ AFI_IP6 ∧ NewPrefixAFI 7 = none :=
  ⟨by decide, by decide, (newPrefixAFI_by_family 7).2.2.1 (by decide) (by decide)⟩

/-- C16: `ApplyMask` changes nothing but the bits beyond the prefix.  For every
Prefix with `0 <= Length` the call returns, every bit at index `< Length` keeps
its value, the buffer keeps its number of bytes and Length its value; bit by
bit the result is the address ANDed with the mask of Length leading one bits,
and the bytes before index `Length / 8` are untouched. -/
theorem applyMask_keeps_prefix_bits (p : Prefix) (h : 0 ≤ p.Length) :
    ∃ q, p.ApplyMask = some q ∧ q.IP.length = p.IP.length ∧ q.Length = p.Length ∧
      (∀ k : Nat, (k : Int) < p.Length → bitAt q.IP k = bitAt p.IP k) ∧
      (∀ k : Nat, bitAt q.IP k = (decide ((k : Int) < p.Length) && bitAt p.IP k)) ∧
      q.IP.take (p.Length.toNat / 8) = p.IP.take (p.Length.toNat / 8) := by
  obtain ⟨ip, len⟩ := p
  obtain ⟨n, rfl⟩ := Int.eq_ofNat_of_zero_le h
  have hand : ∀ k : Nat,
      bitAt (if ip.length ≤ n / 8 then ip else maskedIP ip n) k
        = (decide ((k : Int) < (n : Int)) && bitAt ip k) := by
    intro k
    have hd : decide ((k : Int) < (n : Int)) = decide (k < n) := by
      simp
    rw [hd]
    by_cases hle : ip.length ≤ n / 8
    · rw [if_pos hle]
      by_cases hk : k < n
      · simp [hk]
      · have hz : bitAt ip k = false := by
          unfold bitAt
          have : ip.length ≤ k / 8 := by omega
          simp [List.getD_eq_getElem?_getD, List.getElem?_eq_none this]
        simp [hk, hz]
    · rw [if_neg hle]
      exact bitAt_maskedIP ip n k (by omega)
  refine ⟨_, ApplyMask_natCast ip n, ?_, rfl, ?_, hand, ?_⟩
  · by_cases hle : ip.length ≤ n / 8
    · rw [if_pos hle]
    · rw [if_neg hle]
      exact maskedIP_length ip n (by omega)
  · intro k hk
    have := hand k
    simp only at hk
    rw [this]
    simp [hk]
  · simp only [Int.toNat_ofNat]
    by_cases hle : ip.length ≤ n / 8
    · rw [if_pos hle]
    · rw [if_neg hle]
      have hlt : n / 8 < ip.length := by omega
      have hmin : min (n / 8) ip.length = n / 8 := by omega
      unfold maskedIP
      rw [List.take_append_eq_append_take, List.length_take, hmin, Nat.sub_self,
        List.take_zero, List.append_nil, List.take_take, Nat.min_self]

/-- Witness of C16 at 192.168.255.1 with Length 19. -/
theorem applyMask_keeps_prefix_bits_witness :
    ∃ q, Prefix.ApplyMask ⟨[192, 168, 255, 1], 19⟩ = some q ∧ q.IP.length = 4 ∧
      q.Length = 19 ∧
      (∀ k : Nat, (k : Int) < 19 → bitAt q.IP k = bitAt [192, 168, 255, 1] k) ∧
      (∀ k : Nat, bitAt q.IP k = (decide ((k : Int) < 19) && bitAt [192, 168, 255, 1] k)) ∧
      q.IP.take ((19 : Int).toNat / 8) = [192, 168, 255, 1].take ((19 : Int).toNat / 8) :=
  applyMask_keeps_prefix_bits ⟨[192, 168, 255, 1], 19⟩ (by decide)

/-! ## Canonical masks and `IPMask.Size` -/

theorem byte_eq_of_bits (v w : Nat) (hv : v < 256) (hw : w < 256)
    (h : ∀ j, j < 8 → v.testBit (7 - j) = w.testBit (7 - j)) : v = w := by
  apply Nat.eq_of_testBit_eq
  intro i
  by_cases hi : i < 8
  · have := h (7 - i) (by omega)
    rwa [show 7 - (7 - i) = i by omega] at this
  · have h256 : (256 : Nat) ≤ 2 ^ i := by
      have : (2 : Nat) ^ 8 ≤ 2 ^ i := Nat.pow_le_pow_right (by decide) (by omega)
      simpa using this
    rw [Nat.testBit_eq_false_of_lt (by omega), Nat.testBit_eq_false_of_lt (by omega)]

theorem bitAt_cons_lt (v : Nat) (rest : List Nat) (j : Nat) (hj : j < 8) :
    bitAt (v :: rest) j = v.testBit (7 - j) := by
  unfold bitAt
  rw [Nat.div_eq_of_lt hj, Nat.mod_eq_of_lt hj]
  rfl

theorem bitAt_cons_add (v : Nat) (rest : List Nat) (j : Nat) :
    bitAt (v :: rest) (j + 8) = bitAt rest j := by
  unfold bitAt
  have h1 : (j + 8) / 8 = j / 8 + 1 := by omega
  have h2 : (j + 8) % 8 = j % 8 := by omega
  rw [h1, h2]
  rfl

theorem canonicalMask_tail (v : Nat) (rest : List Nat) (k : Nat)
    (h : canonicalMask (v :: rest) k) : canonicalMask rest (k - 8) := by
  obtain ⟨h1, h2, h3⟩ := h
  refine ⟨?_, fun b hb => h2 b (List.mem_cons_of_mem _ hb), ?_⟩
  · simp only [List.length_cons] at h1
    omega
  · intro j hj
    have := h3 (j + 8) (by simp only [List.length_cons]; omega)
    rw [bitAt_cons_add] at this
    rw [this]
    congr 1
    apply propext
    omega

theorem canonicalMask_head (v : Nat) (rest : List Nat) (k : Nat)
    (h : canonicalMask (v :: rest) k) : v = MaskBits.getD (min k 8) 0 := by
  obtain ⟨h1, h2, h3⟩ := h
  have hv := h2 v (by simp)
  have hw : MaskBits.getD (min k 8) 0 < 256 := by
    have : min k 8 ≤ 8 := Nat.min_le_right _ _
    interval_cases (min k 8) <;> decide
  apply byte_eq_of_bits v _ hv hw
  intro j hj
  have := h3 j (by simp only [List.length_cons]; omega)
  rw [bitAt_cons_lt v rest j hj] at this
  rw [this]
  by_cases hk : k < 8
  · have hm : min k 8 = k := by omega
    rw [hm, MaskBits_testBit k j hk hj]
  · have hm : min k 8 = 8 := by omega
    rw [hm]
    have hjk : j < k := by omega
    simp only [hjk, decide_True]
    interval_cases j <;> decide

theorem restNonZero_of_canonical_zero (mask : List Nat) (h : canonicalMask mask 0) :
    restNonZero mask = false := by
  induction mask with
  | nil => rfl
  | cons b bs ih =>
    have hb := canonicalMask_head b bs 0 h
    have ht := canonicalMask_tail b bs 0 h
    simp only [Nat.zero_le, Nat.min_eq_left] at hb
    have hb0 : b = 0 := by rw [hb]; rfl
    simp only [restNonZero, hb0, ne_eq, not_true_eq_false, if_false]
    exact ih ht

theorem onesLoop_MaskBits (k n : Nat) (hk : k < 8) :
    onesLoop 8 (MaskBits.getD k 0) n = (0, n + k) := by
  interval_cases k <;> rfl

/-- On a canonical mask with `k` leading ones the loop of `simpleMaskLength`
adds `k` to its count. -/
theorem simpleMaskLengthLoop_canonical (mask : List Nat) (k n : Nat)
    (h : canonicalMask mask k) : simpleMaskLengthLoop mask n = ((n + k : Nat) : Int) := by
  induction mask generalizing k n with
  | nil =>
    have : k = 0 := by
      have := h.1
      simp at this
      exact this
    subst this
    rfl
  | cons v rest ih =>
    have hv := canonicalMask_head v rest k h
    have ht := canonicalMask_tail v rest k h
    by_cases hk : k < 8
    · have hm : min k 8 = k := by omega
      rw [hm] at hv
      have hne : ¬ v = 0xff := by
        rw [hv]
        interval_cases k <;> decide
      have hz : k - 8 = 0 := by omega
      rw [hz] at ht
      simp only [simpleMaskLengthLoop]
      rw [if_neg hne, hv, onesLoop_MaskBits k n hk]
      simp [restNonZero_of_canonical_zero rest ht]
    · have hm : min k 8 = 8 := by omega
      rw [hm] at hv
      have hff : v = 0xff := by rw [hv]; rfl
      simp only [simpleMaskLengthLoop]
      rw [if_pos hff, ih (k - 8) (n + 8) ht]
      congr 1
      omega

/-- `Size` of a canonical mask with `k` leading ones is `k` ones out of
`8*len(mask)` bits. -/
theorem Size_canonical (mask : List Nat) (k : Nat) (h : canonicalMask mask k) :
    IPMask.Size mask = ((k : Int), (mask.length : Int) * 8) := by
  unfold IPMask.Size simpleMaskLength
  rw [simpleMaskLengthLoop_canonical mask k 0 h]
  simp only [Nat.zero_add]
  have : ¬ ((k : Int) = -1) := by omega
  rw [if_neg this]

theorem To4_mappedForm (a : List Nat) (h : a.length = 4) : IP.To4 (mappedForm a) = some a := by
  rw [list4_eq a h]
  exact To4_IPv4 _ _ _ _

/-- The address `PrefixFromIPNet` stores: the 4-byte form when there is one. -/
theorem PrefixFromIPNet_IP (net : IPNet) :
    (PrefixFromIPNet net).IP = (IP.To4 net.IP).getD net.IP := by
  unfold PrefixFromIPNet
  simp only [dupIP_eq]
  cases IP.To4 net.IP <;> rfl

/-- C14: for every network/mask pair whose mask is canonical with `k` leading
one bits, `PrefixFromIPNet` returns Length `k` and a copy of the 4-byte form of
the network address when it has one (a 4-byte address, or a 16-byte IPv4-mapped
one), and otherwise a copy of the network address as given. -/
theorem prefixFromIPNet_canonical (net : IPNet) (k : Nat) (a : List Nat)
    (hmask : canonicalMask net.Mask k) :
    (PrefixFromIPNet net).Length = (k : Int) ∧
    (net.IP.length = 4 → (PrefixFromIPNet net).IP = net.IP) ∧
    (a.length = 4 → net.IP = mappedForm a → (PrefixFromIPNet net).IP = a) ∧
    (IP.To4 net.IP = none → (PrefixFromIPNet net).IP = net.IP) ∧
    (PrefixFromIPNet net).IP = (IP.To4 net.IP).getD net.IP := by
  refine ⟨?_, ?_, ?_, ?_, PrefixFromIPNet_IP net⟩
  · unfold PrefixFromIPNet
    simp only [Size_canonical net.Mask k hmask]
  · intro h4
    rw [PrefixFromIPNet_IP]
    rcases To4_cases net.IP with ⟨_, ht⟩ | ⟨h16, _, _⟩ | ⟨hn, _⟩
    · rw [ht]; rfl
    · omega
    · exact absurd h4 hn
  · intro h4 hm
    rw [PrefixFromIPNet_IP, hm, To4_mappedForm a h4]
    rfl
  · intro hn
    rw [PrefixFromIPNet_IP, hn]
    rfl

/-- Witness of C14 at 192.168.0.0 with mask ffffff00, at ::ffff:10.0.0.0 with a
16-byte mask of 104 ones, and at 2001:db8:: with a 16-byte mask of 32 ones. -/
theorem prefixFromIPNet_canonical_witness :
    canonicalMask [255, 255, 255, 0] 24 ∧
    (PrefixFromIPNet ⟨[192, 168, 0, 0], [255, 255, 255, 0]⟩).Length = 24 ∧
    (PrefixFromIPNet ⟨[192, 168, 0, 0], [255, 255, 255, 0]⟩).IP = [192, 168, 0, 0] ∧
    (PrefixFromIPNet ⟨mappedForm [10, 0, 0, 0],
      [255, 255, 255, 255, 255, 255, 255, 255, 255, 255, 255, 255, 255, 0, 0, 0]⟩).Length
      = 104 ∧
    (PrefixFromIPNet ⟨mappedForm [10, 0, 0, 0],
      [255, 255, 255, 255, 255, 255, 255, 255, 255, 255, 255, 255, 255, 0, 0, 0]⟩).IP
      = [10, 0, 0, 0] ∧
    (PrefixFromIPNet ⟨[0x20, 0x01, 0x0d, 0xb8, 0, 0, 0, 0, 0, 0, 0, 0, 0, 0, 0, 0],
      [255, 255, 255, 255, 0, 0, 0, 0, 0, 0, 0, 0, 0, 0, 0, 0]⟩).IP
      = [0x20, 0x01, 0x0d, 0xb8, 0, 0, 0, 0, 0, 0, 0, 0, 0, 0, 0, 0] :=
  ⟨by decide,
   (prefixFromIPNet_canonical ⟨[192, 168, 0, 0], [255, 255, 255, 0]⟩ 24 [] (by decide)).1,
   (prefixFromIPNet_canonical ⟨[192, 168, 0, 0], [255, 255, 255, 0]⟩ 24 []
     (by decide)).2.1 (by decide),
   (prefixFromIPNet_canonical ⟨mappedForm [10, 0, 0, 0],
     [255, 255, 255, 255, 255, 255, 255, 255, 255, 255, 255, 255, 255, 0, 0, 0]⟩ 104
     [10, 0, 0, 0] (by decide)).1,
   (prefixFromIPNet_canonical ⟨mappedForm [10, 0, 0, 0],
     [255, 255, 255, 255, 255, 255, 255, 255, 255, 255, 255, 255, 255, 0, 0, 0]⟩ 104
     [10, 0, 0, 0] (by decide)).2.2.1 (by decide) rfl,
   (prefixFromIPNet_canonical
     ⟨[0x20, 0x01, 0x0d, 0xb8, 0, 0, 0, 0, 0, 0, 0, 0, 0, 0, 0, 0],
       [255, 255, 255, 255, 0, 0, 0, 0, 0, 0, 0, 0, 0, 0, 0, 0]⟩ 32 []
     (by decide)).2.2.2.1 (by decide)⟩

/-- C18, counterexample: the network ::ffff:10.0.0.0 with the canonical 16-byte
mask of 120 ones gives the 4-byte address 10.0.0.0 with Length 120, which is
above `8*4`. -/
theorem prefixFromIPNet_mapped_out_of_range :
    (mappedForm [10, 0, 0, 0]).length = 16 ∧
    canonicalMask
      [255, 255, 255, 255, 255, 255, 255, 255, 255, 255, 255, 255, 255, 255, 255, 0] 120 ∧
    PrefixFromIPNet ⟨mappedForm [10, 0, 0, 0],
      [255, 255, 255, 255, 255, 255, 255, 255, 255, 255, 255, 255, 255, 255, 255, 0]⟩
      = ⟨[10, 0, 0, 0], 120⟩ ∧
    ¬ ((PrefixFromIPNet ⟨mappedForm [10, 0, 0, 0],
      [255, 255, 255, 255, 255, 255, 255, 255, 255, 255, 255, 255, 255, 255, 255, 0]⟩).Length
      ≤ 8 * ((PrefixFromIPNet ⟨mappedForm [10, 0, 0, 0],
        [255, 255, 255, 255, 255, 255, 255, 255, 255, 255, 255, 255, 255, 255, 255, 0]⟩).IP.length
          : Int)) := by
  decide

/-- C18, amended: `PrefixFromIPNet` yields an in-range length when the address
keeps its size.  For every network/mask pair whose address has 4 bytes, or 16
bytes and no 4-byte form, and whose mask is canonical and has the byte length
of the address, the returned Prefix satisfies
`0 <= Length <= 8*len(returned address)`. -/
theorem prefixFromIPNet_length_in_range (net : IPNet) (k : Nat)
    (hlen : net.IP.length = 4 ∨ (net.IP.length = 16 ∧ IP.To4 net.IP = none))
    (hmask : canonicalMask net.Mask k) (hsame : net.Mask.length = net.IP.length) :
    0 ≤ (PrefixFromIPNet net).Length ∧
    (PrefixFromIPNet net).Length ≤ 8 * ((PrefixFromIPNet net).IP.length : Int) ∧
    (PrefixFromIPNet net).IP = net.IP := by
  have hL : (PrefixFromIPNet net).Length = (k : Int) := by
    unfold PrefixFromIPNet
    simp only [Size_canonical net.Mask k hmask]
  have hI : (PrefixFromIPNet net).IP = net.IP := by
    rw [PrefixFromIPNet_IP]
    rcases hlen with h4 | ⟨_, hn⟩
    · rcases To4_cases net.IP with ⟨_, ht⟩ | ⟨h16, _, _⟩ | ⟨hn, _⟩
      · rw [ht]; rfl
      · omega
      · exact absurd h4 hn
    · rw [hn]; rfl
  have hk := hmask.1
  rw [hL, hI]
  refine ⟨by omega, ?_, rfl⟩
  rw [hsame] at hk
  exact_mod_cast hk

/-- Witness of amended C18 at 2001:db8:: with the 16-byte mask of 32 ones. -/
theorem prefixFromIPNet_length_in_range_witness :
    canonicalMask [255, 255, 255, 255, 0, 0, 0, 0, 0, 0, 0, 0, 0, 0, 0, 0] 32 ∧
    (0 ≤ (PrefixFromIPNet ⟨[0x20, 0x01, 0x0d, 0xb8, 0, 0, 0, 0, 0, 0, 0, 0, 0, 0, 0, 0],
      [255, 255, 255, 255, 0, 0, 0, 0, 0, 0, 0, 0, 0, 0, 0, 0]⟩).Length ∧
    (PrefixFromIPNet ⟨[0x20, 0x01, 0x0d, 0xb8, 0, 0, 0, 0, 0, 0, 0, 0, 0, 0, 0, 0],
      [255, 255, 255, 255, 0, 0, 0, 0, 0, 0, 0, 0, 0, 0, 0, 0]⟩).Length
      ≤ 8 * ((PrefixFromIPNet ⟨[0x20, 0x01, 0x0d, 0xb8, 0, 0, 0, 0, 0, 0, 0, 0, 0, 0, 0, 0],
        [255, 255, 255, 255, 0, 0, 0, 0, 0, 0, 0, 0, 0, 0, 0, 0]⟩).IP.length : Int) ∧
    (PrefixFromIPNet ⟨[0x20, 0x01, 0x0d, 0xb8, 0, 0, 0, 0, 0, 0, 0, 0, 0, 0, 0, 0],
      [255, 255, 255, 255, 0, 0, 0, 0, 0, 0, 0, 0, 0, 0, 0, 0]⟩).IP
      = [0x20, 0x01, 0x0d, 0xb8, 0, 0, 0, 0, 0, 0, 0, 0, 0, 0, 0, 0]) :=
  ⟨by decide,
   prefixFromIPNet_length_in_range
     ⟨[0x20, 0x01, 0x0d, 0xb8, 0, 0, 0, 0, 0, 0, 0, 0, 0, 0, 0, 0],
       [255, 255, 255, 255, 0, 0, 0, 0, 0, 0, 0, 0, 0, 0, 0, 0]⟩ 32
     (Or.inr (by decide)) (by decide) (by decide)⟩

/-! ## Equal as a relation -/

theorem mappedForm_length (a : List Nat) : (mappedForm a).length = 12 + a.length := by
  simp only [mappedForm, List.length_append, List.length_replicate, List.length_cons,
    List.length_nil]

theorem mappedForm_inj (a c : List Nat) (h : mappedForm a = mappedForm c) : a = c := by
  unfold mappedForm at h
  exact List.append_cancel_left h

theorem sameAddress_refl (a : List Nat) : sameAddress a a := Or.inl rfl

theorem sameAddress_symm (a b : List Nat) (h : sameAddress a b) : sameAddress b a := by
  rcases h with h | h | h
  · exact Or.inl h.symm
  · exact Or.inr (Or.inr h)
  · exact Or.inr (Or.inl h)

theorem sameAddress_trans (a b c : List Nat) (h1 : sameAddress a b) (h2 : sameAddress b c) :
    sameAddress a c := by
  rcases h1 with h1 | ⟨ha, hb⟩ | ⟨hb, ha⟩
  · rw [h1]; exact h2
  · rcases h2 with h2 | ⟨hb4, _⟩ | ⟨hc, hbc⟩
    · rw [← h2]; exact Or.inr (Or.inl ⟨ha, hb⟩)
    · have := mappedForm_length a
      rw [← hb] at this
      omega
    · rw [hb] at hbc
      exact Or.inl (mappedForm_inj a c hbc)
  · rcases h2 with h2 | ⟨_, hc⟩ | ⟨hc, hbc⟩
    · rw [← h2]; exact Or.inr (Or.inr ⟨hb, ha⟩)
    · rw [ha, hc]; exact Or.inl rfl
    · have := mappedForm_length c
      rw [← hbc] at this
      omega

/-- Two same-sized addresses are the same address only with the same bytes. -/
theorem sameAddress_same_length (a b : List Nat) (h : sameAddress a b)
    (hl : a.length = b.length) : a = b := by
  rcases h with h | ⟨ha, hb⟩ | ⟨hb, ha⟩
  · exact h
  · have := mappedForm_length a
    rw [← hb] at this
    omega
  · have := mappedForm_length b
    rw [← ha] at this
    omega

theorem Heap.storeAll_length (h : Heap) (s : Slice) (bytes : List Nat) :
    (Heap.storeAll h s bytes).length = h.length := by
  simp [Heap.storeAll]

/-- The array a slice points into, after all the bytes of the slice are
overwritten: nothing outside the window of the slice has changed. -/
theorem Heap.array_storeAll_getElem? (h : Heap) (s : Slice) (bytes : List Nat)
    (ha : s.arr < h.length) (hv : s.off + s.len ≤ (h.array s.arr).length)
    (hb : bytes.length = s.len) (k : Nat) (hk : k < s.off ∨ s.off + s.len ≤ k) :
    (Heap.array (Heap.storeAll h s bytes) s.arr)[k]? = (h.array s.arr)[k]? := by
  unfold Heap.storeAll
  rw [Heap.array_set_same h s.arr _ ha]
  generalize h.array s.arr = A at hv
  have h1 : (List.take s.off A).length = s.off := by
    rw [List.length_take]; omega
  have h2 : (List.take s.len bytes).length = s.len := by
    rw [List.length_take]; omega
  rw [List.append_assoc, List.getElem?_append, h1]
  rcases hk with hk | hk
  · rw [if_pos hk, List.getElem?_take]
    simp [hk]
  · rw [if_neg (by omega), List.getElem?_append, h2, if_neg (by omega), List.getElem?_drop]
    congr 1
    omega

/-- A write of all the bytes of one slice leaves the bytes seen through a
slice that shares no storage with it unchanged. -/
theorem Heap.load_storeAll_disjoint (h : Heap) (s t : Slice) (bytes : List Nat)
    (ha : s.arr < h.length) (hv : s.off + s.len ≤ (h.array s.arr).length)
    (hb : bytes.length = s.len) (hd : Slice.disjoint s t) :
    Heap.load (Heap.storeAll h s bytes) t = Heap.load h t := by
  by_cases harr : t.arr = s.arr
  · have hwin : s.off + s.len ≤ t.off ∨ t.off + t.len ≤ s.off := by
      rcases hd with hd | hd
      · exact absurd harr.symm hd
      · exact hd
    unfold Heap.load
    rw [harr]
    apply List.ext_getElem?
    intro j
    rw [List.getElem?_take, List.getElem?_take]
    by_cases hj : j < t.len
    · rw [if_pos hj, if_pos hj, List.getElem?_drop, List.getElem?_drop]
      exact Heap.array_storeAll_getElem? h s bytes ha hv hb (t.off + j) (by omega)
    · rw [if_neg hj, if_neg hj]
  · unfold Heap.storeAll
    exact Heap.load_set_other h t s.arr _ (Or.inr harr)

theorem Heap.array_storeAll_length (h : Heap) (s : Slice) (bytes : List Nat)
    (ha : s.arr < h.length) (hv : s.off + s.len ≤ (h.array s.arr).length)
    (hb : bytes.length = s.len) (a : Nat) :
    (Heap.array (Heap.storeAll h s bytes) a).length = (h.array a).length := by
  by_cases harr : a = s.arr
  · subst harr
    unfold Heap.storeAll
    rw [Heap.array_set_same h _ _ ha]
    simp only [List.length_append, List.length_take, List.length_drop]
    omega
  · unfold Heap.storeAll
    rw [Heap.array_set_other h s.arr a _ harr]

/-- `ApplyMask` on the address `ApplyMask` has left changes nothing. -/
theorem ApplyMask_natCast_again (ip : List Nat) (n : Nat) :
    Prefix.ApplyMask ⟨if ip.length ≤ n / 8 then ip else maskedIP ip n, (n : Int)⟩
      = some ⟨if ip.length ≤ n / 8 then ip else maskedIP ip n, (n : Int)⟩ := by
  rw [ApplyMask_natCast]
  by_cases hle : ip.length ≤ n / 8
  · simp [hle]
  · have hlt : n / 8 < ip.length := by omega
    simp only [hle, if_false, maskedIP_length ip n hlt, maskedIP_idem ip n hlt]

/-- `ApplyMask` on `p` and then on `q`, for two Equal prefixes of the same
non-zero size held in the same slice or in slices that share no storage: both
calls return, and both slices then show the masked address. -/
theorem PrefixRef.ApplyMask_both (h : Heap) (p q : PrefixRef)
    (hvp : h.validSlice p.IP) (hvq : h.validSlice q.IP) (hpos : 0 < p.IP.len)
    (hsame : p.IP.len = q.IP.len) (hsep : p.IP = q.IP ∨ Slice.disjoint p.IP q.IP)
    (h0 : 0 ≤ p.Length) (heq : PrefixRef.Equal p q h = true) :
    ∃ m h1 h2, Prefix.ApplyMask ⟨h.load p.IP, p.Length⟩ = some m ∧
      p.ApplyMask h = some h1 ∧ q.ApplyMask h1 = some h2 ∧
      Heap.load h2 p.IP = m.IP ∧ Heap.load h2 q.IP = m.IP ∧
      PrefixRef.Equal p q h2 = true := by
  obtain ⟨pip, plen⟩ := p
  obtain ⟨qip, qlen⟩ := q
  simp only at hvp hvq hpos hsame hsep h0
  obtain ⟨hpa, hpv⟩ : pip.arr < h.length ∧ pip.off + pip.len ≤ (h.array pip.arr).length := by
    rcases hvp with hz | hv
    · omega
    · exact hv
  obtain ⟨hqa, hqv⟩ : qip.arr < h.length ∧ qip.off + qip.len ≤ (h.array qip.arr).length := by
    rcases hvq with hz | hv
    · omega
    · exact hv
  have hlp := Heap.load_length h pip hpv
  have hlq := Heap.load_length h qip hqv
  unfold PrefixRef.Equal at heq
  obtain ⟨hL, hA⟩ := (prefix_equal_iff_aux _ _).mp heq
  simp only at hL hA
  have hv : Heap.load h pip = Heap.load h qip :=
    sameAddress_same_length _ _ hA (by rw [hlp, hlq, hsame])
  subst hL
  obtain ⟨n, rfl⟩ := Int.eq_ofNat_of_zero_le h0
  have hm := ApplyMask_natCast (Heap.load h pip) n
  have hm2 := ApplyMask_natCast_again (Heap.load h pip) n
  generalize hvdef : (if (Heap.load h pip).length ≤ n / 8 then Heap.load h pip
    else maskedIP (Heap.load h pip) n) = v at hm hm2
  have hvl : v.length = pip.len := by
    rw [(ApplyMask_some _ _ hm).1]
    exact hlp
  have hp1 : PrefixRef.ApplyMask ⟨pip, (n : Int)⟩ h = some (Heap.storeAll h pip v) := by
    unfold PrefixRef.ApplyMask
    simp only [hm]
  have hself1 : Heap.load (Heap.storeAll h pip v) pip = v :=
    Heap.load_storeAll_self h pip v hpa (by omega) hvl
  have hqa1 : qip.arr < (Heap.storeAll h pip v).length := by
    rw [Heap.storeAll_length]; exact hqa
  have hqv1 : qip.off + qip.len ≤ (Heap.array (Heap.storeAll h pip v) qip.arr).length := by
    rw [Heap.array_storeAll_length h pip v hpa hpv hvl]; exact hqv
  have hvlq : v.length = qip.len := by rw [hvl, hsame]
  have hfinal : ∀ h2 : Heap, Heap.load h2 pip = v → Heap.load h2 qip = v →
      PrefixRef.Equal ⟨pip, (n : Int)⟩ ⟨qip, (n : Int)⟩ h2 = true := by
    intro h2 e1 e2
    unfold PrefixRef.Equal
    rw [prefix_equal_iff_aux]
    rw [e1, e2]
    exact ⟨rfl, Or.inl rfl⟩
  rcases hsep with hsl | hdj
  · subst hsl
    have hq1 : PrefixRef.ApplyMask ⟨pip, (n : Int)⟩ (Heap.storeAll h pip v)
        = some (Heap.storeAll (Heap.storeAll h pip v) pip v) := by
      unfold PrefixRef.ApplyMask
      simp only [hself1, hm2]
    have hself2 : Heap.load (Heap.storeAll (Heap.storeAll h pip v) pip v) pip = v :=
      Heap.load_storeAll_self _ pip v hqa1 (by omega) hvl
    exact ⟨⟨v, (n : Int)⟩, _, _, hm, hp1, hq1, hself2, hself2, hfinal _ hself2 hself2⟩
  · have hq0 : Heap.load (Heap.storeAll h pip v) qip = Heap.load h pip := by
      rw [Heap.load_storeAll_disjoint h pip qip v hpa hpv hvl hdj, hv]
    have hq1 : PrefixRef.ApplyMask ⟨qip, (n : Int)⟩ (Heap.storeAll h pip v)
        = some (Heap.storeAll (Heap.storeAll h pip v) qip v) := by
      unfold PrefixRef.ApplyMask
      simp only [hq0, hm]
    have hself2 : Heap.load (Heap.storeAll (Heap.storeAll h pip v) qip v) qip = v :=
      Heap.load_storeAll_self _ qip v hqa1 (by omega) hvlq
    have hdj' : Slice.disjoint qip pip := by
      rcases hdj with a | b | c
      · exact Or.inl (fun e => a e.symm)
      · exact Or.inr (Or.inr b)
      · exact Or.inr (Or.inl c)
    have hframe : Heap.load (Heap.storeAll (Heap.storeAll h pip v) qip v) pip = v := by
      rw [Heap.load_storeAll_disjoint _ qip pip v hqa1 hqv1 hvlq hdj', hself1]
    exact ⟨⟨v, (n : Int)⟩, _, _, hm, hp1, hq1, hframe, hself2, hfinal _ hframe hself2⟩

theorem PrefixRef.Equal_comm (p q : PrefixRef) (h : Heap) :
    PrefixRef.Equal p q h = PrefixRef.Equal q p h := by
  unfold PrefixRef.Equal
  rw [Bool.eq_iff_iff, prefix_equal_iff_aux, prefix_equal_iff_aux]
  constructor
  · rintro ⟨h1, h2⟩
    exact ⟨h1.symm, sameAddress_symm _ _ h2⟩
  · rintro ⟨h1, h2⟩
    exact ⟨h1.symm, sameAddress_symm _ _ h2⟩

/-- C19, second counterexample, on the heap: two 4-byte slices of one 5-byte
array that overlap, `b[0:4]` and `b[1:5]` of `b = {7,7,7,7,7}`, with Length 8,
are Equal; after `ApplyMask` on both, in either order, they show 7.0.0.0 and
0.0.0.0 and are not Equal. -/
theorem applyMask_breaks_overlapping_equality :
    Heap.validSlice [[7, 7, 7, 7, 7]] ⟨0, 0, 4⟩ ∧ Heap.validSlice [[7, 7, 7, 7, 7]] ⟨0, 1, 4⟩ ∧
    PrefixRef.Equal ⟨⟨0, 0, 4⟩, 8⟩ ⟨⟨0, 1, 4⟩, 8⟩ [[7, 7, 7, 7, 7]] = true ∧
    PrefixRef.ApplyMask ⟨⟨0, 0, 4⟩, 8⟩ [[7, 7, 7, 7, 7]] = some [[7, 0, 0, 0, 7]] ∧
    PrefixRef.ApplyMask ⟨⟨0, 1, 4⟩, 8⟩ [[7, 0, 0, 0, 7]] = some [[7, 0, 0, 0, 0]] ∧
    PrefixRef.Equal ⟨⟨0, 0, 4⟩, 8⟩ ⟨⟨0, 1, 4⟩, 8⟩ [[7, 0, 0, 0, 0]] = false ∧
    PrefixRef.ApplyMask ⟨⟨0, 1, 4⟩, 8⟩ [[7, 7, 7, 7, 7]] = some [[7, 7, 0, 0, 0]] ∧
    PrefixRef.ApplyMask ⟨⟨0, 0, 4⟩, 8⟩ [[7, 7, 0, 0, 0]] = some [[7, 0, 0, 0, 0]] := by
  decide

/-- C20: `Equal` is an equivalence relation on Prefixes with address buffers of
any length: `p.Equal(p)` is true, `p.Equal(q) == q.Equal(p)`, and `p.Equal(q)`
with `q.Equal(r)` gives `p.Equal(r)`. -/
theorem equal_is_equivalence (p q r : Prefix) :
    p.Equal p = true ∧ p.Equal q = q.Equal p ∧
    (p.Equal q = true → q.Equal r = true → p.Equal r = true) := by
  refine ⟨?_, ?_, ?_⟩
  · rw [prefix_equal_iff_aux]
    exact ⟨rfl, sameAddress_refl _⟩
  · rw [Bool.eq_iff_iff, prefix_equal_iff_aux, prefix_equal_iff_aux]
    constructor
    · rintro ⟨h1, h2⟩
      exact ⟨h1.symm, sameAddress_symm _ _ h2⟩
    · rintro ⟨h1, h2⟩
      exact ⟨h1.symm, sameAddress_symm _ _ h2⟩
  · intro h1 h2
    rw [prefix_equal_iff_aux] at h1 h2 ⊢
    exact ⟨h1.1.trans h2.1, sameAddress_trans _ _ _ h1.2 h2.2⟩

/-- Witness of C20 at 10.0.0.1/8 in 4 bytes, in the 16-byte mapped form, and in
4 bytes again. -/
theorem equal_is_equivalence_witness :
    Prefix.Equal ⟨[10, 0, 0, 1], 8⟩ ⟨mappedForm [10, 0, 0, 1], 8⟩ = true ∧
    Prefix.Equal ⟨mappedForm [10, 0, 0, 1], 8⟩ ⟨[10, 0, 0, 1], 8⟩ = true ∧
    Prefix.Equal ⟨[10, 0, 0, 1], 8⟩ ⟨[10, 0, 0, 1], 8⟩ = true :=
  ⟨by decide, by decide,
   (equal_is_equivalence ⟨[10, 0, 0, 1], 8⟩ ⟨mappedForm [10, 0, 0, 1], 8⟩
     ⟨[10, 0, 0, 1], 8⟩).2.2 (by decide) (by decide)⟩

/-! ## The size of a parsed address -/

theorem parseIPv4_length (s : List Char) (ip : List Nat) (h : parseIPv4 s = some ip) :
    ip.length = 16 := by
  unfold parseIPv4 at h
  split at h
  · exact absurd h (by simp)
  · split at h
    · exact absurd h (by simp)
    · injection h with h
      rw [← h]
      rfl

theorem parseIPv6Loop_length (fuel : Nat) (s rest : List Char) (ip ip' : List Nat)
    (i i' : Nat) (e e' : Option Nat)
    (h : parseIPv6Loop fuel s ip i e = some (rest, ip', i', e')) :
    ip'.length = ip.length := by
  induction fuel generalizing s ip i e with
  | zero =>
    simp only [parseIPv6Loop, Option.some.injEq, Prod.mk.injEq] at h
    rw [h.2.1]
  | succ fuel ih =>
    rw [parseIPv6Loop] at h
    by_cases hi : ¬ i < IPv6len
    · rw [if_pos hi] at h
      simp only [Option.some.injEq, Prod.mk.injEq] at h
      rw [h.2.1]
    rw [if_neg hi] at h
    simp only at h
    by_cases hr : (xtoi s).2.2 = false ∨ (xtoi s).1 > 0xFFFF
    · rw [if_pos hr] at h; exact absurd h (by simp)
    rw [if_neg hr] at h
    by_cases hdot : (xtoi s).2.1 < s.length ∧ s[(xtoi s).2.1]? = some '.'
    · rw [if_pos hdot] at h
      by_cases h1 : e = none ∧ i ≠ IPv6len - IPv4len
      · rw [if_pos h1] at h; exact absurd h (by simp)
      rw [if_neg h1] at h
      by_cases h2 : i + IPv4len > IPv6len
      · rw [if_pos h2] at h; exact absurd h (by simp)
      rw [if_neg h2] at h
      cases h4 : parseIPv4 s with
      | none => rw [h4] at h; exact absurd h (by simp)
      | some ip4 =>
        rw [h4] at h
        simp only [Option.some.injEq, Prod.mk.injEq] at h
        rw [← h.2.1]
        simp
    rw [if_neg hdot] at h
    by_cases hl : (List.drop (xtoi s).2.1 s).length = 0
    · rw [if_pos hl] at h
      simp only [Option.some.injEq, Prod.mk.injEq] at h
      rw [← h.2.1]
      simp
    rw [if_neg hl] at h
    by_cases hc : (List.drop (xtoi s).2.1 s).head? ≠ some ':' ∨
        (List.drop (xtoi s).2.1 s).length = 1
    · rw [if_pos hc] at h; exact absurd h (by simp)
    rw [if_neg hc] at h
    by_cases hcolon : (List.drop (xtoi s).2.1 s).tail.head? = some ':'
    · rw [if_pos hcolon] at h
      by_cases he : e ≠ none
      · rw [if_pos he] at h; exact absurd h (by simp)
      rw [if_neg he] at h
      by_cases hu0 : (List.drop (xtoi s).2.1 s).tail.tail.length = 0
      · rw [if_pos hu0] at h
        simp only [Option.some.injEq, Prod.mk.injEq] at h
        rw [← h.2.1]
        simp
      · rw [if_neg hu0] at h
        rw [ih _ _ _ _ h]
        simp
    · rw [if_neg hcolon] at h
      rw [ih _ _ _ _ h]
      simp

theorem parseIPv6Finish_length (st : Option (List Char × List Nat × Nat × Option Nat))
    (ip : List Nat) (h : parseIPv6Finish st = some ip)
    (hl : ∀ rest ip1 i1 e1, st = some (rest, ip1, i1, e1) → ip1.length = 16) :
    ip.length = 16 := by
  cases st with
  | none => exact absurd h (by simp [parseIPv6Finish])
  | some st =>
    obtain ⟨rest, ip1, i1, e1⟩ := st
    have hl1 := hl rest ip1 i1 e1 rfl
    simp only [parseIPv6Finish] at h
    by_cases hr : rest.length ≠ 0
    · rw [if_pos hr] at h; exact absurd h (by simp)
    rw [if_neg hr] at h
    by_cases hi : i1 < IPv6len
    · rw [if_pos hi] at h
      cases e1 with
      | none => exact absurd h (by simp)
      | some ell =>
        simp only [Option.some.injEq] at h
        rw [← h, expandZero_length, expandShift_length, hl1]
    · rw [if_neg hi] at h
      by_cases he : e1 ≠ none
      · rw [if_pos he] at h; exact absurd h (by simp)
      · rw [if_neg he] at h
        simp only [Option.some.injEq] at h
        rw [← h, hl1]

theorem parseIPv6_length (s : List Char) (ip : List Nat) (h : parseIPv6 s = some ip) :
    ip.length = 16 := by
  unfold parseIPv6 at h
  simp only at h
  generalize (decide (s.length ≥ 2) && decide (s[0]? = some ':')
    && decide (s[1]? = some ':')) = lead at h
  generalize (if lead = true then s.drop 2 else s) = s0 at h
  by_cases h0 : lead = true ∧ s0.length = 0
  · rw [if_pos h0] at h
    simp only [Option.some.injEq] at h
    rw [← h]
    rfl
  · rw [if_neg h0] at h
    apply parseIPv6Finish_length _ ip h
    intro rest ip1 i1 e1 hst
    have := parseIPv6Loop_length _ _ _ _ _ _ _ _ _ hst
    rw [this]
    rfl

theorem ParseIPScan_length (t s : List Char) (ip : List Nat) (h : ParseIPScan t s = some ip) :
    ip.length = 16 := by
  induction t with
  | nil => simp [ParseIPScan] at h
  | cons c cs ih =>
    simp only [ParseIPScan] at h
    split at h
    · exact parseIPv4_length s ip h
    · split at h
      · exact parseIPv6_length s ip h
      · exact ih h

/-- Every address `net.ParseIP` returns has 16 bytes. -/
theorem ParseIP_length (s : List Char) (ip : List Nat) (h : ParseIP s = some ip) :
    ip.length = 16 :=
  ParseIPScan_length s s ip h

/-- The 4-byte form of a 16-byte address, when there is one, has 4 bytes and the
address is its IPv4-mapped form. -/
theorem To4_of_16 (ip t : List Nat) (h16 : ip.length = 16) (ht : IP.To4 ip = some t) :
    t.length = 4 ∧ ip = mappedForm t := by
  rcases To4_cases ip with ⟨h4, _⟩ | ⟨_, hm, ht'⟩ | ⟨_, hn⟩
  · omega
  · rw [ht'] at ht
    injection ht with ht
    rw [← ht]
    exact ⟨by rw [List.length_drop]; omega, hm⟩
  · rw [hn] at ht
    exact absurd ht (by simp)

/-- The size of the address `ParsePrefix` and `ParseIPv4` keep of a parsed one. -/
theorem To4_getD_length (ip : List Nat) (h16 : ip.length = 16) :
    (((IP.To4 ip).getD ip).length = 4 ∨ ((IP.To4 ip).getD ip).length = 16) ∧
      (IP.To4 ip ≠ none → ((IP.To4 ip).getD ip).length = 4) := by
  cases ht : IP.To4 ip with
  | none => exact ⟨Or.inr h16, fun h => absurd rfl h⟩
  | some t =>
    have := (To4_of_16 ip t h16 ht).1
    exact ⟨Or.inl this, fun _ => this⟩

theorem ParseIPv4_eq (s : List Char) :
    ParseIPv4 s = match ParseIP s with
      | none => none
      | some ip => some ((IP.To4 ip).getD ip) := by
  unfold ParseIPv4
  cases hp : ParseIP s with
  | none =>
    have : IP.To4 [] = none := by decide
    simp [this]
  | some ip =>
    cases ht : IP.To4 ip <;> simp [ht]

/-- C15: `ParseIPv4` has no error result and returns nil, 4 bytes or 16 bytes.
It is nil exactly when the text is not a valid textual address, the 4-byte form
when the parsed address has one (also for IPv4-mapped IPv6 text such as
"::ffff:10.0.0.1"), and the 16-byte parsed address otherwise. -/
theorem parseIPv4_result (s : List Char) (ip r : List Nat) :
    (ParseIPv4 s = none ↔ ParseIP s = none) ∧
    (ParseIPv4 s = some r → r.length = 4 ∨ r.length = 16) ∧
    (ParseIP s = some ip → ip.length = 16 ∧
      (IP.To4 ip = some r → r.length = 4 ∧ ip = mappedForm r ∧ ParseIPv4 s = some r) ∧
      (IP.To4 ip = none → ParseIPv4 s = some ip)) ∧
    ParseIPv4 "::ffff:10.0.0.1".data = some [10, 0, 0, 1] ∧
    ParseIPv4 "10.0.0.1".data = some [10, 0, 0, 1] ∧
    ParseIPv4 "2001:db8::1".data
      = some [0x20, 0x01, 0x0d, 0xb8, 0, 0, 0, 0, 0, 0, 0, 0, 0, 0, 0, 1] ∧
    ParseIPv4 "not-an-ip".data = none := by
  refine ⟨?_, ?_, ?_, by decide, by decide, by decide, by decide⟩
  · rw [ParseIPv4_eq]
    cases ParseIP s <;> simp
  · rw [ParseIPv4_eq]
    cases hp : ParseIP s with
    | none => intro h; exact absurd h (by simp)
    | some ip0 =>
      intro h
      simp only [Option.some.injEq] at h
      rw [← h]
      exact (To4_getD_length ip0 (ParseIP_length s ip0 hp)).1
  · intro hp
    have h16 := ParseIP_length s ip hp
    refine ⟨h16, ?_, ?_⟩
    · intro ht
      obtain ⟨h4, hm⟩ := To4_of_16 ip r h16 ht
      refine ⟨h4, hm, ?_⟩
      rw [ParseIPv4_eq, hp]
      simp [ht]
    · intro hn
      rw [ParseIPv4_eq, hp]
      simp [hn]

/-- Witness of C15 at "::ffff:192.168.1.7", parsed as 16 bytes and returned as
4 bytes. -/
theorem parseIPv4_result_witness :
    ParseIP "::ffff:192.168.1.7".data = some (mappedForm [192, 168, 1, 7]) ∧
    IP.To4 (mappedForm [192, 168, 1, 7]) = some [192, 168, 1, 7] ∧
    ([192, 168, 1, 7].length = 4 ∧ mappedForm [192, 168, 1, 7] = mappedForm [192, 168, 1, 7] ∧
      ParseIPv4 "::ffff:192.168.1.7".data = some [192, 168, 1, 7]) :=
  ⟨by decide, by decide,
   ((parseIPv4_result "::ffff:192.168.1.7".data (mappedForm [192, 168, 1, 7])
     [192, 168, 1, 7]).2.2.1 (by decide)).2.1 (by decide)⟩

/-! ## The address-size invariant -/

theorem IndexByte_split (s : List Char) (c : Char) (h : ¬ IndexByte s c < 0) :
    ∃ pre post, s = pre ++ c :: post ∧ c ∉ pre := by
  induction s with
  | nil => exact absurd (by simp [IndexByte] : IndexByte [] c < 0) h
  | cons x xs ih =>
    by_cases hx : x = c
    · exact ⟨[], xs, by rw [hx]; rfl, by simp⟩
    · rw [IndexByte, if_neg hx] at h
      by_cases hneg : IndexByte xs c < 0
      · rw [if_pos hneg] at h
        exact absurd (by decide : (-1 : Int) < 0) h
      · obtain ⟨pre, post, hs, hn⟩ := ih hneg
        refine ⟨x :: pre, post, by rw [hs]; rfl, ?_⟩
        intro hm
        rcases List.mem_cons.mp hm with e | e
        · exact hx e.symm
        · exact hn e

/-- What a successful `ParsePrefix` has read: an address before the first `'/'`
and an integer after it. -/
theorem ParsePrefix_ok (s : List Char) (q : Prefix) (h : ParsePrefix s = .ok q) :
    ∃ addr mask ip len, s = addr ++ '/' :: mask ∧ '/' ∉ addr ∧ ParseIP addr = some ip ∧
      Atoi mask = .ok len ∧ q = ⟨(IP.To4 ip).getD ip, len⟩ := by
  have hidx : ¬ IndexByte s '/' < 0 := by
    intro hneg
    unfold ParsePrefix at h
    simp only [hneg, if_true] at h
    exact absurd h (by simp)
  obtain ⟨addr, mask, hs, hno⟩ := IndexByte_split s '/' hidx
  subst hs
  rw [ParsePrefix_split addr mask hno] at h
  cases hp : ParseIP addr with
  | none => rw [hp] at h; exact absurd h (by simp)
  | some ip =>
    rw [hp] at h
    simp only at h
    cases ha : Atoi mask with
    | error err => rw [ha] at h; exact absurd h (by simp)
    | ok len =>
      rw [ha] at h
      simp only [Except.ok.injEq] at h
      exact ⟨addr, mask, ip, len, rfl, hno, hp, ha, h.symm⟩

theorem AFI_ne_MAX (p : Prefix) (h : p.IP.length = 4 ∨ p.IP.length = 16) :
    p.AFI ≠ AFI_MAX := by
  unfold Prefix.AFI AFI_IP AFI_IP6 AFI_MAX IPv4len IPv6len
  rcases h with h | h
  · simp [h]
  · simp [h]

/-- C17: the address-size invariant of the validated constructors.  Every
Prefix `ParsePrefix` returns and every non-nil Prefix of `NewPrefixAFI` has an
address of exactly 4 or 16 bytes, so its `AFI` is not `AFI_MAX`; `ParsePrefix`
returns 4 bytes whenever the parsed address has a 4-byte form (IPv4-mapped IPv6
text included); `ApplyMask` and `Copy` keep the buffer length. -/
theorem address_size_invariant (s : List Char) (q n p p' : Prefix) (afi : Int) :
    (ParsePrefix s = .ok q →
      (q.IP.length = 4 ∨ q.IP.length = 16) ∧ q.AFI ≠ AFI_MAX ∧
      ∃ addr mask ip, s = addr ++ '/' :: mask ∧ '/' ∉ addr ∧ ParseIP addr = some ip ∧
        (IP.To4 ip ≠ none → q.IP.length = 4)) ∧
    (NewPrefixAFI afi = some n →
      (n.IP.length = 4 ∨ n.IP.length = 16) ∧ n.AFI ≠ AFI_MAX) ∧
    (p.ApplyMask = some p' → p'.IP.length = p.IP.length) ∧
    p.Copy.IP.length = p.IP.length ∧
    ParsePrefix "::ffff:10.0.0.1/8".data = .ok ⟨[10, 0, 0, 1], 8⟩ := by
  refine ⟨?_, ?_, ?_, ?_, by decide⟩
  · intro h
    obtain ⟨addr, mask, ip, len, hs, hno, hp, -, hq⟩ := ParsePrefix_ok s q h
    have hsz := To4_getD_length ip (ParseIP_length addr ip hp)
    have hq' : q.IP = (IP.To4 ip).getD ip := by rw [hq]
    rw [← hq'] at hsz
    exact ⟨hsz.1, AFI_ne_MAX q hsz.1, addr, mask, ip, hs, hno, hp, hsz.2⟩
  · intro h
    unfold NewPrefixAFI at h
    have hn : n.IP.length = 4 ∨ n.IP.length = 16 := by
      split at h
      · injection h with h
        rw [← h]
        exact Or.inl rfl
      · split at h
        · injection h with h
          rw [← h]
          exact Or.inr rfl
        · exact absurd h (by simp)
    exact ⟨hn, AFI_ne_MAX n hn⟩
  · intro h
    exact (ApplyMask_some p p' h).1
  · show (dupIP p.IP).length = p.IP.length
    rw [dupIP_eq]

/-- Witness of C17 at "::ffff:10.0.0.1/8", family 1, and 10.9.9.9/8 masked. -/
theorem address_size_invariant_witness :
    ((([10, 0, 0, 1] : List Nat).length = 4 ∨ ([10, 0, 0, 1] : List Nat).length = 16) ∧
      Prefix.AFI ⟨[10, 0, 0, 1], 8⟩ ≠ AFI_MAX ∧
      ∃ addr mask ip, "::ffff:10.0.0.1/8".data = addr ++ '/' :: mask ∧ '/' ∉ addr ∧
        ParseIP addr = some ip ∧
        (IP.To4 ip ≠ none → ([10, 0, 0, 1] : List Nat).length = 4)) ∧
    (((List.replicate 16 0 : List Nat).length = 4 ∨
        (List.replicate 16 0 : List Nat).length = 16) ∧
      Prefix.AFI ⟨List.replicate 16 0, 0⟩ ≠ AFI_MAX) ∧
    ([10, 0, 0, 0] : List Nat).length = ([10, 9, 9, 9] : List Nat).length :=
  ⟨(address_size_invariant "::ffff:10.0.0.1/8".data ⟨[10, 0, 0, 1], 8⟩
      ⟨List.replicate 16 0, 0⟩ ⟨[10, 9, 9, 9], 8⟩ ⟨[10, 0, 0, 0], 8⟩ 1).1 (by decide),
   (address_size_invariant "::ffff:10.0.0.1/8".data ⟨[10, 0, 0, 1], 8⟩
      ⟨List.replicate 16 0, 0⟩ ⟨[10, 9, 9, 9], 8⟩ ⟨[10, 0, 0, 0], 8⟩ 1).2.1 (by decide),
   (address_size_invariant "::ffff:10.0.0.1/8".data ⟨[10, 0, 0, 1], 8⟩
      ⟨List.replicate 16 0, 0⟩ ⟨[10, 9, 9, 9], 8⟩ ⟨[10, 0, 0, 0], 8⟩ 1).2.2.1 (by decide)⟩

end Netutil
